import Mathlib

/-!
Mython: lexer and runtime, embedded from the C++ sources.

Part I embeds `lexer.h` / `lexer.cpp` (namespace `parse`): the token type and
`Lexer::SplitStream` with its helpers.  The input stream is a `List Char`.  An
`istreambuf_iterator` reads the stream buffer itself (`*it` is `sgetc()`, `++it` is
`sbumpc()`), so `input` and every iterator made from it share one position: the list
that is still unread.  A C++ exception is a value of `LexFailure`.  The counters of
type `int` are natural numbers: they count characters of the input and only grow
by 1 or 2.
-/

set_option autoImplicit false

namespace parse

/-! ## Tokens (`lexer.h`) -/

/-- The variant `TokenBase` of `lexer.h`: four valued lexemes and twenty plain ones. -/
inductive Token where
  | Number (value : Int)
  | Id (value : String)
  | Char (value : Char)
  | String (value : String)
  | Class
  | Return
  | If
  | Else
  | Def
  | Newline
  | Print
  | Indent
  | Dedent
  | And
  | Or
  | Not
  | Eq
  | NotEq
  | LessOrEq
  | GreaterOrEq
  | None
  | True
  | False
  | Eof
  deriving DecidableEq

/-- What stops `SplitStream`: the two exception classes thrown in `lexer.cpp`, the
read `tokens[tokens.size() - 1]` on an empty vector (undefined behaviour, reported
here as its own outcome), and the exhausted iteration budget of the model's loop. -/
inductive LexFailure where
  | LexerError
  | logic_error
  | out_of_bounds
  | out_of_fuel
  deriving DecidableEq

/-! ## Characters with a special role -/

/-- The character `"`. -/
def dquote : Char := Char.ofNat 34
/-- The character `'`. -/
def squote : Char := Char.ofNat 39
/-- The character `\`. -/
def backslash : Char := Char.ofNat 92
/-- The line feed `\n`. -/
def LF : Char := Char.ofNat 10
/-- The carriage return `\r`. -/
def CR : Char := Char.ofNat 13
/-- The horizontal tab `\t`. -/
def TAB : Char := Char.ofNat 9
/-- The comment sign `#`. -/
def hash : Char := Char.ofNat 35

/-- The set `token_type::Special_Char` of `lexer.h`. -/
def Special_Char : List Char :=
  ['=', '.', ',', '(', ')', '+', '>', '<', '-', '*', '/', ':', '!']

/-- The set `token_type::KeyWords` of `lexer.h` (the capitalised kind names). -/
def KeyWords : List String :=
  ["Class", "Return", "If", "Else", "Def", "Newline", "Print",
   "Indent", "Dedent", "And", "Or", "Not", "Eq", "NotEq", "LessOrEq",
   "GreaterOrEq", "None", "True", "False", "Eof"]

namespace detail

/-- The function `detail::CheckSpecialChar`. -/
def CheckSpecialChar (ch : Char) : Bool := Special_Char.contains ch

/-- The function `detail::CheckKeyWord`. -/
def CheckKeyWord (str : String) : Bool := KeyWords.contains str

/-- The loop of `detail::SplitAsStringInQuotes`: `s` is the string read so far,
`first_quote` tells whether the opening quote has been seen.  The result is the
string and the unread input. -/
def SplitAsStringInQuotesLoop (quotes : Char) :
    List Char → String → Bool → Except LexFailure (String × List Char)
  | [], _, _ => .error .logic_error
  | ch :: rest, s, first_quote =>
    if ch = quotes ∧ first_quote = true then
      .ok (s, rest)
    else if ch = quotes ∧ first_quote = false then
      SplitAsStringInQuotesLoop quotes rest s true
    else if ch = backslash then
      match rest with
      | [] => .error .logic_error
      | escaped_char :: rest2 =>
        if escaped_char = 'n' then
          SplitAsStringInQuotesLoop quotes rest2 (s.push LF) first_quote
        else if escaped_char = 't' then
          SplitAsStringInQuotesLoop quotes rest2 (s.push TAB) first_quote
        else if escaped_char = dquote then
          SplitAsStringInQuotesLoop quotes rest2 (s.push dquote) first_quote
        else if escaped_char = squote then
          SplitAsStringInQuotesLoop quotes rest2 (s.push squote) first_quote
        else .error .logic_error
    else if ch = LF ∨ ch = CR then
      .error .logic_error
    else
      SplitAsStringInQuotesLoop quotes rest (s.push ch) first_quote

/-- The function `detail::SplitAsStringInQuotes(input, quotes)`: called with the stream standing
on the opening quote. -/
def SplitAsStringInQuotes (input : List Char) (quotes : Char) :
    Except LexFailure (String × List Char) :=
  SplitAsStringInQuotesLoop quotes input "" false

/-- The loop of `detail::SplitAsStringWithoutQuotes`. -/
def SplitAsStringWithoutQuotesLoop : List Char → String → String × List Char
  | [], s => (s, [])
  | ch :: rest, s =>
    if ch = ' ' ∨ ch = LF ∨ CheckSpecialChar ch = true ∨ ch = hash then
      (s, ch :: rest)
    else if CheckKeyWord s = true then
      (s, ch :: rest)
    else
      SplitAsStringWithoutQuotesLoop rest (s.push ch)

/-- The function `detail::SplitAsStringWithoutQuotes(input)`. -/
def SplitAsStringWithoutQuotes (input : List Char) : String × List Char :=
  SplitAsStringWithoutQuotesLoop input ""

end detail

/-- The function `detail::DefineToken`. -/
def DefineToken (str : String) : Token :=
  if str = "class" then Token.Class
  else if str = "return" then Token.Return
  else if str = "if" then Token.If
  else if str = "else" then Token.Else
  else if str = "def" then Token.Def
  else if str = "\n" then Token.Newline
  else if str = "print" then Token.Print
  else if str = "and" then Token.And
  else if str = "or" then Token.Or
  else if str = "not" then Token.Not
  else if str = "==" then Token.Eq
  else if str = "!=" then Token.NotEq
  else if str = "<=" then Token.LessOrEq
  else if str = ">=" then Token.GreaterOrEq
  else if str = "None" then Token.None
  else if str = "True" then Token.True
  else if str = "False" then Token.False
  else Token.Id str

namespace detail

/-- The function `detail::CheckSpecialCharCombination`. -/
def CheckSpecialCharCombination (current_ch next_char : Char) : Bool :=
  ["==", "!=", "<=", ">="].contains (("".push current_ch).push next_char)

/-- The lambda `read_digits` of `SplitAsNumber`: at least one digit, then all the
digits that follow.  Returns the digits and the unread input. -/
def read_digits (input : List Char) : Except LexFailure (List Char × List Char) :=
  match input with
  | [] => .error .LexerError
  | ch :: _ =>
    if ch.isDigit = true then
      .ok (input.takeWhile Char.isDigit, input.dropWhile Char.isDigit)
    else .error .LexerError

/-- The value of a run of decimal digits, most significant first. -/
def digitsValue (ds : List Char) : Nat :=
  ds.foldl (fun acc d => 10 * acc + (d.toNat - 48)) 0

/-- The call `std::stoi` on the text gathered by `SplitAsNumber` (which never starts with
white space): an optional sign, then the longest run of digits; no digit or a value
outside the range of `int` makes it throw. -/
def stoi (str : List Char) : Option Int :=
  let negative : Bool := str.head? = some '-'
  let body : List Char :=
    if str.head? = some '-' ∨ str.head? = some '+' then str.tail else str
  let ds := body.takeWhile Char.isDigit
  if ds = [] then none
  else
    let v : Int := if negative = true then -(digitsValue ds : Int) else (digitsValue ds : Int)
    if -2147483648 ≤ v ∧ v ≤ 2147483647 then some v else none

/-- The statement `if (input.peek() == '-') read_char();` of `SplitAsNumber`: the
text read so far and the unread input. -/
def readMinus (input : List Char) : List Char × List Char :=
  match input with
  | ch :: rest => if ch = '-' then ([ch], rest) else ([], input)
  | [] => ([], input)

/-- The integer part in `SplitAsNumber`: a single `0`, or else `read_digits`. -/
def readIntegerPart (parsed_num input : List Char) :
    Except LexFailure (List Char × List Char) :=
  match input with
  | ch :: rest =>
    if ch = '0' then .ok (parsed_num ++ [ch], rest)
    else (read_digits input).map fun p => (parsed_num ++ p.1, p.2)
  | [] => (read_digits input).map fun p => (parsed_num ++ p.1, p.2)

/-- The exponent part in `SplitAsNumber`: after `e` or `E` an optional sign and then
`read_digits`. -/
def readExponentPart (parsed_num input : List Char) :
    Except LexFailure (List Char × List Char) :=
  match input with
  | ch :: rest =>
    if ch = 'e' ∨ ch = 'E' then
      match rest with
      | ch2 :: rest2 =>
        if ch2 = '+' ∨ ch2 = '-' then
          (read_digits rest2).map fun p => (parsed_num ++ [ch, ch2] ++ p.1, p.2)
        else (read_digits rest).map fun p => (parsed_num ++ [ch] ++ p.1, p.2)
      | [] => (read_digits rest).map fun p => (parsed_num ++ [ch] ++ p.1, p.2)
    else .ok (parsed_num, input)
  | [] => .ok (parsed_num, input)

/-- The function `detail::SplitAsNumber(input)`: returns the number and the unread input. -/
def SplitAsNumber (input : List Char) : Except LexFailure (Int × List Char) :=
  match readIntegerPart (readMinus input).1 (readMinus input).2 with
  | .error e => .error e
  | .ok (parsed2, in2) =>
    match readExponentPart parsed2 in2 with
    | .error e => .error e
    | .ok (parsed_num, in4) =>
      -- std::stoi(parsed_num); whatever it throws becomes a LexerError
      match stoi parsed_num with
      | some v => .ok (v, in4)
      | none => .error .LexerError

end detail

/-! ## `Lexer::SplitStream` -/

/-- The local variables of `Lexer::SplitStream` together with the member `tokens`. -/
structure LexerState where
  tokens : List Token
  not_space_exist : Bool
  prev_count_space : Nat
  current_count_space : Nat
  stroke_not_empty : Bool
  is_comment : Bool
  deriving DecidableEq

/-- The loop `for(int i = 2; count_space >= i; ){ i += 2; tokens.push_back(tok); }`:
one `tok` for every two columns of `count_space`. -/
def pushPerTwoColumns (tok : Token) : Nat → List Token → List Token
  | count_space + 2, tokens => pushPerTwoColumns tok count_space (tokens ++ [tok])
  | _, tokens => tokens

/-- The branch `if (it == end)` of `SplitStream`: the tokens when the input ends. -/
def atEnd (st : LexerState) : Except LexFailure (List Token) :=
  let tokens1 : List Token :=
    if st.current_count_space < st.prev_count_space then
      pushPerTwoColumns Token.Dedent (st.prev_count_space - st.current_count_space) st.tokens
    else st.tokens
  if st.stroke_not_empty = true then
    -- tokens[tokens.size() - 1] != token_type::Newline()
    match tokens1.getLast? with
    | none => .error .out_of_bounds
    | some last =>
      if last ≠ Token.Newline then .ok (tokens1 ++ [Token.Newline] ++ [Token.Eof])
      else .ok (tokens1 ++ [Token.Eof])
  else .ok (tokens1 ++ [Token.Eof])

/-- The block run at the first character of a line that is neither a blank nor a
line feed: the `Indent` or `Dedent` tokens, then `prev_count_space` takes the
line's count and `current_count_space` is cleared. -/
def indentBlock (st : LexerState) : LexerState :=
  if st.not_space_exist = false then
    { st with
      tokens :=
        if st.current_count_space ≥ st.prev_count_space then
          pushPerTwoColumns Token.Indent (st.current_count_space - st.prev_count_space) st.tokens
        else
          pushPerTwoColumns Token.Dedent (st.prev_count_space - st.current_count_space) st.tokens
      prev_count_space := st.current_count_space
      current_count_space := 0
      not_space_exist := true }
  else { st with not_space_exist := true }

/-- The tail of the loop body, from `if(c == '"' || c == '\'')` on: one lexeme
starting at the character `c`; `rest` is the input after `c`. -/
def lexeme (st : LexerState) (c : Char) (rest : List Char) :
    Except LexFailure (LexerState × List Char) :=
  if c = dquote ∨ c = squote then
    -- the inner test `it == end` is false here: `c` has just been read
    match detail.SplitAsStringInQuotes (c :: rest) c with
    | .error e => .error e
    | .ok (str, rest1) => .ok ({ st with tokens := st.tokens ++ [Token.String str] }, rest1)
  else if c = LF then
    if st.not_space_exist = true then
      .ok ({ st with stroke_not_empty := false, not_space_exist := false,
                     tokens := st.tokens ++ [Token.Newline] }, rest)
    else
      .ok ({ st with stroke_not_empty := false, current_count_space := 0 }, rest)
  else if c.isDigit = true then
    match detail.SplitAsNumber (c :: rest) with
    | .error e => .error e
    | .ok (num, rest1) => .ok ({ st with tokens := st.tokens ++ [Token.Number num] }, rest1)
  else if detail.CheckSpecialChar c = true then
    match rest with
    | [] => .ok ({ st with tokens := st.tokens ++ [Token.Char c] }, [])
    | next_ch :: rest1 =>
      if detail.CheckSpecialCharCombination c next_ch = true then
        .ok ({ st with tokens := st.tokens ++ [DefineToken (("".push c).push next_ch)] }, rest1)
      else
        .ok ({ st with tokens := st.tokens ++ [Token.Char c] }, next_ch :: rest1)
  else
    match detail.SplitAsStringWithoutQuotes (c :: rest) with
    | (str, rest1) => .ok ({ st with tokens := st.tokens ++ [DefineToken str] }, rest1)

/-- The statement `if(c == '#' && !is_comment) is_comment = true;`. -/
def markComment (st : LexerState) (c : Char) : LexerState :=
  if c = hash ∧ st.is_comment = false then { st with is_comment := true } else st

/-- The statement `if(!not_space_exist) current_count_space += columns;` run for a
space (`columns = 1`) and for a tab (`columns = 2`). -/
def countColumns (columns : Nat) (st : LexerState) : LexerState :=
  if st.not_space_exist = false then
    { st with current_count_space := st.current_count_space + columns }
  else st

/-- The statement `if(c != '\n'){ ... }` holding the indentation block. -/
def startOfContent (st : LexerState) (c : Char) : LexerState :=
  if c ≠ LF then indentBlock st else st

/-- One pass through the body of `while(true)` when the stream is not at its end:
`c` is the character under the iterator and `rest` what follows it.  Returns the
new state and the unread input. -/
def body (st : LexerState) (c : Char) (rest : List Char) :
    Except LexFailure (LexerState × List Char) :=
  let st1 := markComment st c
  if st1.is_comment = true ∧ c ≠ LF then
    .ok (st1, rest)
  else
    let st2 : LexerState := { st1 with is_comment := false }
    if c = ' ' then
      .ok (countColumns 1 st2, rest)
    else
      let st3 : LexerState := { st2 with stroke_not_empty := true }
      if c = TAB then
        .ok (countColumns 2 st3, rest)
      else
        lexeme (startOfContent st3 c) c rest

/-- The loop `while(true)` of `SplitStream`, with a budget of iterations. -/
def loop : Nat → LexerState → List Char → Except LexFailure (List Token)
  | 0, _, _ => .error .out_of_fuel
  | _ + 1, st, [] => atEnd st
  | fuel + 1, st, c :: rest =>
    match body st c rest with
    | .error e => .error e
    | .ok (st1, rest1) => loop fuel st1 rest1

/-- The state in which `SplitStream` starts on a fresh `Lexer`. -/
def initialState : LexerState :=
  { tokens := [], not_space_exist := false, prev_count_space := 0,
    current_count_space := 0, stroke_not_empty := false, is_comment := false }

/-- The function `Lexer::SplitStream(input)` as run by the constructor `Lexer::Lexer`: every
pass of the loop reads at least one character or ends, so one pass per character
and one more is budget enough. -/
def SplitStream (input : List Char) : Except LexFailure (List Token) :=
  loop (input.length + 1) initialState input

end parse


/-!
Part II: the object model and the evaluator (`runtime.cpp`, `statement.cpp`).

Objects that cannot change (`Number`, `String`, `Bool`, `Class`) are carried by
value inside the holder that points at them; a `ClassInstance` is known by its
address, and the fields of every instance live in a table that is threaded through
the evaluation next to the output stream.  Ownership (`Own` against `Share`) and
the lifetime of objects are not part of `Execute`: they are embedded apart, for
the nodes `Assignment` and `VariableValue`, in the namespace `lifetime`.
-/

namespace runtime

/-- The six comparators of `runtime.cpp` that a `Comparison` node is built with. -/
inductive Comparator where
  | Equal
  | NotEqual
  | Less
  | Greater
  | LessOrEqual
  | GreaterOrEqual
  deriving DecidableEq

mutual

/-- The nodes of `statement.cpp` (`ast::Statement`), each with the members its
`Execute` reads. -/
inductive Statement where
  /-- Node `NumericConst`: the node holds a `runtime::Number`. -/
  | NumericConst (value : Int)
  /-- Node `StringConst`: the node holds a `runtime::String`. -/
  | StringConst (value : String)
  /-- Node `BoolConst`: the node holds a `runtime::Bool`. -/
  | BoolConst (value : Bool)
  /-- The node `None`. -/
  | None
  /-- Node `VariableValue`: built from one name (`dotted_ids` empty) or from a chain of
  names (`var_name` empty). -/
  | VariableValue (var_name : String) (dotted_ids : List String)
  | Assignment (var : String) (rv : Statement)
  /-- Node `FieldAssignment`: `object` is the `VariableValue` member, given by its two
  members. -/
  | FieldAssignment (object_var_name : String) (object_dotted_ids : List String)
      (field_name : String) (rv : Statement)
  /-- Node `Print`: `argument` is the pointer `_argument` (absent means `nullptr`). -/
  | Print (argument : Option Statement) (args : List Statement) (name : String)
  | MethodCall (object : Statement) (method : String) (args : List Statement)
  | Stringify (argument : Statement)
  | Add (lhs rhs : Statement)
  | Sub (lhs rhs : Statement)
  | Mult (lhs rhs : Statement)
  | Div (lhs rhs : Statement)
  | Compound (stmts : List Statement)
  | Return (statement : Statement)
  /-- Node `ClassDefinition`: `cls` is the holder `_cls` as the node is built; the first
  execution moves it out of the node, and the model follows a first execution. -/
  | ClassDefinition (cls : ObjectHolder)
  | IfElse (condition if_body : Statement) (else_body : Option Statement)
  | Or (lhs rhs : Statement)
  | And (lhs rhs : Statement)
  | Not (argument : Statement)
  | Comparison (cmp : Comparator) (lhs rhs : Statement)
  /-- Node `NewInstance`: the member `_class_inst` is an instance of `cls` that lives in
  the node; `address` is where it lives. -/
  | NewInstance (address : Nat) (cls : Class) (args : List Statement)
  | MethodBody (body : Statement)

/-- The record `runtime::Method`. -/
inductive Method where
  | mk (name : String) (formal_params : List String) (body : Statement)

/-- The object `runtime::Class`: name, methods in the order of declaration, and the
parent class if there is one. -/
inductive Class where
  | mk (name : String) (methods : List Method) (parent : Option Class)

/-- The holder `runtime::ObjectHolder`: empty, or pointing at an object. -/
inductive ObjectHolder where
  /-- The empty holder, `ObjectHolder::None()`. -/
  | None
  | Number (value : Int)
  | String (value : String)
  | Bool (value : Bool)
  | Class (cls : Class)
  /-- A holder of the class instance at `address`, whose class is `cls`. -/
  | ClassInstance (address : Nat) (cls : Class)

end

/-- The member `name` of a method. -/
def Method.name : Method → String
  | .mk name _ _ => name

/-- The member `formal_params` of a method. -/
def Method.formal_params : Method → List String
  | .mk _ formal_params _ => formal_params

/-- The member `body` of a method. -/
def Method.body : Method → Statement
  | .mk _ _ body => body

/-- The member `_name_class`. -/
def Class.name : Class → String
  | .mk name _ _ => name

/-- The member `_methods`. -/
def Class.methods : Class → List Method
  | .mk _ methods _ => methods

/-- The member `_parent_class`. -/
def Class.parent : Class → Option Class
  | .mk _ _ parent => parent

/-- The function `Class::GetMethod`: the first method of that name among the class's own, else
what the parent finds, else nothing. -/
def Class.GetMethod : Class → String → Option Method
  | .mk _ methods parent, name =>
    match methods.find? (fun method => method.name == name) with
    | some method => some method
    | none =>
      match parent with
      | some parent_class => parent_class.GetMethod name
      | none => none

/-- The function `ClassInstance::HasMethod`, on the class of the instance. -/
def HasMethod (cls : Class) (method : String) (argument_count : Nat) : Bool :=
  match cls.GetMethod method with
  | some m => m.formal_params.length == argument_count
  | none => false

/-- The type `runtime::Closure`: a table from names to holders. -/
abbrev Closure := List (String × ObjectHolder)

/-- The lookups `closure.count(key)` and `closure.at(key)`: the holder under `key`, if any. -/
def Closure.find (closure : Closure) (key : String) : Option ObjectHolder :=
  List.lookup key closure

/-- The assignment `closure[key] = value`: replaces the holder under `key` or adds the entry. -/
def Closure.set : Closure → String → ObjectHolder → Closure
  | [], key, value => [(key, value)]
  | (k, v) :: rest, key, value =>
    if k = key then (key, value) :: rest else (k, v) :: Closure.set rest key value

/-- What `Context& context` gives access to during an evaluation: the text written
so far to `context.GetOutputStream()`, and the field tables (`Fields()`) of the
class instances, by address.  An address without an entry has no field yet. -/
structure Context where
  output : String
  instances : List (Nat × Closure)

/-- The table `Fields()` of the instance at `address`. -/
def Context.Fields (context : Context) (address : Nat) : Closure :=
  (List.lookup address context.instances).getD []

/-- The table of instances after `Fields()` of `address` became `fields`. -/
def setFields : List (Nat × Closure) → Nat → Closure → List (Nat × Closure)
  | [], address, fields => [(address, fields)]
  | (a, f) :: rest, address, fields =>
    if a = address then (address, fields) :: rest else (a, f) :: setFields rest address fields

/-- The assignment `Fields()[field_name] = value` on the instance at `address`. -/
def Context.setField (context : Context) (address : Nat) (field_name : String)
    (value : ObjectHolder) : Context :=
  { context with
    instances := setFields context.instances address
      ((context.Fields address).set field_name value) }

/-- The output `context.GetOutputStream() << text`. -/
def Context.write (context : Context) (text : String) : Context :=
  { context with output := context.output ++ text }

/-- What is thrown in `runtime.cpp` and `statement.cpp`. -/
inductive Thrown where
  /-- The exception of `throw std::runtime_error(...)`. -/
  | runtime_error
  /-- The `std::out_of_range` of `closure.at(name)` when the name is absent. -/
  | out_of_range
  /-- The `throw std::move(obj)` of `Return::Execute`. -/
  | returned (obj : ObjectHolder)

/-- How a call ends: with a value, with an exception in flight, in undefined
behaviour (a null pointer is dereferenced, an assertion fails), or because the
model's budget of nested calls is used up.  A value and an exception come with the
closure and the context as the call left them. -/
inductive Outcome (α : Type) where
  | ok (value : α) (closure : Closure) (context : Context)
  | thrown (what : Thrown) (closure : Closure) (context : Context)
  | undefined
  | out_of_fuel

/-- Sequencing: `f` runs after a call that ended with a value. -/
def Outcome.bind {α β : Type} (x : Outcome α)
    (f : α → Closure → Context → Outcome β) : Outcome β :=
  match x with
  | .ok value closure context => f value closure context
  | .thrown what closure context => .thrown what closure context
  | .undefined => .undefined
  | .out_of_fuel => .out_of_fuel

/-- The function `IsTrue` of `runtime.cpp`. -/
def IsTrue (object : ObjectHolder) : Bool :=
  match object with
  | .None => false
  | .String value => value.length != 0
  | .Number value => value != 0
  | .Bool value => value
  | _ => false

/-- The comparison `lhs < rhs` of two `std::string`: the first differing character
decides, else the shorter string is the smaller. -/
def stringLess : List Char → List Char → Bool
  | [], [] => false
  | [], _ :: _ => true
  | _ :: _, [] => false
  | a :: as, b :: bs =>
    if a.toNat < b.toNat then true
    else if b.toNat < a.toNat then false
    else stringLess as bs

/-- The value an `int` takes when the exact result does not fit: reduction modulo
2^32 into the range of `int`. -/
def wrapInt (v : Int) : Int := Int.bmod v 4294967296

/-- The text of `os << this` for the object at `address`. -/
def addressText (address : Nat) : String :=
  "0x" ++ String.mk (Nat.toDigits 16 address)

/-- The new closure of `ClassInstance::Call`: `self`, then every formal parameter
bound to the actual argument at the same index. -/
def bindParams : List String → List ObjectHolder → Closure → Closure
  | name :: names, arg :: args, closure => bindParams names args (closure.set name arg)
  | _, _, closure => closure

/-- The function `ClassInstance::Call` on the instance at `address` of class `cls`; `exec` runs
the body of the method.  The caller's closure is not touched. -/
def Call (exec : Statement → Closure → Context → Outcome ObjectHolder)
    (address : Nat) (cls : Class) (method : String) (actual_args : List ObjectHolder)
    (closure : Closure) (context : Context) : Outcome ObjectHolder :=
  if HasMethod cls method actual_args.length = false then
    .thrown .runtime_error closure context
  else
    match cls.GetMethod method with
    | some method_ =>
      let closure_new : Closure :=
        bindParams method_.formal_params actual_args [("self", .ClassInstance address cls)]
      match exec method_.body closure_new context with
      | .ok value _ context1 => .ok value closure context1
      | .thrown what _ context1 => .thrown what closure context1
      | .undefined => .undefined
      | .out_of_fuel => .out_of_fuel
    | none => .thrown .runtime_error closure context

/-- The function `Equal` of `runtime.cpp`. -/
def Equal (exec : Statement → Closure → Context → Outcome ObjectHolder)
    (lhs rhs : ObjectHolder) (closure : Closure) (context : Context) : Outcome Bool :=
  match lhs, rhs with
  | .None, .None => .ok true closure context
  | .String l, .String r => .ok (decide (l = r)) closure context
  | .Number l, .Number r => .ok (decide (l = r)) closure context
  | .Bool l, .Bool r => .ok (decide (l = r)) closure context
  | .ClassInstance address cls, _ =>
    if HasMethod cls "__eq__" 1 = true then
      (Call exec address cls "__eq__" [rhs] closure context).bind
        fun result closure1 context1 => .ok (IsTrue result) closure1 context1
    else .thrown .runtime_error closure context
  | _, _ => .thrown .runtime_error closure context

/-- The function `Less` of `runtime.cpp`. -/
def Less (exec : Statement → Closure → Context → Outcome ObjectHolder)
    (lhs rhs : ObjectHolder) (closure : Closure) (context : Context) : Outcome Bool :=
  match lhs, rhs with
  | .String l, .String r => .ok (stringLess l.data r.data) closure context
  | .Number l, .Number r => .ok (decide (l < r)) closure context
  | .Bool l, .Bool r => .ok (!l && r) closure context
  | .ClassInstance address cls, _ =>
    if HasMethod cls "__lt__" 1 = true then
      (Call exec address cls "__lt__" [rhs] closure context).bind
        fun result closure1 context1 => .ok (IsTrue result) closure1 context1
    else .thrown .runtime_error closure context
  | _, _ => .thrown .runtime_error closure context

/-- The function `NotEqual` of `runtime.cpp`. -/
def NotEqual (exec : Statement → Closure → Context → Outcome ObjectHolder)
    (lhs rhs : ObjectHolder) (closure : Closure) (context : Context) : Outcome Bool :=
  (Equal exec lhs rhs closure context).bind fun e closure1 context1 =>
    .ok (!e) closure1 context1

/-- The function `Greater` of `runtime.cpp`: `!Less(...) && !Equal(...)`, the second call only
when the first gave `false`. -/
def Greater (exec : Statement → Closure → Context → Outcome ObjectHolder)
    (lhs rhs : ObjectHolder) (closure : Closure) (context : Context) : Outcome Bool :=
  (Less exec lhs rhs closure context).bind fun l closure1 context1 =>
    if l = true then .ok false closure1 context1
    else (Equal exec lhs rhs closure1 context1).bind fun e closure2 context2 =>
      .ok (!e) closure2 context2

/-- The function `LessOrEqual` of `runtime.cpp`: `Less(...) || Equal(...)`. -/
def LessOrEqual (exec : Statement → Closure → Context → Outcome ObjectHolder)
    (lhs rhs : ObjectHolder) (closure : Closure) (context : Context) : Outcome Bool :=
  (Less exec lhs rhs closure context).bind fun l closure1 context1 =>
    if l = true then .ok true closure1 context1
    else Equal exec lhs rhs closure1 context1

/-- The function `GreaterOrEqual` of `runtime.cpp`. -/
def GreaterOrEqual (exec : Statement → Closure → Context → Outcome ObjectHolder)
    (lhs rhs : ObjectHolder) (closure : Closure) (context : Context) : Outcome Bool :=
  (Less exec lhs rhs closure context).bind fun l closure1 context1 =>
    .ok (!l) closure1 context1

/-- The call `_cmp(obj_lhs, obj_rhs, context)` of a `Comparison` node. -/
def applyComparator (cmp : Comparator)
    (exec : Statement → Closure → Context → Outcome ObjectHolder)
    (lhs rhs : ObjectHolder) (closure : Closure) (context : Context) : Outcome Bool :=
  match cmp with
  | .Equal => Equal exec lhs rhs closure context
  | .NotEqual => NotEqual exec lhs rhs closure context
  | .Less => Less exec lhs rhs closure context
  | .Greater => Greater exec lhs rhs closure context
  | .LessOrEqual => LessOrEqual exec lhs rhs closure context
  | .GreaterOrEqual => GreaterOrEqual exec lhs rhs closure context

/-- Modelled from the spec: `Execute` of the constant nodes `NumericConst`,
`StringConst` and `BoolConst`, whose code (the template `ValueStatement` of
`statement.h`) is not among the sources.  The node returns a holder of its value and
touches neither the closure nor the context. -/
def executeValueStatement (value : ObjectHolder) (closure : Closure) (context : Context) :
    Outcome ObjectHolder :=
  .ok value closure context

/-- Modelled from the spec: `Execute` of the node `None`, whose code is in
`statement.h`, not among the sources.  The sources build a `None` result only as the
empty holder (`ObjectHolder::None()`, `return {}`), and so does this node. -/
def executeNone (closure : Closure) (context : Context) : Outcome ObjectHolder :=
  .ok .None closure context

/-- Modelled from the spec: `Print` of a `Number`, in `runtime.h`, not among the
sources: the value in decimal. -/
def printNumber (value : Int) : String := toString value

/-- Modelled from the spec: `Print` of a `String`, in `runtime.h`, not among the
sources: the bytes of the string, without quotes. -/
def printString (value : String) : String := value

/-- The test `n && n->GetValue()` after `n = obj.TryAs<runtime::Number>()`. -/
def isNonZeroNumber (obj : ObjectHolder) : Bool :=
  match obj with
  | .Number value => value != 0
  | _ => false

/-- The test `s && s->GetValue().size() != 0` after `s = obj.TryAs<runtime::String>()`. -/
def isNonEmptyString (obj : ObjectHolder) : Bool :=
  match obj with
  | .String value => value.length != 0
  | _ => false

/-- The test `b && b->GetValue()` after `b = obj.TryAs<runtime::Bool>()`. -/
def isTrueBool (obj : ObjectHolder) : Bool :=
  match obj with
  | .Bool value => value
  | _ => false

/-- The test `n && !n->GetValue()` of `Not::Execute`. -/
def isZeroNumber (obj : ObjectHolder) : Bool :=
  match obj with
  | .Number value => value == 0
  | _ => false

/-- The test `s && !(s->GetValue().size() != 0)` of `Not::Execute`. -/
def isEmptyString (obj : ObjectHolder) : Bool :=
  match obj with
  | .String value => value.length == 0
  | _ => false

/-- The test `b && !b->GetValue()` of `Not::Execute`. -/
def isFalseBool (obj : ObjectHolder) : Bool :=
  match obj with
  | .Bool value => !value
  | _ => false

/-- The loop `for(st : _args) args.push_back(st->Execute(closure, context));`. -/
def executeArgs (exec : Statement → Closure → Context → Outcome ObjectHolder) :
    List Statement → Closure → Context → Outcome (List ObjectHolder)
  | [], closure, context => .ok [] closure context
  | st :: rest, closure, context =>
    (exec st closure context).bind fun obj closure1 context1 =>
      (executeArgs exec rest closure1 context1).bind fun objs closure2 context2 =>
        .ok (obj :: objs) closure2 context2

/-- The loop of `Compound::Execute`: every statement in turn, its value dropped. -/
def executeEach (exec : Statement → Closure → Context → Outcome ObjectHolder) :
    List Statement → Closure → Context → Outcome Unit
  | [], closure, context => .ok () closure context
  | st :: rest, closure, context =>
    (exec st closure context).bind fun _ closure1 context1 =>
      executeEach exec rest closure1 context1

/-- The descent of `VariableValue::Execute` through a chain of names after the
first: `obj.TryAs<ClassInstance>()->Fields()` and then `at(name)`. -/
def descend (context : Context) : ObjectHolder → List String → Closure → Outcome ObjectHolder
  | obj, [], closure => .ok obj closure context
  | obj, name :: rest, closure =>
    match obj with
    | .ClassInstance address _ =>
      match (context.Fields address).find name with
      | some next => descend context next rest closure
      | none => .thrown .out_of_range closure context
    | _ => .undefined

/-- The function `VariableValue::Execute`. -/
def executeVariableValue (var_name : String) (dotted_ids : List String)
    (closure : Closure) (context : Context) : Outcome ObjectHolder :=
  if var_name.length ≠ 0 ∧ dotted_ids.length = 0 then
    match closure.find var_name with
    | none => .thrown .runtime_error closure context
    | some obj => .ok obj closure context
  else if var_name.length = 0 ∧ dotted_ids.length ≠ 0 then
    match dotted_ids with
    | [] => .ok .None closure context
    | name :: rest =>
      match closure.find name with
      | none => .thrown .out_of_range closure context
      | some obj => descend context obj rest closure
  else .thrown .runtime_error closure context

/-- The loop of `Print::Execute` over `_args`: each value is executed and printed
(`None` for an empty holder), with a space after all but the last.  `count` is the
index of the first statement of the list, `size` is `_args.size()`. -/
def printArgs (exec : Statement → Closure → Context → Outcome ObjectHolder)
    (print : ObjectHolder → Closure → Context → Outcome String) (size : Nat) :
    List Statement → Nat → Closure → Context → Outcome Unit
  | [], _, closure, context => .ok () closure context
  | st :: rest, count, closure, context =>
    (exec st closure context).bind fun obj closure1 context1 =>
      let written : Outcome Unit :=
        match obj with
        | .None => .ok () closure1 (context1.write "None")
        | _ => (print obj closure1 context1).bind fun text closure2 context2 =>
            .ok () closure2 (context2.write text)
      written.bind fun _ closure3 context3 =>
        printArgs exec print size rest (count + 1) closure3
          (if count < size - 1 then context3.write " " else context3)

mutual

/-- The call `obj->Print(os, context)` for the holder `obj`: the text written to `os`.  A
class instance with `__str__` runs it first; whatever that prints goes to the
context, and only then the text of the result goes to `os`. -/
def PrintObject : Nat → ObjectHolder → Closure → Context → Outcome String
  | 0, _, _, _ => .out_of_fuel
  | fuel + 1, obj, closure, context =>
    match obj with
    | .None => .undefined
    | .Number value => .ok (printNumber value) closure context
    | .String value => .ok (printString value) closure context
    | .Bool value => .ok (if value = true then "True" else "False") closure context
    | .Class cls =>
      if cls.name.length = 0 then .undefined
      else .ok ("Class " ++ cls.name) closure context
    | .ClassInstance address cls =>
      if HasMethod cls "__str__" 0 = true then
        (Call (Execute fuel) address cls "__str__" [] closure context).bind
          fun result closure1 context1 => PrintObject fuel result closure1 context1
      else .ok (addressText address) closure context

/-- The function `Statement::Execute(closure, context)` for every node of `statement.cpp`.  The
first argument bounds the depth of nested calls. -/
def Execute : Nat → Statement → Closure → Context → Outcome ObjectHolder
  | 0, _, _, _ => .out_of_fuel
  | fuel + 1, stmt, closure, context =>
    match stmt with
    | .NumericConst value => executeValueStatement (.Number value) closure context
    | .StringConst value => executeValueStatement (.String value) closure context
    | .BoolConst value => executeValueStatement (.Bool value) closure context
    | .None => executeNone closure context
    | .VariableValue var_name dotted_ids =>
      executeVariableValue var_name dotted_ids closure context
    | .Assignment var rv =>
      -- by value; which holder owns the object is in `lifetime.Assignment.Execute`
      (Execute fuel rv closure context).bind fun obj closure1 context1 =>
        .ok obj (closure1.set var obj) context1
    | .FieldAssignment object_var_name object_dotted_ids field_name rv =>
      (executeVariableValue object_var_name object_dotted_ids closure context).bind
        fun obj closure1 context1 =>
          (Execute fuel rv closure1 context1).bind fun value closure2 context2 =>
            match obj with
            | .ClassInstance address _ =>
              Execute fuel rv closure2 (context2.setField address field_name value)
            | _ => .undefined
    | .Print argument args name =>
      if argument.isNone = true ∧ args.length = 0 then
        if name.length = 0 then
          .ok .None closure (context.write "\n")
        else
          match closure.find name with
          | none => .thrown .out_of_range closure context
          | some obj =>
            match obj with
            | .None => .ok obj closure ((context.write "None").write "\n")
            | _ =>
              (PrintObject fuel obj closure context).bind fun text closure1 context1 =>
                .ok obj closure1 ((context1.write text).write "\n")
      else if name.length = 0 ∧ argument.isNone = true ∧ args.length ≠ 0 then
        (printArgs (Execute fuel) (PrintObject fuel) args.length args 0 closure context).bind
          fun _ closure1 context1 => .ok .None closure1 (context1.write "\n")
      else .ok .None closure context
    | .MethodCall object method args =>
      (executeArgs (Execute fuel) args closure context).bind fun actual_args closure1 context1 =>
        (Execute fuel object closure1 context1).bind fun obj closure2 context2 =>
          match obj with
          | .ClassInstance address cls =>
            if HasMethod cls method args.length = true then
              Call (Execute fuel) address cls method actual_args closure2 context2
            else .ok .None closure2 context2
          | _ => .ok .None closure2 context2
    | .Stringify argument =>
      (Execute fuel argument closure context).bind fun obj closure1 context1 =>
        match obj with
        | .None => .ok (.String "None") closure1 context1
        | _ =>
          (PrintObject fuel obj closure1 context1).bind fun text closure2 context2 =>
            .ok (.String text) closure2 context2
    | .Add lhs rhs =>
      (Execute fuel lhs closure context).bind fun l closure1 context1 =>
        (Execute fuel rhs closure1 context1).bind fun r closure2 context2 =>
          match l, r with
          | .Number a, .Number b => .ok (.Number (wrapInt (a + b))) closure2 context2
          | .String a, .String b => .ok (.String (a ++ b)) closure2 context2
          | .ClassInstance address cls, _ =>
            if HasMethod cls "__add__" 1 = true then
              Call (Execute fuel) address cls "__add__" [r] closure2 context2
            else .thrown .runtime_error closure2 context2
          | _, _ => .thrown .runtime_error closure2 context2
    | .Sub lhs rhs =>
      (Execute fuel lhs closure context).bind fun l closure1 context1 =>
        (Execute fuel rhs closure1 context1).bind fun r closure2 context2 =>
          match l, r with
          | .Number a, .Number b => .ok (.Number (wrapInt (a - b))) closure2 context2
          | _, _ => .thrown .runtime_error closure2 context2
    | .Mult lhs rhs =>
      (Execute fuel lhs closure context).bind fun l closure1 context1 =>
        (Execute fuel rhs closure1 context1).bind fun r closure2 context2 =>
          match l, r with
          | .Number a, .Number b => .ok (.Number (wrapInt (a * b))) closure2 context2
          | _, _ => .thrown .runtime_error closure2 context2
    | .Div lhs rhs =>
      (Execute fuel lhs closure context).bind fun l closure1 context1 =>
        (Execute fuel rhs closure1 context1).bind fun r closure2 context2 =>
          match l, r with
          | .Number a, .Number b =>
            if b ≠ 0 then
              -- the quotient of INT_MIN by -1 is no value of `int`: the division is undefined
              if a = -2147483648 ∧ b = -1 then .undefined
              else .ok (.Number (wrapInt (Int.tdiv a b))) closure2 context2
            else .thrown .runtime_error closure2 context2
          | _, _ => .thrown .runtime_error closure2 context2
    | .Compound stmts =>
      (executeEach (Execute fuel) stmts closure context).bind fun _ closure1 context1 =>
        .ok .None closure1 context1
    | .Return statement =>
      (Execute fuel statement closure context).bind fun obj closure1 context1 =>
        .thrown (.returned obj) closure1 context1
    | .ClassDefinition cls =>
      match cls with
      | .Class c =>
        if c.name.length = 0 then .undefined
        else .ok .None (closure.set c.name cls) context
      | _ => .undefined
    | .IfElse condition if_body else_body =>
      (Execute fuel condition closure context).bind fun obj_condition closure1 context1 =>
        match obj_condition with
        | .Bool obj_condition_bool =>
          if obj_condition_bool = true then Execute fuel if_body closure1 context1
          else
            match else_body with
            | some else_stmt => Execute fuel else_stmt closure1 context1
            | none => .ok .None closure1 context1
        | _ => .undefined
    | .Or lhs rhs =>
      (Execute fuel lhs closure context).bind fun l_obj closure1 context1 =>
        if isNonZeroNumber l_obj = true then .ok (.Bool true) closure1 context1
        else if isNonEmptyString l_obj = true then .ok (.Bool true) closure1 context1
        else if isTrueBool l_obj = true then .ok (.Bool true) closure1 context1
        else
          (Execute fuel rhs closure1 context1).bind fun r_obj closure2 context2 =>
            if isNonZeroNumber r_obj = true then .ok (.Bool true) closure2 context2
            else if isNonEmptyString r_obj = true then .ok (.Bool true) closure2 context2
            else if isTrueBool r_obj = true then .ok (.Bool true) closure2 context2
            else .ok (.Bool false) closure2 context2
    | .And lhs rhs =>
      (Execute fuel lhs closure context).bind fun l_obj closure1 context1 =>
        let first_value_true : Bool :=
          if isNonZeroNumber l_obj = true then true
          else if isNonEmptyString l_obj = true then true
          else if isTrueBool l_obj = true then true
          else false
        if first_value_true = false then .ok (.Bool false) closure1 context1
        else
          (Execute fuel rhs closure1 context1).bind fun r_obj closure2 context2 =>
            if isNonZeroNumber r_obj = true then .ok (.Bool true) closure2 context2
            else if isNonEmptyString r_obj = true then .ok (.Bool true) closure2 context2
            else if isTrueBool r_obj = true then .ok (.Bool true) closure2 context2
            else .ok (.Bool false) closure2 context2
    | .Not argument =>
      (Execute fuel argument closure context).bind fun obj closure1 context1 =>
        if isZeroNumber obj = true then .ok (.Bool true) closure1 context1
        else if isEmptyString obj = true then .ok (.Bool true) closure1 context1
        else if isFalseBool obj = true then .ok (.Bool true) closure1 context1
        else .ok (.Bool false) closure1 context1
    | .Comparison cmp lhs rhs =>
      (Execute fuel lhs closure context).bind fun obj_lhs closure1 context1 =>
        (Execute fuel rhs closure1 context1).bind fun obj_rhs closure2 context2 =>
          (applyComparator cmp (Execute fuel) obj_lhs obj_rhs closure2 context2).bind
            fun result closure3 context3 => .ok (.Bool result) closure3 context3
    | .NewInstance address cls args =>
      if HasMethod cls "__init__" args.length = true then
        (executeArgs (Execute fuel) args closure context).bind
          fun actual_args closure1 context1 =>
            (Call (Execute fuel) address cls "__init__" actual_args closure1 context1).bind
              fun _ closure2 context2 => .ok (.ClassInstance address cls) closure2 context2
      else .ok (.ClassInstance address cls) closure context
    | .MethodBody body =>
      match Execute fuel body closure context with
      | .ok _ closure1 context1 => .ok .None closure1 context1
      | .thrown (.returned ret_obj) closure1 context1 => .ok ret_obj closure1 context1
      | .thrown what closure1 context1 => .thrown what closure1 context1
      | .undefined => .undefined
      | .out_of_fuel => .out_of_fuel

end

end runtime

/-! ## The cursor over the tokens (`Lexer::CurrentToken`, `Lexer::NextToken`) -/

namespace parse

/-- The private members of the class `Lexer`: the tokens made by `SplitStream` and the
index of the current one. -/
structure Lexer where
  tokens : List Token
  index_current_token : Nat

/-- The lexer as the constructor `Lexer::Lexer(input)` leaves it: `SplitStream` has filled
`tokens` and the index is 0; a failure of `SplitStream` leaves no lexer. -/
def Lexer.make (input : List Char) : Except LexFailure Lexer :=
  match SplitStream input with
  | .error e => .error e
  | .ok tokens => .ok { tokens := tokens, index_current_token := 0 }

/-- The function `Lexer::CurrentToken`: both branches return `tokens[index_current_token]`;
`none` stands for a read outside the vector (undefined behaviour). -/
def Lexer.CurrentToken (lexer : Lexer) : Option Token :=
  if lexer.tokens.length = 0 ∨ lexer.index_current_token ≥ lexer.tokens.length - 1 then
    lexer.tokens[lexer.index_current_token]?
  else lexer.tokens[lexer.index_current_token]?

/-- The function `Lexer::NextToken`: the token returned (`none` for a read outside the
vector) and the lexer after the call. -/
def Lexer.NextToken (lexer : Lexer) : Option Token × Lexer :=
  if lexer.tokens.length = 0 ∨ lexer.index_current_token ≥ lexer.tokens.length - 1 then
    (lexer.tokens[lexer.index_current_token]?, lexer)
  else
    (lexer.tokens[lexer.index_current_token + 1]?,
      { lexer with index_current_token := lexer.index_current_token + 1 })

end parse

/-!
The lifetime of the objects behind the holders, for the nodes `Assignment` and
`VariableValue` (`statement.cpp` 19-22 and 37-42) and for `ObjectHolder::Share`
(`runtime.cpp` 19-22).  Here a holder is the `std::shared_ptr<Object>` it wraps, the
objects live at addresses, and an object is destroyed with its last owner.
-/

namespace runtime

namespace lifetime

/-- The class `ObjectHolder` as the `std::shared_ptr<Object>` it wraps (the member `data_`):
empty; one of the owners of the object at `address`, as `ObjectHolder::Own` makes it
(declared in `runtime.h`, which is not among the sources: the owning mode of the
specification, in which the holder keeps the value alive); or a pointer to the object at `address` whose deleter does nothing, as
`ObjectHolder::Share` makes it. -/
inductive ObjectHolder where
  | empty
  | owner (address : Nat)
  | share (address : Nat)
  deriving DecidableEq

/-- The function `ObjectHolder::Get`: the address held, `none` for the null pointer. -/
def ObjectHolder.Get : ObjectHolder → Option Nat
  | .empty => none
  | .owner address => some address
  | .share address => some address

/-- The expression `ObjectHolder::Share(*holder.Get())`: a pointer to the same address that
owns nothing.  For an empty holder the null pointer is dereferenced; as in `Execute`,
the result is taken to be the empty holder. -/
def ObjectHolder.Share (holder : ObjectHolder) : ObjectHolder :=
  match holder.Get with
  | some address => .share address
  | none => .empty

/-- The objects on the free store that have not been destroyed: for each the address,
the object by its value, and the number of its owners (`use_count`). -/
abbrev Heap := List (Nat × runtime.ObjectHolder × Nat)

/-- The type `runtime::Closure`, from names to holders. -/
abbrev Closure := List (String × ObjectHolder)

/-- The lookup `closure.at(key)`, and `closure[key]` read before an assignment, which
makes an empty holder for a new key. -/
def Closure.at (closure : Closure) (key : String) : ObjectHolder :=
  (List.lookup key closure).getD .empty

/-- The table after `closure[key]` has been given the holder `value`. -/
def Closure.set : Closure → String → ObjectHolder → Closure
  | [], key, value => [(key, value)]
  | (k, v) :: rest, key, value =>
    if k = key then (key, value) :: rest else (k, v) :: Closure.set rest key value

/-- The end of a holder (the destructor of its `shared_ptr`, also run on the old value
by an assignment): an owner leaves the object, and the object is destroyed when
it was the last one; an empty holder and a share leave everything as it is. -/
def release (heap : Heap) : ObjectHolder → Heap
  | .owner address =>
    heap.filterMap fun entry =>
      if entry.1 = address then
        if entry.2.2 ≤ 1 then none else some (entry.1, entry.2.1, entry.2.2 - 1)
      else some entry
  | _ => heap

/-- The object read through a holder: `none` when the holder is empty and when no object
is alive at its address (the holder dangles). -/
def read (heap : Heap) (holder : ObjectHolder) : Option runtime.ObjectHolder :=
  match holder.Get with
  | some address => (List.lookup address heap).map fun entry => entry.1
  | none => none

/-- The scope of a call and the objects alive. -/
structure Memory where
  closure : Closure
  heap : Heap

/-- The assignment `closure[key] = value` of a holder that is moved in: the old holder
under `key` ends. -/
def Memory.assign (memory : Memory) (key : String) (value : ObjectHolder) : Memory :=
  { closure := memory.closure.set key value
    heap := release memory.heap (memory.closure.at key) }

/-- The function `VariableValue::Execute` of a node built from one name: a share of the object
that the holder under the name points at. -/
def VariableValue.Execute (var_name : String) (memory : Memory) :
    Except Thrown (ObjectHolder × Memory) :=
  if var_name.length ≠ 0 then
    match List.lookup var_name memory.closure with
    | none => .error .runtime_error
    | some holder => .ok (holder.Share, memory)
  else .error .runtime_error

/-- The function `Assignment::Execute`; `rv` is `_rv->Execute`. -/
def Assignment.Execute (var : String) (rv : Memory → Except Thrown (ObjectHolder × Memory))
    (memory : Memory) : Except Thrown (ObjectHolder × Memory) :=
  match rv memory with
  | .error e => .error e
  | .ok (value, memory1) =>
    let memory2 := memory1.assign var value
    .ok ((memory2.closure.at var).Share, memory2)

/-- A scope in which `x` is bound to the only owner of the Number 5 and `z` to the only
owner of the Number 7: a closure built with `ObjectHolder::Own` as in `TestAssignment`
(`statement_test.cpp` 88), or the scope after `x = 2 + 3` and `z = 3 + 4` (`Add`
returns `ObjectHolder::Own`). -/
def exampleMemory : Memory :=
  { closure := [("x", .owner 1), ("z", .owner 2)]
    heap := [(1, .Number 5, 1), (2, .Number 7, 1)] }

end lifetime

end runtime

/-! # Definitions used to state the properties -/

deriving instance DecidableEq for Except

namespace parse

/-- The columns a run of blanks counts for: one for a space, two for a tab. -/
def columns : List Char → Nat
  | [] => 0
  | ch :: rest => (if ch = TAB then 2 else 1) + columns rest

/-- The `Indent` or `Dedent` tokens expected in front of a line of `C` columns that
follows a line of `P` columns. -/
def indentTokens (P C : Nat) : List Token :=
  if C > P then List.replicate ((C - P) / 2) Token.Indent
  else if C < P then List.replicate ((P - C) / 2) Token.Dedent
  else []

/-- The text made of the given lines, each closed by a line feed. -/
def joinLines : List (List Char) → List Char
  | [] => []
  | line :: others => line ++ LF :: joinLines others

/-- The columns of the blanks in front of the first character of the line that is
not a blank, when there is such a character and it does not open a comment;
`counted` is the number of columns already passed.  A line without such a character
is blank or a comment and has no content. -/
def indentOfLineFrom : Nat → List Char → Option Nat
  | _, [] => none
  | counted, ch :: rest =>
    if ch = ' ' then indentOfLineFrom (counted + 1) rest
    else if ch = TAB then indentOfLineFrom (counted + 2) rest
    else if ch = hash then none
    else some counted

/-- The indentation of a content line, nothing for a blank or comment line. -/
def indentOfLine (line : List Char) : Option Nat := indentOfLineFrom 0 line

/-- The indentation of the last content line among `lines`, and 0 when none of them
has content. -/
def precedingColumns (lines : List (List Char)) : Nat :=
  lines.foldl (fun P line => (indentOfLine line).getD P) 0

/-- The state and the unread input after `n` passes of the loop of `SplitStream`
(fewer if the input ends before). -/
def passes : Nat → LexerState → List Char → Except LexFailure (LexerState × List Char)
  | 0, st, input => .ok (st, input)
  | _ + 1, st, [] => .ok (st, [])
  | n + 1, st, c :: rest =>
    match body st c rest with
    | .error e => .error e
    | .ok (st1, rest1) => passes n st1 rest1

/-- One piece of the body of a string literal: a character written as itself, or a
backslash followed by a character. -/
inductive StringItem where
  | plain (c : Char)
  | escape (c : Char)
  deriving DecidableEq

/-- The characters of the source text that write the piece. -/
def StringItem.source : StringItem → List Char
  | .plain c => [c]
  | .escape c => [backslash, c]

/-- The character that the piece stands for: the escapes `n` and `t` stand for the line
feed and the tab, an escaped quote for the quote itself. -/
def StringItem.value : StringItem → Char
  | .plain c => c
  | .escape c => if c = 'n' then LF else if c = 't' then TAB else c

/-- The pieces allowed in the body of a literal opened by the quote `q`: any character
but `q`, the backslash and the line breaks, and the four escapes. -/
def StringItem.Allowed (q : Char) : StringItem → Prop
  | .plain c => c ≠ q ∧ c ≠ backslash ∧ c ≠ LF ∧ c ≠ CR
  | .escape c => c = 'n' ∨ c = 't' ∨ c = squote ∨ c = dquote

instance (q : Char) : (item : StringItem) → Decidable (StringItem.Allowed q item)
  | .plain c => inferInstanceAs (Decidable (c ≠ q ∧ c ≠ backslash ∧ c ≠ LF ∧ c ≠ CR))
  | .escape c => inferInstanceAs (Decidable (c = 'n' ∨ c = 't' ∨ c = squote ∨ c = dquote))

/-- The source text of a body made of the pieces. -/
def sourceOf : List StringItem → List Char
  | [] => []
  | item :: rest => item.source ++ sourceOf rest

/-- No token of the list is a `Newline` that directly follows a `Newline`, where `prev`
is the token before the list. -/
def newlinesApart : Token → List Token → Prop
  | _, [] => True
  | prev, t :: rest => ¬ (prev = Token.Newline ∧ t = Token.Newline) ∧ newlinesApart t rest

/-- The last token of the list, or `prev` when the list is empty. -/
def lastToken : Token → List Token → Token
  | prev, [] => prev
  | _, t :: rest => lastToken t rest

/-- What makes a string literal fail after a well-formed beginning of its body: the
input ends, a backslash is the last character, a backslash stands before a
character that is no escape, or a line break comes before the closing quote. -/
inductive Unclosed : List Char → Prop where
  | input_ends : Unclosed []
  | backslash_last : Unclosed [backslash]
  | no_escape (c : Char) (rest : List Char)
      (h : c ≠ 'n' ∧ c ≠ 't' ∧ c ≠ squote ∧ c ≠ dquote) : Unclosed (backslash :: c :: rest)
  | line_feed (rest : List Char) : Unclosed (LF :: rest)
  | carriage_return (rest : List Char) : Unclosed (CR :: rest)

/-- The characters of a word: letters, digits and the underscore. -/
def isWordChar (c : Char) : Prop := c.isAlphanum = true ∨ c = '_'

instance (c : Char) : Decidable (isWordChar c) := by
  unfold isWordChar
  exact inferInstance

/-- The characters at which a word ends: space, line feed, a special punctuation
character and `#`. -/
def isDelimiter (c : Char) : Prop :=
  c = ' ' ∨ c = LF ∨ detail.CheckSpecialChar c = true ∨ c = hash

instance (c : Char) : Decidable (isDelimiter c) := by
  unfold isDelimiter
  exact inferInstance

/-- The four operators written with two characters: the first character, the second,
and the token of the pair. -/
def operatorPairs : List (Char × Char × Token) :=
  [('=', '=', Token.Eq), ('!', '=', Token.NotEq), ('<', '=', Token.LessOrEq),
   ('>', '=', Token.GreaterOrEq)]

/-- The twelve keyword spellings of the language, each with its token. -/
def keywordTokens : List (String × Token) :=
  [("class", Token.Class), ("return", Token.Return), ("if", Token.If), ("else", Token.Else),
   ("def", Token.Def), ("print", Token.Print), ("and", Token.And), ("or", Token.Or),
   ("not", Token.Not), ("None", Token.None), ("True", Token.True), ("False", Token.False)]

/-- The twelve keyword spellings of the language. -/
def keywordSpellings : List String :=
  ["class", "return", "if", "else", "def", "print", "and", "or", "not", "None", "True",
   "False"]

/-- The decimal value of a run of digits, as the sum of digit times power of ten. -/
def decimalValue (ds : List Char) : Nat :=
  Nat.ofDigits 10 (ds.reverse.map fun d => d.toNat - 48)

/-- The lexer after `k` calls of `NextToken`. -/
def afterNextTokens : Nat → Lexer → Lexer
  | 0, lexer => lexer
  | k + 1, lexer => afterNextTokens k lexer.NextToken.2

/-- The result of a reader when the text `t` follows its input: the unread input is
followed by `t`. -/
def withTail {α : Type} (t : List Char) (r : Except LexFailure (α × List Char)) :
    Except LexFailure (α × List Char) :=
  match r with
  | .error e => .error e
  | .ok (a, unread) => .ok (a, unread ++ t)

/-- The function `SplitStream` started in the state `st`: the loop with a budget of one
pass per character and one more. -/
def run (st : LexerState) (input : List Char) : Except LexFailure (List Token) :=
  loop (input.length + 1) st input

end parse

namespace runtime

/-- A class followed by its parent, the parent of its parent, and so on. -/
def Class.ancestry : Class → List Class
  | .mk name methods parent =>
    Class.mk name methods parent ::
      (match parent with
       | some parent_class => parent_class.ancestry
       | none => [])

/-- The statements run one after the other and each of them ends with a value; the
last two arguments are the closure and the context after the last one. -/
inductive CompleteInOrder (exec : Statement → Closure → Context → Outcome ObjectHolder) :
    List Statement → Closure → Context → Closure → Context → Prop where
  | nil (closure : Closure) (context : Context) :
      CompleteInOrder exec [] closure context closure context
  | cons (st : Statement) (rest : List Statement) (value : ObjectHolder)
      (closure closure1 closure2 : Closure) (context context1 context2 : Context)
      (first : exec st closure context = .ok value closure1 context1)
      (others : CompleteInOrder exec rest closure1 context1 closure2 context2) :
      CompleteInOrder exec (st :: rest) closure context closure2 context2

/-- The statements are evaluated one after the other, from left to right, each of
them ends with a value, and the list of holders gives these values in the order of
the statements; the last two arguments are the closure and the context after the
last statement. -/
inductive EvaluatedInOrder (exec : Statement → Closure → Context → Outcome ObjectHolder) :
    List Statement → List ObjectHolder → Closure → Context → Closure → Context → Prop where
  | nil (closure : Closure) (context : Context) :
      EvaluatedInOrder exec [] [] closure context closure context
  | cons (st : Statement) (rest : List Statement) (value : ObjectHolder)
      (values : List ObjectHolder)
      (closure closure1 closure2 : Closure) (context context1 context2 : Context)
      (first : exec st closure context = .ok value closure1 context1)
      (others : EvaluatedInOrder exec rest values closure1 context1 closure2 context2) :
      EvaluatedInOrder exec (st :: rest) (value :: values) closure context closure2 context2

/-- The integers that an `int` of 32 bits holds. -/
def fitsInt (v : Int) : Prop := -2147483648 ≤ v ∧ v ≤ 2147483647

instance (v : Int) : Decidable (fitsInt v) := by
  unfold fitsInt
  exact inferInstance

/-- Lexicographic order of two strings by the codes of their characters: the first
is a proper beginning of the second, or at the first place where they differ the
first has the smaller code. -/
def LexicographicallyLess (x y : List Char) : Prop :=
  (∃ rest, rest ≠ [] ∧ y = x ++ rest) ∨
  (∃ common c d xs ys, x = common ++ c :: xs ∧ y = common ++ d :: ys ∧ c.toNat < d.toNat)

/-- The comparison `not_equal` in the words of the specification: `!equal`. -/
def derivedNotEqual (equal : Bool) : Bool := !equal

/-- The comparison `greater` in the words of the specification: `!less && !equal`. -/
def derivedGreater (less equal : Bool) : Bool := !less && !equal

/-- The comparison `less_or_equal` in the words of the specification: `less || equal`. -/
def derivedLessOrEqual (less equal : Bool) : Bool := less || equal

/-- The comparison `greater_or_equal` in the words of the specification: `!less`. -/
def derivedGreaterOrEqual (less : Bool) : Bool := !less

/-- One item of a `print` is evaluated and its printed form is written: `None` for the
empty holder, else the text that `print` gives for the value.  The last two
arguments are the closure and the context after the text is written. -/
inductive ItemWritten (exec : Statement → Closure → Context → Outcome ObjectHolder)
    (print : ObjectHolder → Closure → Context → Outcome String) :
    Statement → Closure → Context → Closure → Context → Prop where
  | empty (st : Statement) (closure closure1 : Closure) (context context1 : Context)
      (evaluated : exec st closure context = .ok .None closure1 context1) :
      ItemWritten exec print st closure context closure1 (context1.write "None")
  | value (st : Statement) (obj : ObjectHolder) (text : String)
      (closure closure1 closure2 : Closure) (context context1 context2 : Context)
      (evaluated : exec st closure context = .ok obj closure1 context1)
      (holds : obj ≠ .None)
      (printed : print obj closure1 context1 = .ok text closure2 context2) :
      ItemWritten exec print st closure context closure2 (context2.write text)

/-- The items after the first of a `print`, from left to right: one space is written,
then the item is evaluated and written. -/
inductive ItemsWrittenAfterSpace
    (exec : Statement → Closure → Context → Outcome ObjectHolder)
    (print : ObjectHolder → Closure → Context → Outcome String) :
    List Statement → Closure → Context → Closure → Context → Prop where
  | nil (closure : Closure) (context : Context) :
      ItemsWrittenAfterSpace exec print [] closure context closure context
  | cons (st : Statement) (rest : List Statement)
      (closure closure1 closure2 : Closure) (context context1 context2 : Context)
      (first : ItemWritten exec print st closure (context.write " ") closure1 context1)
      (others : ItemsWrittenAfterSpace exec print rest closure1 context1 closure2 context2) :
      ItemsWrittenAfterSpace exec print (st :: rest) closure context closure2 context2

/-- The item evaluates and prints to `text` in the closure, whatever was written before,
and neither changes the closure nor writes anything itself. -/
def PrintsAs (exec : Statement → Closure → Context → Outcome ObjectHolder)
    (print : ObjectHolder → Closure → Context → Outcome String)
    (closure : Closure) (st : Statement) (text : String) : Prop :=
  ∀ context, ItemWritten exec print st closure context closure (context.write text)

/-- The texts with exactly one space between consecutive ones. -/
def joinWithSpaces : List String → String
  | [] => ""
  | [text] => text
  | text :: rest => text ++ " " ++ joinWithSpaces rest

/-- The texts, each with one space before it. -/
def spaced : List String → String
  | [] => ""
  | text :: rest => " " ++ text ++ spaced rest

end runtime

/-! ## Programs and classes used as instances -/

namespace runtime

/-- The class `BoxedValue` of `TestInheritance`. -/
def exampleBase : Class :=
  .mk "BoxedValue"
    [.mk "GetValue" [] (.VariableValue "" ["self", "value"]),
     .mk "SetValue" ["x"] (.FieldAssignment "self" [] "value" (.VariableValue "x" []))]
    none

/-- The method `GetValue(z)` by which `StringableValue` overrides `GetValue()`. -/
def exampleOverride : Method :=
  .mk "GetValue" ["z"] (.VariableValue "z" [])

/-- The class `StringableValue` of `TestInheritance`, a child of `BoxedValue`. -/
def exampleDerived : Class :=
  .mk "StringableValue"
    [exampleOverride, .mk "AsString" [] (.StringConst "value")]
    (some exampleBase)

/-- A context with nothing written and no instance. -/
def emptyContext : Context := { output := "", instances := [] }

/-- A statement that writes `rhs` and a line feed when it runs. -/
def printsRhs : Statement := .Print none [.StringConst "rhs"] ""

/-- A statement that writes the text and a line feed when it runs; its value is the
empty holder. -/
def printsText (text : String) : Statement := .Print none [.StringConst text] ""

/-- A class whose `__init__(v)` stores `v` in the field `value` and whose `__add__(x)`
and `__lt__(x)` give back the argument. -/
def exampleCell : Class :=
  .mk "Cell"
    [.mk "__init__" ["v"] (.FieldAssignment "self" [] "value" (.VariableValue "v" [])),
     .mk "__add__" ["x"] (.VariableValue "x" []),
     .mk "__lt__" ["x"] (.VariableValue "x" [])]
    none

/-- A class whose method `f()` divides 1 by 0, whose method `g(self)` gives back its
parameter named `self`, and whose method `h(x, x)` gives back `x`. -/
def exampleFaulty : Class :=
  .mk "Faulty"
    [.mk "f" [] (.Div (.NumericConst 1) (.NumericConst 0)),
     .mk "g" ["self"] (.VariableValue "self" []),
     .mk "h" ["x", "x"] (.VariableValue "x" [])]
    none

/-- A class with no method at all. -/
def exampleEmpty : Class := .mk "Empty" [] none

/-- A closure with an instance of `Empty` under `p` and the Number 0 under `n`. -/
def exampleClosure : Closure :=
  [("p", .ClassInstance 1 exampleEmpty), ("n", .Number 0)]

/-- The expression `n = n + 1`: it changes the closure each time it is evaluated. -/
def incrementN : Statement :=
  .Assignment "n" (.Add (.VariableValue "n" []) (.NumericConst 1))

end runtime

/-! # Part III: properties of the lexer -/

namespace parse

/-! ## Every pass of the loop reads at least one character -/

theorem SplitAsStringInQuotesLoop_length (quotes : Char) (n : Nat) :
    ∀ (input : List Char) (s : String) (fq : Bool) (str : String) (rest : List Char),
      input.length ≤ n →
      detail.SplitAsStringInQuotesLoop quotes input s fq = .ok (str, rest) →
      rest.length < input.length := by
  induction n with
  | zero =>
    intro input s fq str rest hn h
    cases input with
    | nil => simp [detail.SplitAsStringInQuotesLoop] at h
    | cons ch tl => simp at hn
  | succ n ih =>
    intro input s fq str rest hn h
    cases input with
    | nil => simp [detail.SplitAsStringInQuotesLoop] at h
    | cons ch tl =>
      simp only [List.length_cons] at hn ⊢
      unfold detail.SplitAsStringInQuotesLoop at h
      split at h
      · simp only [Except.ok.injEq, Prod.mk.injEq] at h
        rw [← h.2]; omega
      · split at h
        · have := ih tl s true str rest (by omega) h
          omega
        · split at h
          · split at h
            · simp at h
            · rename_i e tl2
              simp only [List.length_cons] at hn ⊢
              repeat' split at h
              all_goals first
                | exact Nat.lt_trans (ih tl2 _ _ str rest (by omega) h) (by omega)
                | simp at h
          · split at h
            · simp at h
            · have := ih tl _ _ str rest (by omega) h
              omega

theorem SplitAsStringWithoutQuotesLoop_length (input : List Char) :
    ∀ (s : String), (detail.SplitAsStringWithoutQuotesLoop input s).2.length ≤ input.length := by
  induction input with
  | nil => intro s; simp [detail.SplitAsStringWithoutQuotesLoop]
  | cons ch tl ih =>
    intro s
    unfold detail.SplitAsStringWithoutQuotesLoop
    split
    · simp
    · split
      · simp
      · have := ih (s.push ch)
        simp only [List.length_cons]; omega

theorem read_digits_length (input ds rest : List Char)
    (h : detail.read_digits input = .ok (ds, rest)) : rest.length < input.length := by
  unfold detail.read_digits at h
  split at h
  · simp at h
  · rename_i ch tl
    split at h
    · rename_i hd
      simp only [Except.ok.injEq, Prod.mk.injEq] at h
      rw [← h.2, List.dropWhile_cons_of_pos hd]
      have := (List.dropWhile_suffix Char.isDigit : tl.dropWhile Char.isDigit <:+ tl).length_le
      simp only [List.length_cons]; omega
    · simp at h

theorem readIntegerPart_length (parsed input p rest : List Char)
    (h : detail.readIntegerPart parsed input = .ok (p, rest)) : rest.length < input.length := by
  unfold detail.readIntegerPart at h
  split at h
  · split at h
    · simp only [Except.ok.injEq, Prod.mk.injEq] at h
      rw [← h.2]; simp
    · rename_i ch tl hz
      cases hr : detail.read_digits (ch :: tl) with
      | error e => simp [hr, Except.map] at h
      | ok v =>
        obtain ⟨ds, r⟩ := v
        simp only [hr, Except.map, Except.ok.injEq, Prod.mk.injEq] at h
        have := read_digits_length _ _ _ hr
        rw [← h.2]; exact this
  · simp [detail.read_digits, Except.map] at h

theorem readExponentPart_length (parsed input p rest : List Char)
    (h : detail.readExponentPart parsed input = .ok (p, rest)) : rest.length ≤ input.length := by
  unfold detail.readExponentPart at h
  split at h
  · rename_i ch tl
    split at h
    · split at h
      · rename_i ch2 tl2
        split at h
        · cases hr : detail.read_digits tl2 with
          | error e => simp [hr, Except.map] at h
          | ok v =>
            obtain ⟨ds, r⟩ := v
            simp only [hr, Except.map, Except.ok.injEq, Prod.mk.injEq] at h
            have := read_digits_length _ _ _ hr
            rw [← h.2]; simp only [List.length_cons]; omega
        · cases hr : detail.read_digits (ch2 :: tl2) with
          | error e => simp [hr, Except.map] at h
          | ok v =>
            obtain ⟨ds, r⟩ := v
            simp only [hr, Except.map, Except.ok.injEq, Prod.mk.injEq] at h
            have := read_digits_length _ _ _ hr
            rw [← h.2]; simp only [List.length_cons] at this ⊢; omega
      · simp [detail.read_digits, Except.map] at h
    · simp only [Except.ok.injEq, Prod.mk.injEq] at h
      rw [← h.2]
  · simp only [Except.ok.injEq, Prod.mk.injEq] at h
    rw [← h.2]

theorem readMinus_length (input : List Char) :
    (detail.readMinus input).2.length ≤ input.length := by
  unfold detail.readMinus
  split
  · split <;> simp
  · simp

theorem SplitAsNumber_length (input : List Char) (v : Int) (rest : List Char)
    (h : detail.SplitAsNumber input = .ok (v, rest)) : rest.length < input.length := by
  unfold detail.SplitAsNumber at h
  split at h
  · simp at h
  · rename_i p2 in2 h1
    split at h
    · simp at h
    · rename_i p4 in4 h2
      split at h
      · simp only [Except.ok.injEq, Prod.mk.injEq] at h
        have a := readIntegerPart_length _ _ _ _ h1
        have b := readExponentPart_length _ _ _ _ h2
        have c := readMinus_length input
        rw [← h.2]; omega
      · simp at h

theorem lexeme_length (st st1 : LexerState) (c : Char) (rest rest1 : List Char)
    (hsp : c ≠ ' ') (hh : c ≠ hash)
    (h : lexeme st c rest = .ok (st1, rest1)) : rest1.length ≤ rest.length := by
  unfold lexeme at h
  split at h
  · split at h
    · simp at h
    · rename_i str r1 hs
      simp only [Except.ok.injEq, Prod.mk.injEq] at h
      have := SplitAsStringInQuotesLoop_length c _ _ _ _ _ _ (le_refl _) hs
      rw [← h.2]; simp only [List.length_cons] at this; omega
  · split at h
    · split at h <;>
      · simp only [Except.ok.injEq, Prod.mk.injEq] at h
        rw [← h.2]
    · split at h
      · split at h
        · simp at h
        · rename_i num r1 hs
          simp only [Except.ok.injEq, Prod.mk.injEq] at h
          have := SplitAsNumber_length _ _ _ hs
          rw [← h.2]; simp only [List.length_cons] at this; omega
      · split at h
        · split at h
          · simp only [Except.ok.injEq, Prod.mk.injEq] at h
            rw [← h.2]
          · split at h <;>
            · simp only [Except.ok.injEq, Prod.mk.injEq] at h
              obtain ⟨_, h2⟩ := h
              subst h2
              simp
        · rename_i hq hl hd hspec
          simp only [Except.ok.injEq, Prod.mk.injEq] at h
          rw [← h.2]
          unfold detail.SplitAsStringWithoutQuotes detail.SplitAsStringWithoutQuotesLoop
          have hk : detail.CheckKeyWord "" = false := by decide
          simp only [hsp, hl, hspec, hh, hk, false_or, if_false, Bool.false_eq_true]
          exact SplitAsStringWithoutQuotesLoop_length rest _

theorem body_length (st st1 : LexerState) (c : Char) (rest rest1 : List Char)
    (h : body st c rest = .ok (st1, rest1)) : rest1.length ≤ rest.length := by
  unfold body at h
  simp only at h
  split at h
  · simp only [Except.ok.injEq, Prod.mk.injEq] at h
    rw [← h.2]
  · rename_i hcom
    split at h
    · simp only [Except.ok.injEq, Prod.mk.injEq] at h
      rw [← h.2]
    · rename_i hsp
      split at h
      · simp only [Except.ok.injEq, Prod.mk.injEq] at h
        rw [← h.2]
      · refine lexeme_length _ _ _ _ _ hsp ?_ h
        intro hc
        apply hcom
        subst hc
        constructor
        · unfold markComment
          split <;> simp_all
        · decide

theorem SplitAsStringInQuotesLoop_error (quotes : Char) (n : Nat) :
    ∀ (input : List Char) (s : String) (fq : Bool) (e : LexFailure),
      input.length ≤ n →
      detail.SplitAsStringInQuotesLoop quotes input s fq = .error e →
      e = .logic_error := by
  induction n with
  | zero =>
    intro input s fq e hn h
    cases input with
    | nil => simp only [detail.SplitAsStringInQuotesLoop, Except.error.injEq] at h; exact h.symm
    | cons ch tl => simp at hn
  | succ n ih =>
    intro input s fq e hn h
    cases input with
    | nil => simp only [detail.SplitAsStringInQuotesLoop, Except.error.injEq] at h; exact h.symm
    | cons ch tl =>
      simp only [List.length_cons] at hn
      unfold detail.SplitAsStringInQuotesLoop at h
      split at h
      · simp at h
      · split at h
        · exact ih tl s true e (by omega) h
        · split at h
          · split at h
            · simp only [Except.error.injEq] at h; exact h.symm
            · rename_i e2 tl2
              simp only [List.length_cons] at hn
              repeat' split at h
              all_goals first
                | exact ih tl2 _ _ e (by omega) h
                | (simp only [Except.error.injEq] at h; exact h.symm)
          · split at h
            · simp only [Except.error.injEq] at h; exact h.symm
            · exact ih tl _ _ e (by omega) h

theorem read_digits_error (input : List Char) (e : LexFailure)
    (h : detail.read_digits input = .error e) : e = .LexerError := by
  unfold detail.read_digits at h
  split at h
  · simp only [Except.error.injEq] at h; exact h.symm
  · split at h
    · simp at h
    · simp only [Except.error.injEq] at h; exact h.symm

theorem map_read_digits_error (input : List Char) (e : LexFailure)
    (f : List Char × List Char → List Char × List Char)
    (h : (detail.read_digits input).map f = .error e) : e = .LexerError := by
  cases hr : detail.read_digits input with
  | error e2 =>
    rw [hr] at h
    simp only [Except.map, Except.error.injEq] at h
    rw [← h]; exact read_digits_error _ _ hr
  | ok v => rw [hr] at h; simp [Except.map] at h

theorem SplitAsNumber_error (input : List Char) (e : LexFailure)
    (h : detail.SplitAsNumber input = .error e) : e = .LexerError := by
  unfold detail.SplitAsNumber at h
  split at h
  · rename_i e1 h1
    simp only [Except.error.injEq] at h
    subst h
    unfold detail.readIntegerPart at h1
    split at h1
    · split at h1
      · simp at h1
      · exact map_read_digits_error _ _ _ h1
    · exact map_read_digits_error _ _ _ h1
  · split at h
    · rename_i e1 h1
      simp only [Except.error.injEq] at h
      subst h
      unfold detail.readExponentPart at h1
      split at h1
      · split at h1
        · split at h1
          · split at h1 <;> exact map_read_digits_error _ _ _ h1
          · exact map_read_digits_error _ _ _ h1
        · simp at h1
      · simp at h1
    · split at h
      · simp at h
      · simp only [Except.error.injEq] at h; exact h.symm

theorem lexeme_error (st : LexerState) (c : Char) (rest : List Char) (e : LexFailure)
    (h : lexeme st c rest = .error e) : e = .logic_error ∨ e = .LexerError := by
  unfold lexeme at h
  split at h
  · split at h
    · rename_i e1 h1
      simp only [Except.error.injEq] at h
      subst h
      exact Or.inl (SplitAsStringInQuotesLoop_error c _ _ _ _ _ (le_refl _) h1)
    · simp at h
  · split at h
    · split at h <;> simp at h
    · split at h
      · split at h
        · rename_i e1 h1
          simp only [Except.error.injEq] at h
          subst h
          exact Or.inr (SplitAsNumber_error _ _ h1)
        · simp at h
      · split at h
        · split at h
          · simp at h
          · split at h <;> simp at h
        · simp at h

theorem body_error (st : LexerState) (c : Char) (rest : List Char) (e : LexFailure)
    (h : body st c rest = .error e) : e = .logic_error ∨ e = .LexerError := by
  unfold body at h
  simp only at h
  split at h
  · simp at h
  · split at h
    · simp at h
    · split at h
      · simp at h
      · exact lexeme_error _ _ _ _ h

/-- With a budget above the length of the input the loop never stops for lack of
budget. -/
theorem loop_ne_out_of_fuel (fuel : Nat) :
    ∀ (st : LexerState) (input : List Char), input.length < fuel →
      loop fuel st input ≠ .error .out_of_fuel := by
  induction fuel with
  | zero => intro st input h; omega
  | succ n ih =>
    intro st input h
    cases input with
    | nil =>
      simp only [loop]
      unfold atEnd
      simp only
      split
      · split
        · simp
        · split <;> simp
      · simp
    | cons c rest =>
      simp only [loop]
      cases hb : body st c rest with
      | error e =>
        simp only
        intro he
        simp only [Except.error.injEq] at he
        subst he
        have := body_error _ _ _ _ hb
        simp at this
      | ok v =>
        obtain ⟨st1, rest1⟩ := v
        simp only
        have := body_length _ _ _ _ _ hb
        exact ih st1 rest1 (by simp only [List.length_cons] at h; omega)

/-- The run of `SplitStream` always finishes within its budget. -/
theorem SplitStream_ne_out_of_fuel (input : List Char) :
    SplitStream input ≠ .error .out_of_fuel :=
  loop_ne_out_of_fuel _ _ _ (Nat.lt_succ_self _)

end parse

namespace parse

/-! ## What one pass does to the tokens -/

theorem pushPerTwoColumns_eq (tok : Token) (n : Nat) :
    ∀ (tokens : List Token),
      pushPerTwoColumns tok n tokens = tokens ++ List.replicate (n / 2) tok := by
  induction n using Nat.strong_induction_on with
  | _ n ih =>
    intro tokens
    match n with
    | 0 => simp [pushPerTwoColumns]
    | 1 => simp [pushPerTwoColumns]
    | k + 2 =>
      rw [pushPerTwoColumns, ih k (by omega)]
      have : (k + 2) / 2 = k / 2 + 1 := by omega
      rw [this, List.replicate_succ, List.append_assoc]
      rfl

theorem indentBlock_tokens (st : LexerState) (h : st.not_space_exist = false) :
    (indentBlock st).tokens =
      st.tokens ++ indentTokens st.prev_count_space st.current_count_space := by
  unfold indentBlock indentTokens
  simp only [h, if_true]
  by_cases hge : st.current_count_space ≥ st.prev_count_space
  · simp only [hge, if_true, pushPerTwoColumns_eq]
    by_cases hgt : st.current_count_space > st.prev_count_space
    · simp [hgt]
    · have : st.current_count_space = st.prev_count_space := by omega
      simp [this]
  · simp only [hge, if_false, pushPerTwoColumns_eq]
    have h1 : ¬ st.current_count_space > st.prev_count_space := by omega
    have h2 : st.current_count_space < st.prev_count_space := by omega
    simp [h1, h2]

theorem indentBlock_adds (st : LexerState) :
    ∃ added, (indentBlock st).tokens = st.tokens ++ added ∧
      ∀ t ∈ added, t = Token.Indent ∨ t = Token.Dedent := by
  unfold indentBlock
  simp only [pushPerTwoColumns_eq]
  split
  · split
    · exact ⟨_, rfl, fun t ht => Or.inl (List.eq_of_mem_replicate ht)⟩
    · exact ⟨_, rfl, fun t ht => Or.inr (List.eq_of_mem_replicate ht)⟩
  · exact ⟨[], by simp, by simp⟩

theorem ite_ne_token {c : Prop} [Decidable c] {a b t : Token} (ha : a ≠ t) (hb : b ≠ t) :
    (if c then a else b) ≠ t := by
  split <;> assumption

theorem DefineToken_cases (str : String) :
    DefineToken str ≠ Token.Eof ∧ DefineToken str ≠ Token.Indent ∧
      DefineToken str ≠ Token.Dedent := by
  unfold DefineToken
  refine ⟨?_, ?_, ?_⟩ <;>
  · repeat' (apply ite_ne_token)
    all_goals exact Token.noConfusion

/-- A pass on a character other than the line feed, once the comment and blank
cases are gone, adds exactly one token, which is no `Indent`, `Dedent` or `Eof`,
and changes nothing else. -/
theorem lexeme_content (st st1 : LexerState) (c : Char) (rest rest1 : List Char)
    (hc : c ≠ LF) (h : lexeme st c rest = .ok (st1, rest1)) :
    ∃ tok, st1 = { st with tokens := st.tokens ++ [tok] } ∧
      tok ≠ Token.Eof ∧ tok ≠ Token.Indent ∧ tok ≠ Token.Dedent := by
  unfold lexeme at h
  split at h
  · split at h
    · simp at h
    · simp only [Except.ok.injEq, Prod.mk.injEq] at h
      exact ⟨_, h.1.symm, by simp, by simp, by simp⟩
  · simp only [hc, if_false] at h
    split at h
    · split at h
      · simp at h
      · simp only [Except.ok.injEq, Prod.mk.injEq] at h
        exact ⟨_, h.1.symm, by simp, by simp, by simp⟩
    · split at h
      · split at h
        · simp only [Except.ok.injEq, Prod.mk.injEq] at h
          exact ⟨_, h.1.symm, by simp, by simp, by simp⟩
        · split at h
          · simp only [Except.ok.injEq, Prod.mk.injEq] at h
            have := DefineToken_cases (("".push c).push ‹Char›)
            exact ⟨_, h.1.symm, this.1, this.2.1, this.2.2⟩
          · simp only [Except.ok.injEq, Prod.mk.injEq] at h
            exact ⟨_, h.1.symm, by simp, by simp, by simp⟩
      · simp only [Except.ok.injEq, Prod.mk.injEq] at h
        have := DefineToken_cases (detail.SplitAsStringWithoutQuotes (c :: rest)).1
        exact ⟨_, h.1.symm, this.1, this.2.1, this.2.2⟩

/-- A pass on a line feed, once the comment case is gone. -/
theorem lexeme_LF (st : LexerState) (rest : List Char) :
    lexeme st LF rest =
      .ok (if st.not_space_exist = true then
              { st with stroke_not_empty := false, not_space_exist := false,
                        tokens := st.tokens ++ [Token.Newline] }
            else { st with stroke_not_empty := false, current_count_space := 0 }, rest) := by
  unfold lexeme
  have h1 : ¬ (LF = dquote ∨ LF = squote) := by decide
  simp only [h1, if_false, if_true]
  split <;> rfl

/-- Every pass only adds tokens at the end, and never an `Eof`. -/
theorem body_tokens (st st1 : LexerState) (c : Char) (rest rest1 : List Char)
    (h : body st c rest = .ok (st1, rest1)) :
    ∃ added, st1.tokens = st.tokens ++ added ∧ Token.Eof ∉ added := by
  unfold body at h
  simp only at h
  split at h
  · simp only [Except.ok.injEq, Prod.mk.injEq] at h
    refine ⟨[], ?_, by simp⟩
    rw [← h.1]; unfold markComment; split <;> simp
  · have hm : (markComment st c).tokens = st.tokens := by
      unfold markComment; split <;> rfl
    split at h
    · simp only [Except.ok.injEq, Prod.mk.injEq] at h
      refine ⟨[], ?_, by simp⟩
      rw [← h.1]; unfold countColumns; split <;> simp [hm]
    · split at h
      · simp only [Except.ok.injEq, Prod.mk.injEq] at h
        refine ⟨[], ?_, by simp⟩
        rw [← h.1]; unfold countColumns; split <;> simp [hm]
      · by_cases hl : c = LF
        · subst hl
          rw [lexeme_LF] at h
          simp only [Except.ok.injEq, Prod.mk.injEq] at h
          rw [← h.1]
          unfold startOfContent
          simp only [ne_eq, not_true_eq_false, if_false]
          split
          · exact ⟨[Token.Newline], by simp [hm], by simp⟩
          · exact ⟨[], by simp [hm], by simp⟩
        · obtain ⟨tok, hst, h1, -, -⟩ := lexeme_content _ _ _ _ _ hl h
          have hs : ∀ s : LexerState, startOfContent s c = indentBlock s := by
            intro s; unfold startOfContent; simp [hl]
          rw [hs] at hst
          obtain ⟨added, ha, hm2⟩ := indentBlock_adds
            { markComment st c with is_comment := false, stroke_not_empty := true }
          refine ⟨added ++ [tok], ?_, ?_⟩
          · have ht := congrArg LexerState.tokens hst
            simp only at ht
            rw [ht, ha]
            simp only [hm, List.append_assoc]
          · intro hmem
            rcases List.mem_append.1 hmem with h3 | h3
            · rcases hm2 _ h3 with h4 | h4 <;> simp at h4
            · simp only [List.mem_singleton] at h3
              exact h1 h3.symm

/-- The tokens at the end of the input: the tokens so far, then `Dedent`s, then
perhaps a `Newline`, then `Eof`. -/
theorem atEnd_tokens (st : LexerState) (toks : List Token) (h : atEnd st = .ok toks) :
    ∃ added, toks = st.tokens ++ added ++ [Token.Eof] ∧ Token.Eof ∉ added := by
  obtain ⟨ded, hded, hnd⟩ : ∃ ded,
      (if st.current_count_space < st.prev_count_space then
        pushPerTwoColumns Token.Dedent (st.prev_count_space - st.current_count_space) st.tokens
      else st.tokens) = st.tokens ++ ded ∧ Token.Eof ∉ ded := by
    split
    · refine ⟨_, pushPerTwoColumns_eq _ _ _, ?_⟩
      simp [List.mem_replicate]
    · exact ⟨[], by simp, by simp⟩
  unfold atEnd at h
  simp only [hded] at h
  split at h
  · split at h
    · simp at h
    · split at h
      · simp only [Except.ok.injEq] at h
        exact ⟨ded ++ [Token.Newline], by simp [← h], by simp [hnd]⟩
      · simp only [Except.ok.injEq] at h
        exact ⟨ded, by simp [← h], hnd⟩
  · simp only [Except.ok.injEq] at h
    exact ⟨ded, by simp [← h], hnd⟩

/-- The tokens of a finished run: those already there, more tokens without `Eof`,
and one `Eof`. -/
theorem loop_tokens (fuel : Nat) :
    ∀ (st : LexerState) (input : List Char) (toks : List Token),
      loop fuel st input = .ok toks →
      ∃ added, toks = st.tokens ++ added ++ [Token.Eof] ∧ Token.Eof ∉ added := by
  induction fuel with
  | zero => intro st input toks h; simp [loop] at h
  | succ n ih =>
    intro st input toks h
    cases input with
    | nil => exact atEnd_tokens st toks (by simpa [loop] using h)
    | cons c rest =>
      simp only [loop] at h
      cases hb : body st c rest with
      | error e => simp [hb] at h
      | ok v =>
        obtain ⟨st1, rest1⟩ := v
        simp only [hb] at h
        obtain ⟨a1, h1, n1⟩ := body_tokens _ _ _ _ _ hb
        obtain ⟨a2, h2, n2⟩ := ih st1 rest1 toks h
        refine ⟨a1 ++ a2, ?_, ?_⟩
        · rw [h2, h1]; simp
        · simp [n1, n2]

/-- Claim C2. Whenever `Lexer::SplitStream` completes without error, the token
sequence is not empty, its last token is `Eof`, and no token before the last one is
`Eof`. -/
theorem C2_token_stream_ends_with_its_only_Eof (input : List Char) (toks : List Token)
    (h : SplitStream input = .ok toks) :
    toks ≠ [] ∧ toks.getLast? = some Token.Eof ∧ Token.Eof ∉ toks.dropLast := by
  obtain ⟨added, h1, h2⟩ := loop_tokens _ _ _ _ h
  simp only [initialState, List.nil_append] at h1
  subst h1
  refine ⟨by simp, by simp, ?_⟩
  rw [List.dropLast_concat]
  exact h2

/-- A source with two indented lines, lexed to the end: an instance of C2. -/
theorem C2_token_stream_ends_with_its_only_Eof_witness :
    SplitStream "x\n  y = 1".toList
        = .ok [Token.Id "x", Token.Newline, Token.Indent, Token.Id "y", Token.Char '=',
               Token.Number 1, Token.Dedent, Token.Newline, Token.Eof] ∧
      ([Token.Id "x", Token.Newline, Token.Indent, Token.Id "y", Token.Char '=',
          Token.Number 1, Token.Dedent, Token.Newline, Token.Eof] ≠ [] ∧
        [Token.Id "x", Token.Newline, Token.Indent, Token.Id "y", Token.Char '=',
          Token.Number 1, Token.Dedent, Token.Newline, Token.Eof].getLast? = some Token.Eof ∧
        Token.Eof ∉ [Token.Id "x", Token.Newline, Token.Indent, Token.Id "y", Token.Char '=',
          Token.Number 1, Token.Dedent, Token.Newline, Token.Eof].dropLast) :=
  ⟨by decide, C2_token_stream_ends_with_its_only_Eof "x\n  y = 1".toList _ (by decide)⟩

/-- Claim C1, at the input of two spaces, `x`, a line feed and two more spaces: the
only content line is indented by two columns, the lexer accepts the text, and the
`Indent` it emits is never matched by a `Dedent`.  When the last two spaces are
followed by a line feed the `Dedent` is there. -/
theorem C1_indent_left_open_by_trailing_blanks :
    SplitStream "  x\n  ".toList
        = .ok [Token.Indent, Token.Id "x", Token.Newline, Token.Eof] ∧
      [Token.Indent, Token.Id "x", Token.Newline, Token.Eof].count Token.Indent = 1 ∧
      [Token.Indent, Token.Id "x", Token.Newline, Token.Eof].count Token.Dedent = 0 ∧
      SplitStream "  x\n  \n".toList
        = .ok [Token.Indent, Token.Id "x", Token.Newline, Token.Dedent, Token.Eof] := by
  decide

/-- Claim C4, at the input of two spaces and `x` with no line feed after it: the
lexer puts the `Dedent` before the `Newline`; when the same line ends with a line
feed the `Newline` comes first. -/
theorem C4_dedent_precedes_newline_at_end :
    SplitStream "  x".toList
        = .ok [Token.Indent, Token.Id "x", Token.Dedent, Token.Newline, Token.Eof] ∧
      SplitStream "  x\n".toList
        = .ok [Token.Indent, Token.Id "x", Token.Newline, Token.Dedent, Token.Eof] := by
  decide

end parse

namespace parse

/-! ## A pass of the loop, case by case -/

theorem markComment_of_comment (st : LexerState) (c : Char) (h : st.is_comment = true) :
    markComment st c = st := by
  unfold markComment
  simp [h]

theorem markComment_of_ne_hash (st : LexerState) (c : Char) (h : c ≠ hash) :
    markComment st c = st := by
  unfold markComment
  simp [h]

theorem body_in_comment (st : LexerState) (c : Char) (rest : List Char)
    (hcom : st.is_comment = true) (hc : c ≠ LF) : body st c rest = .ok (st, rest) := by
  unfold body
  simp only [markComment_of_comment st c hcom, hcom, hc, ne_eq, not_false_eq_true, and_self,
    if_true]

theorem body_hash (st : LexerState) (rest : List Char) (hcom : st.is_comment = false) :
    body st hash rest = .ok ({ st with is_comment := true }, rest) := by
  have h1 : hash ≠ LF := by decide
  unfold body markComment
  simp only [hcom, and_self, if_true, h1, ne_eq, not_false_eq_true]

theorem body_space (st : LexerState) (rest : List Char) (hcom : st.is_comment = false) :
    body st ' ' rest = .ok (countColumns 1 st, rest) := by
  have h1 : ' ' ≠ hash := by decide
  unfold body
  simp only [markComment_of_ne_hash st ' ' h1, hcom, Bool.false_eq_true, false_and, if_false,
    if_true]
  have : ({ st with is_comment := false } : LexerState) = st := by
    cases st; simp_all
  rw [this]

theorem body_tab (st : LexerState) (rest : List Char) (hcom : st.is_comment = false) :
    body st TAB rest = .ok (countColumns 2 { st with stroke_not_empty := true }, rest) := by
  have h1 : TAB ≠ hash := by decide
  have h2 : TAB ≠ ' ' := by decide
  unfold body
  simp only [markComment_of_ne_hash st TAB h1, hcom, Bool.false_eq_true, false_and, if_false,
    if_true, h2]

theorem body_LF (st : LexerState) (rest : List Char) :
    body st LF rest =
      .ok (if st.not_space_exist = true then
              { st with is_comment := false, stroke_not_empty := false,
                        not_space_exist := false, tokens := st.tokens ++ [Token.Newline] }
            else { st with is_comment := false, stroke_not_empty := false,
                           current_count_space := 0 }, rest) := by
  have h1 : LF ≠ hash := by decide
  have h2 : LF ≠ ' ' := by decide
  have h3 : LF ≠ TAB := by decide
  unfold body
  simp only [markComment_of_ne_hash st LF h1, ne_eq, not_true_eq_false, and_false, if_false, h2,
    h3, startOfContent, lexeme_LF]

theorem body_content (st : LexerState) (c : Char) (rest : List Char)
    (hcom : st.is_comment = false)
    (hc : c ≠ ' ' ∧ c ≠ TAB ∧ c ≠ LF ∧ c ≠ hash) :
    body st c rest = lexeme (indentBlock { st with stroke_not_empty := true }) c rest := by
  obtain ⟨h1, h2, h3, h4⟩ := hc
  unfold body
  simp only [markComment_of_ne_hash st c h4, hcom, Bool.false_eq_true, false_and, if_false, h1,
    h2, startOfContent, h3, ne_eq, not_false_eq_true, if_true]

/-! ## A lexeme never reads past the end of its line -/

theorem dropWhile_append_stop (p : Char → Bool) (b : Char) (t : List Char) (hb : p b = false) :
    ∀ (a : List Char), (a ++ b :: t).dropWhile p = a.dropWhile p ++ b :: t
  | [] => by simp [List.dropWhile, hb]
  | x :: xs => by
    by_cases hx : p x = true
    · simp only [List.cons_append, List.dropWhile_cons_of_pos hx]
      exact dropWhile_append_stop p b t hb xs
    · simp only [List.cons_append, List.dropWhile_cons_of_neg hx]

theorem not_mem_dropWhile (p : Char → Bool) (a : List Char) (x : Char) (h : x ∉ a) :
    x ∉ a.dropWhile p :=
  fun hm => h ((List.dropWhile_suffix p).subset hm)

theorem SplitAsStringInQuotesLoop_frame (quotes : Char) (t : List Char) (hq : quotes ≠ LF)
    (n : Nat) :
    ∀ (inp : List Char) (s : String) (fq : Bool) (str : String) (r : List Char),
      inp.length ≤ n → LF ∉ inp →
      detail.SplitAsStringInQuotesLoop quotes (inp ++ LF :: t) s fq = .ok (str, r) →
      ∃ l2, r = l2 ++ LF :: t ∧ l2.length < inp.length ∧ LF ∉ l2 := by
  have hLFb : LF ≠ backslash := by decide
  induction n with
  | zero =>
    intro inp s fq str r hn hLF h
    cases inp with
    | nil =>
      simp only [List.nil_append] at h
      unfold detail.SplitAsStringInQuotesLoop at h
      simp [hq.symm, hLFb] at h
    | cons ch tl => simp at hn
  | succ n ih =>
    intro inp s fq str r hn hLF h
    cases inp with
    | nil =>
      simp only [List.nil_append] at h
      unfold detail.SplitAsStringInQuotesLoop at h
      simp [hq.symm, hLFb] at h
    | cons ch tl =>
      simp only [List.length_cons] at hn
      have hLFtl : LF ∉ tl := fun hm => hLF (List.mem_cons_of_mem _ hm)
      simp only [List.cons_append] at h
      unfold detail.SplitAsStringInQuotesLoop at h
      split at h
      · simp only [Except.ok.injEq, Prod.mk.injEq] at h
        exact ⟨tl, h.2.symm, by simp, hLFtl⟩
      · split at h
        · obtain ⟨l2, h1, h2, h3⟩ := ih tl s true str r (by omega) hLFtl h
          exact ⟨l2, h1, by simp only [List.length_cons]; omega, h3⟩
        · split at h
          · cases tl with
            | nil =>
              simp only [List.nil_append] at h
              have e1 : LF ≠ 'n' := by decide
              have e2 : LF ≠ 't' := by decide
              have e3 : LF ≠ dquote := by decide
              have e4 : LF ≠ squote := by decide
              simp [e1, e2, e3, e4] at h
            | cons e tl2 =>
              simp only [List.cons_append, List.length_cons] at h hn ⊢
              have hLFtl2 : LF ∉ tl2 := fun hm => hLFtl (List.mem_cons_of_mem _ hm)
              repeat' split at h
              all_goals first
                | exact (ih tl2 _ _ str r (by omega) hLFtl2 h).imp
                    fun l2 hl => ⟨hl.1, Nat.lt_trans hl.2.1 (by omega), hl.2.2⟩
                | simp at h
          · split at h
            · simp at h
            · obtain ⟨l2, h1, h2, h3⟩ := ih tl _ _ str r (by omega) hLFtl h
              exact ⟨l2, h1, by simp only [List.length_cons]; omega, h3⟩

theorem SplitAsStringWithoutQuotesLoop_frame (t : List Char) :
    ∀ (inp : List Char) (s : String), LF ∉ inp →
      ∃ l2, (detail.SplitAsStringWithoutQuotesLoop (inp ++ LF :: t) s).2 = l2 ++ LF :: t ∧
        l2.length ≤ inp.length ∧ LF ∉ l2
  | [], s, _ => by
    refine ⟨[], ?_, by simp, by simp⟩
    unfold detail.SplitAsStringWithoutQuotesLoop
    simp
  | ch :: tl, s, hLF => by
    have hLFtl : LF ∉ tl := fun hm => hLF (List.mem_cons_of_mem _ hm)
    simp only [List.cons_append]
    unfold detail.SplitAsStringWithoutQuotesLoop
    split
    · exact ⟨ch :: tl, by simp, by simp, hLF⟩
    · split
      · exact ⟨ch :: tl, by simp, by simp, hLF⟩
      · obtain ⟨l2, h1, h2, h3⟩ := SplitAsStringWithoutQuotesLoop_frame t tl (s.push ch) hLFtl
        exact ⟨l2, h1, by simp only [List.length_cons]; omega, h3⟩

theorem read_digits_frame (t inp ds r : List Char) (hLF : LF ∉ inp)
    (h : detail.read_digits (inp ++ LF :: t) = .ok (ds, r)) :
    ∃ l2, r = l2 ++ LF :: t ∧ l2.length ≤ inp.length ∧ LF ∉ l2 := by
  have hd : Char.isDigit LF = false := by decide
  unfold detail.read_digits at h
  split at h
  · simp at h
  · split at h
    · simp only [Except.ok.injEq, Prod.mk.injEq] at h
      rename_i heq hdig
      refine ⟨inp.dropWhile Char.isDigit, ?_, (List.dropWhile_suffix Char.isDigit).length_le,
        not_mem_dropWhile _ _ _ hLF⟩
      rw [← h.2, dropWhile_append_stop Char.isDigit LF t hd inp]
    · simp at h

theorem map_read_digits_frame (t inp p r : List Char) (hLF : LF ∉ inp)
    (f : List Char → List Char)
    (h : ((detail.read_digits (inp ++ LF :: t)).map fun q => (f q.1, q.2)) = .ok (p, r)) :
    ∃ l2, r = l2 ++ LF :: t ∧ l2.length ≤ inp.length ∧ LF ∉ l2 := by
  cases hr : detail.read_digits (inp ++ LF :: t) with
  | error e => rw [hr] at h; simp [Except.map] at h
  | ok v =>
    obtain ⟨ds, r2⟩ := v
    rw [hr] at h
    simp only [Except.map, Except.ok.injEq, Prod.mk.injEq] at h
    rw [← h.2]
    exact read_digits_frame t inp ds r2 hLF hr

theorem readMinus_frame (t inp : List Char) (hLF : LF ∉ inp) :
    ∃ l2, (detail.readMinus (inp ++ LF :: t)).2 = l2 ++ LF :: t ∧
      l2.length ≤ inp.length ∧ LF ∉ l2 := by
  have hm : LF ≠ '-' := by decide
  cases inp with
  | nil =>
    refine ⟨[], ?_, by simp, by simp⟩
    simp [detail.readMinus, hm]
  | cons ch tl =>
    have hLFtl : LF ∉ tl := fun hm => hLF (List.mem_cons_of_mem _ hm)
    simp only [List.cons_append, detail.readMinus]
    split
    · exact ⟨tl, rfl, by simp, hLFtl⟩
    · exact ⟨ch :: tl, rfl, by simp, hLF⟩

theorem readIntegerPart_frame (t inp parsed p r : List Char) (hLF : LF ∉ inp)
    (h : detail.readIntegerPart parsed (inp ++ LF :: t) = .ok (p, r)) :
    ∃ l2, r = l2 ++ LF :: t ∧ l2.length ≤ inp.length ∧ LF ∉ l2 := by
  cases inp with
  | nil =>
    have hz : LF ≠ '0' := by decide
    simp only [List.nil_append, detail.readIntegerPart, hz, if_false] at h
    exact map_read_digits_frame t [] p r hLF (fun q => parsed ++ q) h
  | cons ch tl =>
    have hLFtl : LF ∉ tl := fun hm => hLF (List.mem_cons_of_mem _ hm)
    simp only [List.cons_append, detail.readIntegerPart] at h
    split at h
    · simp only [Except.ok.injEq, Prod.mk.injEq] at h
      exact ⟨tl, h.2.symm, by simp, hLFtl⟩
    · exact map_read_digits_frame t (ch :: tl) p r hLF (fun q => parsed ++ q) h

theorem readExponentPart_frame (t inp parsed p r : List Char) (hLF : LF ∉ inp)
    (h : detail.readExponentPart parsed (inp ++ LF :: t) = .ok (p, r)) :
    ∃ l2, r = l2 ++ LF :: t ∧ l2.length ≤ inp.length ∧ LF ∉ l2 := by
  cases inp with
  | nil =>
    have h1 : ¬ (LF = 'e' ∨ LF = 'E') := by decide
    simp only [List.nil_append, detail.readExponentPart, h1, if_false, Except.ok.injEq,
      Prod.mk.injEq] at h
    exact ⟨[], by simp [← h.2], by simp, by simp⟩
  | cons ch tl =>
    have hLFtl : LF ∉ tl := fun hm => hLF (List.mem_cons_of_mem _ hm)
    simp only [List.cons_append, detail.readExponentPart] at h
    split at h
    · cases tl with
      | nil =>
        have h1 : ¬ (LF = '+' ∨ LF = '-') := by decide
        simp only [List.nil_append, h1, if_false] at h
        obtain ⟨l2, a, b, c⟩ :=
          map_read_digits_frame t [] p r (by simp) (fun q => parsed ++ [ch] ++ q) h
        exact ⟨l2, a, by simp only [List.length_nil, List.length_cons] at b ⊢; omega, c⟩
      | cons ch2 tl2 =>
        have hLFtl2 : LF ∉ tl2 := fun hm => hLFtl (List.mem_cons_of_mem _ hm)
        simp only [List.cons_append] at h
        split at h
        · obtain ⟨l2, a, b, c⟩ :=
            map_read_digits_frame t tl2 p r hLFtl2 (fun q => parsed ++ [ch, ch2] ++ q) h
          exact ⟨l2, a, by simp only [List.length_cons]; omega, c⟩
        · obtain ⟨l2, a, b, c⟩ :=
            map_read_digits_frame t (ch2 :: tl2) p r hLFtl (fun q => parsed ++ [ch] ++ q) h
          exact ⟨l2, a, by simp only [List.length_cons] at b ⊢; omega, c⟩
    · simp only [Except.ok.injEq, Prod.mk.injEq] at h
      exact ⟨ch :: tl, h.2.symm, by simp, hLF⟩

theorem SplitAsNumber_frame (t inp : List Char) (v : Int) (r : List Char) (hLF : LF ∉ inp)
    (h : detail.SplitAsNumber (inp ++ LF :: t) = .ok (v, r)) :
    ∃ l2, r = l2 ++ LF :: t ∧ l2.length ≤ inp.length ∧ LF ∉ l2 := by
  unfold detail.SplitAsNumber at h
  obtain ⟨l1, a1, b1, c1⟩ := readMinus_frame t inp hLF
  rw [a1] at h
  split at h
  · simp at h
  · rename_i p2 in2 h1
    obtain ⟨l2, a2, b2, c2⟩ := readIntegerPart_frame t l1 _ p2 in2 c1 h1
    subst a2
    split at h
    · simp at h
    · rename_i p4 in4 h2
      obtain ⟨l3, a3, b3, c3⟩ := readExponentPart_frame t l2 _ p4 in4 c2 h2
      split at h
      · simp only [Except.ok.injEq, Prod.mk.injEq] at h
        exact ⟨l3, by rw [← h.2, a3], by omega, c3⟩
      · simp at h

theorem CheckSpecialCharCombination_LF (c : Char) :
    detail.CheckSpecialCharCombination c LF = false := by
  unfold detail.CheckSpecialCharCombination
  have h : ∀ x : Char, (("".push c).push LF = ("".push x).push '=') → False := by
    intro x hx
    have := congrArg String.data hx
    simp only [String.push, String.data_append, List.append_assoc] at this
    simp at this
    exact absurd this.2 (by decide)
  have e1 : (("".push c).push LF == "==") = false := by
    rw [beq_eq_false_iff_ne]; exact fun hx => h '=' hx
  have e2 : (("".push c).push LF == "!=") = false := by
    rw [beq_eq_false_iff_ne]; exact fun hx => h '!' hx
  have e3 : (("".push c).push LF == "<=") = false := by
    rw [beq_eq_false_iff_ne]; exact fun hx => h '<' hx
  have e4 : (("".push c).push LF == ">=") = false := by
    rw [beq_eq_false_iff_ne]; exact fun hx => h '>' hx
  simp only [List.contains, List.elem, e1, e2, e3, e4]

/-- A lexeme that starts inside a line ends inside that line: the unread input
still holds the line feed that closes the line. -/
theorem lexeme_frame (st st1 : LexerState) (c : Char) (l t rest1 : List Char)
    (hc : c ≠ LF) (hsp : c ≠ ' ') (hh : c ≠ hash) (hLF : LF ∉ l)
    (h : lexeme st c (l ++ LF :: t) = .ok (st1, rest1)) :
    ∃ l2, rest1 = l2 ++ LF :: t ∧ l2.length ≤ l.length ∧ LF ∉ l2 := by
  have hLFcl : LF ∉ c :: l := by
    intro hm
    rcases List.mem_cons.1 hm with e | e
    · exact hc e.symm
    · exact hLF e
  unfold lexeme at h
  split at h
  · rename_i hq
    split at h
    · simp at h
    · rename_i str r1 hs
      simp only [Except.ok.injEq, Prod.mk.injEq] at h
      have hq2 : c ≠ LF := hc
      obtain ⟨l2, a, b, d⟩ := SplitAsStringInQuotesLoop_frame c t hq2 _ (c :: l) "" false str r1
        (le_refl _) hLFcl (by simpa [detail.SplitAsStringInQuotes] using hs)
      exact ⟨l2, by rw [← h.2, a], by simp only [List.length_cons] at b; omega, d⟩
  · simp only [hc, if_false] at h
    split at h
    · split at h
      · simp at h
      · rename_i num r1 hs
        simp only [Except.ok.injEq, Prod.mk.injEq] at h
        obtain ⟨l2, a, b, d⟩ := SplitAsNumber_frame t (c :: l) num r1 hLFcl hs
        have hlt := SplitAsNumber_length _ _ _ hs
        refine ⟨l2, by rw [← h.2, a], ?_, d⟩
        rw [a] at hlt
        simp only [List.cons_append, List.length_cons, List.length_append] at hlt
        omega
    · split at h
      · cases l with
        | nil =>
          simp only [List.nil_append, CheckSpecialCharCombination_LF, Bool.false_eq_true,
            if_false, Except.ok.injEq, Prod.mk.injEq] at h
          exact ⟨[], by simp [← h.2], by simp, by simp⟩
        | cons next tl =>
          have hLFtl : LF ∉ tl := fun hm => hLF (List.mem_cons_of_mem _ hm)
          simp only [List.cons_append] at h
          split at h
          · simp only [Except.ok.injEq, Prod.mk.injEq] at h
            exact ⟨tl, by rw [← h.2], by simp, hLFtl⟩
          · simp only [Except.ok.injEq, Prod.mk.injEq] at h
            exact ⟨next :: tl, by rw [← h.2]; rfl, by simp, hLF⟩
      · rename_i hq hd hspec
        simp only [Except.ok.injEq, Prod.mk.injEq] at h
        have hk : detail.CheckKeyWord "" = false := by decide
        have hstep : detail.SplitAsStringWithoutQuotes (c :: (l ++ LF :: t))
            = detail.SplitAsStringWithoutQuotesLoop (l ++ LF :: t) ("".push c) := by
          unfold detail.SplitAsStringWithoutQuotes
          rw [detail.SplitAsStringWithoutQuotesLoop]
          simp only [hsp, hc, hspec, hh, hk, false_or, if_false, Bool.false_eq_true]
        obtain ⟨l2, a, b, d⟩ := SplitAsStringWithoutQuotesLoop_frame t l ("".push c) hLF
        rw [hstep] at h
        exact ⟨l2, by rw [← h.2, a], b, d⟩

/-! ## From the start of a line to the start of the next -/

theorem loop_step (fuel : Nat) (st : LexerState) (c : Char) (rest : List Char)
    (toks : List Token) (h : loop fuel st (c :: rest) = .ok toks) :
    ∃ st1 rest1, body st c rest = .ok (st1, rest1) ∧ loop (fuel - 1) st1 rest1 = .ok toks := by
  cases fuel with
  | zero => simp [loop] at h
  | succ n =>
    simp only [loop] at h
    cases hb : body st c rest with
    | error e => simp [hb] at h
    | ok v =>
      obtain ⟨st1, rest1⟩ := v
      simp only [hb] at h
      exact ⟨st1, rest1, rfl, by simpa using h⟩

theorem passes_step (n : Nat) (st st1 : LexerState) (c : Char) (rest rest1 : List Char)
    (hb : body st c rest = .ok (st1, rest1)) :
    passes (n + 1) st (c :: rest) = passes n st1 rest1 := by
  simp only [passes, hb]

theorem passes_append (n m : Nat) :
    ∀ (st st1 : LexerState) (input input1 : List Char),
      passes n st input = .ok (st1, input1) →
      passes (n + m) st input = passes m st1 input1 := by
  induction n with
  | zero =>
    intro st st1 input input1 h
    simp only [passes, Except.ok.injEq, Prod.mk.injEq] at h
    rw [Nat.zero_add, h.1, h.2]
  | succ n ih =>
    intro st st1 input input1 h
    cases input with
    | nil =>
      simp only [passes, Except.ok.injEq, Prod.mk.injEq] at h
      rw [← h.1, ← h.2]
      have e : n + 1 + m = (n + m) + 1 := by omega
      rw [e]
      cases m <;> simp [passes]
    | cons c rest =>
      have e : n + 1 + m = (n + m) + 1 := by omega
      rw [e]
      simp only [passes] at h ⊢
      cases hb : body st c rest with
      | error e => simp [hb] at h
      | ok v =>
        obtain ⟨st2, rest2⟩ := v
        simp only [hb] at h ⊢
        exact ih st2 st1 rest2 input1 h

/-- Inside a line, after its first content character, a pass keeps the three
counters of the indentation and stays inside the line. -/
theorem body_inside_line (st st1 : LexerState) (c : Char) (l t rest1 : List Char)
    (hnse : st.not_space_exist = true) (hcur : st.current_count_space = 0)
    (hc : c ≠ LF) (hLF : LF ∉ l)
    (h : body st c (l ++ LF :: t) = .ok (st1, rest1)) :
    st1.not_space_exist = true ∧ st1.current_count_space = 0 ∧
      st1.prev_count_space = st.prev_count_space ∧
      ∃ l2, rest1 = l2 ++ LF :: t ∧ l2.length ≤ l.length ∧ LF ∉ l2 := by
  by_cases hcom : st.is_comment = true
  · rw [body_in_comment st c _ hcom hc] at h
    simp only [Except.ok.injEq, Prod.mk.injEq] at h
    rw [← h.1, ← h.2]
    exact ⟨hnse, hcur, rfl, l, rfl, le_refl _, hLF⟩
  · have hcom : st.is_comment = false := by simpa using hcom
    by_cases hh : c = hash
    · subst hh
      rw [body_hash st _ hcom] at h
      simp only [Except.ok.injEq, Prod.mk.injEq] at h
      rw [← h.1, ← h.2]
      exact ⟨hnse, hcur, rfl, l, rfl, le_refl _, hLF⟩
    · by_cases hs : c = ' '
      · subst hs
        rw [body_space st _ hcom] at h
        have hcc : countColumns 1 st = st := by
          unfold countColumns; simp [hnse]
        simp only [hcc, Except.ok.injEq, Prod.mk.injEq] at h
        rw [← h.1, ← h.2]
        exact ⟨hnse, hcur, rfl, l, rfl, le_refl _, hLF⟩
      · by_cases ht : c = TAB
        · subst ht
          rw [body_tab st _ hcom] at h
          have hcc : countColumns 2 { st with stroke_not_empty := true }
              = { st with stroke_not_empty := true } := by
            unfold countColumns; simp [hnse]
          simp only [hcc, Except.ok.injEq, Prod.mk.injEq] at h
          rw [← h.1, ← h.2]
          exact ⟨hnse, hcur, rfl, l, rfl, le_refl _, hLF⟩
        · rw [body_content st c _ hcom ⟨hs, ht, hc, hh⟩] at h
          obtain ⟨tok, hst, -⟩ := lexeme_content _ _ _ _ _ hc h
          have hib : indentBlock { st with stroke_not_empty := true }
              = { st with stroke_not_empty := true } := by
            unfold indentBlock
            simp only [hnse, Bool.true_eq_false, if_false]
          rw [hib] at hst h
          refine ⟨?_, ?_, ?_, lexeme_frame _ _ _ _ _ _ hc hs hh hLF h⟩
          · rw [hst]; exact hnse
          · rw [hst]; exact hcur
          · rw [hst]

/-- The rest of a content line: from a state inside the line the lexer arrives at
the start of the next line with the same `prev_count_space`, and the last token
is the `Newline` of the line. -/
theorem rest_of_content_line (t : List Char) (toks : List Token) (k : Nat) :
    ∀ (l : List Char) (st : LexerState) (fuel : Nat), l.length ≤ k →
      st.not_space_exist = true → st.current_count_space = 0 → LF ∉ l →
      loop fuel st (l ++ LF :: t) = .ok toks →
      ∃ n st2 fuel2, passes n st (l ++ LF :: t) = .ok (st2, t) ∧
        loop fuel2 st2 t = .ok toks ∧
        st2.not_space_exist = false ∧ st2.is_comment = false ∧
        st2.current_count_space = 0 ∧ st2.prev_count_space = st.prev_count_space ∧
        st2.tokens.getLast? = some Token.Newline := by
  induction k with
  | zero =>
    intro l st fuel hk hnse hcur hLF h
    have hl : l = [] := List.eq_nil_of_length_eq_zero (by omega)
    subst hl
    simp only [List.nil_append] at h ⊢
    obtain ⟨st1, rest1, hb, hloop⟩ := loop_step _ _ _ _ _ h
    rw [body_LF] at hb
    simp only [hnse, if_true, Except.ok.injEq, Prod.mk.injEq] at hb
    obtain ⟨e1, e2⟩ := hb
    subst e1 e2
    refine ⟨1, _, fuel - 1, ?_, hloop, rfl, rfl, hcur, rfl, by simp⟩
    simp only [passes, body_LF, hnse, if_true]
  | succ k ih =>
    intro l st fuel hk hnse hcur hLF h
    cases l with
    | nil => exact ih [] st fuel (by simp) hnse hcur hLF h
    | cons c l2 =>
      have hc : c ≠ LF := fun e => hLF (by simp [e])
      have hLF2 : LF ∉ l2 := fun hm => hLF (List.mem_cons_of_mem _ hm)
      simp only [List.cons_append] at h ⊢
      obtain ⟨st1, rest1, hb, hloop⟩ := loop_step _ _ _ _ _ h
      obtain ⟨a1, a2, a3, l3, a4, a5, a6⟩ := body_inside_line st st1 c l2 t rest1 hnse hcur hc hLF2 hb
      subst a4
      simp only [List.length_cons] at hk
      obtain ⟨n, st2, fuel2, b1, b2, b3, b4, b5, b6, b7⟩ :=
        ih l3 st1 (fuel - 1) (by omega) a1 a2 a6 hloop
      refine ⟨n + 1, st2, fuel2, ?_, b2, b3, b4, b5, by rw [b6, a3], b7⟩
      rw [passes_step n st st1 c _ _ hb]
      exact b1

/-- A comment that began before any content of its line: the lexer arrives at the
start of the next line and has changed neither `prev_count_space` nor the tokens. -/
theorem rest_of_comment_line (t : List Char) (toks : List Token) :
    ∀ (l : List Char) (st : LexerState) (fuel : Nat),
      st.not_space_exist = false → st.is_comment = true → LF ∉ l →
      loop fuel st (l ++ LF :: t) = .ok toks →
      ∃ n st2 fuel2, passes n st (l ++ LF :: t) = .ok (st2, t) ∧
        loop fuel2 st2 t = .ok toks ∧
        st2.not_space_exist = false ∧ st2.is_comment = false ∧
        st2.current_count_space = 0 ∧ st2.prev_count_space = st.prev_count_space ∧
        st2.tokens = st.tokens
  | [], st, fuel, hnse, hcom, hLF, h => by
    simp only [List.nil_append] at h ⊢
    obtain ⟨st1, rest1, hb, hloop⟩ := loop_step _ _ _ _ _ h
    rw [body_LF] at hb
    simp only [hnse, Bool.false_eq_true, if_false, Except.ok.injEq, Prod.mk.injEq] at hb
    obtain ⟨e1, e2⟩ := hb
    subst e1 e2
    refine ⟨1, _, fuel - 1, ?_, hloop, rfl, rfl, rfl, rfl, rfl⟩
    simp only [passes, body_LF, hnse, Bool.false_eq_true, if_false]
  | c :: l2, st, fuel, hnse, hcom, hLF, h => by
    have hc : c ≠ LF := fun e => hLF (by simp [e])
    have hLF2 : LF ∉ l2 := fun hm => hLF (List.mem_cons_of_mem _ hm)
    simp only [List.cons_append] at h ⊢
    obtain ⟨st1, rest1, hb, hloop⟩ := loop_step _ _ _ _ _ h
    have hb2 := hb
    rw [body_in_comment st c _ hcom hc] at hb2
    simp only [Except.ok.injEq, Prod.mk.injEq] at hb2
    rw [← hb2.1, ← hb2.2] at hloop
    obtain ⟨n, st2, fuel2, b1, b2, b3, b4, b5, b6, b7⟩ :=
      rest_of_comment_line t toks l2 st (fuel - 1) hnse hcom hLF2 hloop
    refine ⟨n + 1, st2, fuel2, ?_, b2, b3, b4, b5, b6, b7⟩
    rw [passes_step n st st c _ _ (body_in_comment st c _ hcom hc)]
    exact b1

theorem countColumns_at_line_start (k : Nat) (st : LexerState)
    (hnse : st.not_space_exist = false) :
    countColumns k st = { st with current_count_space := st.current_count_space + k } := by
  unfold countColumns
  simp only [hnse, if_true]

/-- One whole line, read from its start: the lexer arrives at the start of the
next line, and `prev_count_space` is the indentation of the line when the line has
content and is unchanged otherwise. -/
theorem through_one_line (t : List Char) (toks : List Token) :
    ∀ (l : List Char) (st : LexerState) (fuel : Nat),
      st.not_space_exist = false → st.is_comment = false → LF ∉ l →
      loop fuel st (l ++ LF :: t) = .ok toks →
      ∃ n st2 fuel2, passes n st (l ++ LF :: t) = .ok (st2, t) ∧
        loop fuel2 st2 t = .ok toks ∧
        st2.not_space_exist = false ∧ st2.is_comment = false ∧
        st2.current_count_space = 0 ∧
        st2.prev_count_space
          = (indentOfLineFrom st.current_count_space l).getD st.prev_count_space ∧
        (st2.tokens = st.tokens ∨ st2.tokens.getLast? = some Token.Newline)
  | [], st, fuel, hnse, hcom, hLF, h => by
    simp only [List.nil_append] at h ⊢
    obtain ⟨st1, rest1, hb, hloop⟩ := loop_step _ _ _ _ _ h
    rw [body_LF] at hb
    simp only [hnse, Bool.false_eq_true, if_false, Except.ok.injEq, Prod.mk.injEq] at hb
    obtain ⟨e1, e2⟩ := hb
    subst e1 e2
    refine ⟨1, _, fuel - 1, ?_, hloop, rfl, rfl, rfl, ?_, Or.inl rfl⟩
    · simp only [passes, body_LF, hnse, Bool.false_eq_true, if_false]
    · simp [indentOfLineFrom]
  | c :: l2, st, fuel, hnse, hcom, hLF, h => by
    have hc : c ≠ LF := fun e => hLF (by simp [e])
    have hLF2 : LF ∉ l2 := fun hm => hLF (List.mem_cons_of_mem _ hm)
    simp only [List.cons_append] at h ⊢
    obtain ⟨st1, rest1, hb, hloop⟩ := loop_step _ _ _ _ _ h
    by_cases hs : c = ' '
    · subst hs
      have hb2 := hb
      rw [body_space st _ hcom, countColumns_at_line_start 1 st hnse] at hb2
      simp only [Except.ok.injEq, Prod.mk.injEq] at hb2
      obtain ⟨e1, e2⟩ := hb2
      subst e1 e2
      obtain ⟨n, st2, fuel2, b1, b2, b3, b4, b5, b6, b7⟩ :=
        through_one_line t toks l2
          { st with current_count_space := st.current_count_space + 1 }
          (fuel - 1) hnse hcom hLF2 hloop
      refine ⟨n + 1, st2, fuel2, ?_, b2, b3, b4, b5, ?_, b7⟩
      · rw [passes_step n st _ ' ' _ _ hb]; exact b1
      · rw [b6]; simp [indentOfLineFrom]
    · by_cases ht : c = TAB
      · subst ht
        have hb2 := hb
        rw [body_tab st _ hcom,
          countColumns_at_line_start 2 { st with stroke_not_empty := true } hnse] at hb2
        simp only [Except.ok.injEq, Prod.mk.injEq] at hb2
        obtain ⟨e1, e2⟩ := hb2
        subst e1 e2
        obtain ⟨n, st2, fuel2, b1, b2, b3, b4, b5, b6, b7⟩ :=
          through_one_line t toks l2
            { st with stroke_not_empty := true,
                      current_count_space := st.current_count_space + 2 }
            (fuel - 1) hnse hcom hLF2 hloop
        refine ⟨n + 1, st2, fuel2, ?_, b2, b3, b4, b5, ?_, b7⟩
        · rw [passes_step n st _ TAB _ _ hb]; exact b1
        · rw [b6]; simp [indentOfLineFrom, hs]
      · by_cases hh : c = hash
        · subst hh
          have hb2 := hb
          rw [body_hash st _ hcom] at hb2
          simp only [Except.ok.injEq, Prod.mk.injEq] at hb2
          obtain ⟨e1, e2⟩ := hb2
          subst e1 e2
          obtain ⟨n, st2, fuel2, b1, b2, b3, b4, b5, b6, b7⟩ :=
            rest_of_comment_line t toks l2 { st with is_comment := true } (fuel - 1)
              hnse rfl hLF2 hloop
          refine ⟨n + 1, st2, fuel2, ?_, b2, b3, b4, b5, ?_, Or.inl b7⟩
          · rw [passes_step n st _ hash _ _ hb]; exact b1
          · rw [b6]; simp [indentOfLineFrom, hs, ht]
        · have hb2 := hb
          rw [body_content st c _ hcom ⟨hs, ht, hc, hh⟩] at hb2
          obtain ⟨tok, hst, -⟩ := lexeme_content _ _ _ _ _ hc hb2
          obtain ⟨l3, a1, a2, a3⟩ := lexeme_frame _ _ _ _ _ _ hc hs hh hLF2 hb2
          subst a1
          have hib1 : (indentBlock { st with stroke_not_empty := true }).not_space_exist
              = true := by
            unfold indentBlock; simp only [hnse, if_true]
          have hib2 : (indentBlock { st with stroke_not_empty := true }).current_count_space
              = 0 := by
            unfold indentBlock; simp only [hnse, if_true]
          have hib3 : (indentBlock { st with stroke_not_empty := true }).prev_count_space
              = st.current_count_space := by
            unfold indentBlock; simp only [hnse, if_true]
          have c1 : st1.not_space_exist = true := by rw [hst]; exact hib1
          have c2 : st1.current_count_space = 0 := by rw [hst]; exact hib2
          have c3 : st1.prev_count_space = st.current_count_space := by rw [hst]; exact hib3
          obtain ⟨n, st2, fuel2, b1, b2, b3, b4, b5, b6, b7⟩ :=
            rest_of_content_line t toks l3.length l3 st1 (fuel - 1) (le_refl _) c1 c2 a3 hloop
          refine ⟨n + 1, st2, fuel2, ?_, b2, b3, b4, b5, ?_, Or.inr b7⟩
          · rw [passes_step n st st1 c _ _ hb]; exact b1
          · rw [b6, c3]; simp [indentOfLineFrom, hs, ht, hh]

/-- Whole lines, read from the start of the first: the lexer arrives at the start
of the line after them, `prev_count_space` being the indentation of the last of
them that has content. -/
theorem through_lines (t : List Char) (toks : List Token) :
    ∀ (lines : List (List Char)) (st : LexerState) (fuel : Nat),
      st.not_space_exist = false → st.is_comment = false → st.current_count_space = 0 →
      (∀ l ∈ lines, LF ∉ l) →
      loop fuel st (joinLines lines ++ t) = .ok toks →
      ∃ n st2 fuel2, passes n st (joinLines lines ++ t) = .ok (st2, t) ∧
        loop fuel2 st2 t = .ok toks ∧
        st2.not_space_exist = false ∧ st2.is_comment = false ∧
        st2.current_count_space = 0 ∧
        st2.prev_count_space
          = lines.foldl (fun P line => (indentOfLine line).getD P) st.prev_count_space ∧
        (st2.tokens = st.tokens ∨ st2.tokens.getLast? = some Token.Newline)
  | [], st, fuel, hnse, hcom, hcur, _, h => by
    simp only [joinLines, List.nil_append] at h ⊢
    exact ⟨0, st, fuel, rfl, h, hnse, hcom, hcur, rfl, Or.inl rfl⟩
  | l :: ls, st, fuel, hnse, hcom, hcur, hlines, h => by
    have hl : LF ∉ l := hlines l (by simp)
    have hls : ∀ x ∈ ls, LF ∉ x := fun x hx => hlines x (by simp [hx])
    have e : joinLines (l :: ls) ++ t = l ++ LF :: (joinLines ls ++ t) := by
      simp [joinLines]
    rw [e] at h ⊢
    obtain ⟨n1, st1, fuel1, a1, a2, a3, a4, a5, a6, a7⟩ :=
      through_one_line (joinLines ls ++ t) toks l st fuel hnse hcom hl h
    obtain ⟨n2, st2, fuel2, b1, b2, b3, b4, b5, b6, b7⟩ :=
      through_lines t toks ls st1 fuel1 a3 a4 a5 hls a2
    refine ⟨n1 + n2, st2, fuel2, ?_, b2, b3, b4, b5, ?_, ?_⟩
    · rw [passes_append n1 n2 st st1 _ _ a1]; exact b1
    · rw [b6, a6, hcur]; rfl
    · rcases b7 with b7 | b7
      · rw [b7]; exact a7
      · exact Or.inr b7

/-- The blanks in front of a line: one pass for each, counting its columns. -/
theorem through_blanks (t : List Char) (toks : List Token) :
    ∀ (ws : List Char) (st : LexerState) (fuel : Nat),
      st.not_space_exist = false → st.is_comment = false →
      (∀ x ∈ ws, x = ' ' ∨ x = TAB) →
      loop fuel st (ws ++ t) = .ok toks →
      ∃ st2 fuel2, passes ws.length st (ws ++ t) = .ok (st2, t) ∧
        loop fuel2 st2 t = .ok toks ∧
        st2.not_space_exist = false ∧ st2.is_comment = false ∧
        st2.current_count_space = st.current_count_space + columns ws ∧
        st2.prev_count_space = st.prev_count_space ∧ st2.tokens = st.tokens
  | [], st, fuel, hnse, hcom, _, h => by
    simp only [List.nil_append] at h ⊢
    exact ⟨st, fuel, rfl, h, hnse, hcom, by simp [columns], rfl, rfl⟩
  | c :: ws, st, fuel, hnse, hcom, hws, h => by
    have hws2 : ∀ x ∈ ws, x = ' ' ∨ x = TAB := fun x hx => hws x (by simp [hx])
    simp only [List.cons_append] at h ⊢
    obtain ⟨st1, rest1, hb, hloop⟩ := loop_step _ _ _ _ _ h
    rcases hws c (by simp) with hs | ht
    · subst hs
      have hb2 := hb
      rw [body_space st _ hcom, countColumns_at_line_start 1 st hnse] at hb2
      simp only [Except.ok.injEq, Prod.mk.injEq] at hb2
      obtain ⟨e1, e2⟩ := hb2
      subst e1 e2
      obtain ⟨st2, fuel2, b1, b2, b3, b4, b5, b6, b7⟩ :=
        through_blanks t toks ws
          { st with current_count_space := st.current_count_space + 1 }
          (fuel - 1) hnse hcom hws2 hloop
      refine ⟨st2, fuel2, ?_, b2, b3, b4, ?_, b6, b7⟩
      · rw [List.length_cons, passes_step ws.length st _ ' ' _ _ hb]; exact b1
      · rw [b5]
        have : (' ' : Char) ≠ TAB := by decide
        simp only [columns, this, if_false]
        omega
    · subst ht
      have hb2 := hb
      rw [body_tab st _ hcom,
        countColumns_at_line_start 2 { st with stroke_not_empty := true } hnse] at hb2
      simp only [Except.ok.injEq, Prod.mk.injEq] at hb2
      obtain ⟨e1, e2⟩ := hb2
      subst e1 e2
      obtain ⟨st2, fuel2, b1, b2, b3, b4, b5, b6, b7⟩ :=
        through_blanks t toks ws
          { st with stroke_not_empty := true,
                    current_count_space := st.current_count_space + 2 }
          (fuel - 1) hnse hcom hws2 hloop
      refine ⟨st2, fuel2, ?_, b2, b3, b4, ?_, b6, b7⟩
      · rw [List.length_cons, passes_step ws.length st _ TAB _ _ hb]; exact b1
      · rw [b5]
        simp only [columns, if_true]
        omega

/-- Claim C3. Take a text that the lexer accepts and in it a line that comes after
the complete lines `lines` and begins with the blanks `ws` followed by a character
`c` that is neither a blank, nor a line feed, nor `#`.  With `C` the columns of `ws`
(a space 1, a tab 2) and `P` the indentation of the last content line among `lines`
(0 when there is none): the lexer arrives at `c` having emitted only the tokens of
the earlier lines (none, or tokens ending with `Newline`), and its next pass emits
exactly `(C - P) / 2` `Indent` tokens when `C > P`, exactly `(P - C) / 2` `Dedent`
tokens when `C < P`, nothing when `C = P`, and right after them the token that
starts at `c`, which is neither `Indent` nor `Dedent`.  These tokens stay in the
result of the lexer, in this place. -/
theorem C3_indent_tokens_of_a_content_line (lines : List (List Char)) (ws : List Char)
    (c : Char) (rest : List Char) (toks : List Token)
    (hlines : ∀ l ∈ lines, LF ∉ l)
    (hws : ∀ x ∈ ws, x = ' ' ∨ x = TAB)
    (hc : c ≠ ' ' ∧ c ≠ TAB ∧ c ≠ LF ∧ c ≠ hash)
    (h : SplitStream (joinLines lines ++ (ws ++ c :: rest)) = .ok toks) :
    ∃ (n : Nat) (st st1 : LexerState) (rest1 : List Char) (tok : Token) (after : List Token),
      passes n initialState (joinLines lines ++ (ws ++ c :: rest)) = .ok (st, c :: rest) ∧
      (st.tokens = [] ∨ st.tokens.getLast? = some Token.Newline) ∧
      body st c rest = .ok (st1, rest1) ∧
      st1.tokens = st.tokens ++ indentTokens (precedingColumns lines) (columns ws) ++ [tok] ∧
      tok ≠ Token.Indent ∧ tok ≠ Token.Dedent ∧
      toks = st1.tokens ++ after := by
  obtain ⟨n1, stL, fuelL, a1, a2, a3, a4, a5, a6, a7⟩ :=
    through_lines (ws ++ c :: rest) toks lines initialState _ rfl rfl rfl hlines h
  obtain ⟨stB, fuelB, b1, b2, b3, b4, b5, b6, b7⟩ :=
    through_blanks (c :: rest) toks ws stL fuelL a3 a4 hws a2
  obtain ⟨st1, rest1, hb, hloop⟩ := loop_step _ _ _ _ _ b2
  have hb2 := hb
  rw [body_content stB c _ b4 hc] at hb2
  obtain ⟨tok, hst, -, t1, t2⟩ := lexeme_content _ _ _ _ _ hc.2.2.1 hb2
  obtain ⟨added, hadd, -⟩ := loop_tokens _ _ _ _ hloop
  have hP : stB.prev_count_space = precedingColumns lines := by
    rw [b6, a6]; rfl
  have hC : stB.current_count_space = columns ws := by
    rw [b5, a5, Nat.zero_add]
  have htok : st1.tokens
      = stB.tokens ++ indentTokens (precedingColumns lines) (columns ws) ++ [tok] := by
    have := congrArg LexerState.tokens hst
    simp only at this
    rw [this, indentBlock_tokens { stB with stroke_not_empty := true } b3]
    simp only [hP, hC]
  refine ⟨n1 + ws.length, stB, st1, rest1, tok, added ++ [Token.Eof], ?_, ?_, hb, htok, t1, t2, ?_⟩
  · rw [passes_append n1 ws.length initialState stL _ _ a1]; exact b1
  · rw [b7]
    rcases a7 with a7 | a7
    · exact Or.inl (by rw [a7]; rfl)
    · exact Or.inr a7
  · rw [hadd, List.append_assoc]

/-- An instance of C3: after the lines `a` and `  b`, the line `      c` of six
columns gets two `Indent` tokens in front of the token of `c`. -/
theorem C3_indent_tokens_of_a_content_line_witness :
    ∃ (n : Nat) (st st1 : LexerState) (rest1 : List Char) (tok : Token) (after : List Token),
      passes n initialState (joinLines ["a".toList, "  b".toList] ++ ("    \t".toList ++ 'c' :: []))
        = .ok (st, 'c' :: []) ∧
      (st.tokens = [] ∨ st.tokens.getLast? = some Token.Newline) ∧
      body st 'c' [] = .ok (st1, rest1) ∧
      st1.tokens = st.tokens ++
        indentTokens (precedingColumns ["a".toList, "  b".toList]) (columns "    \t".toList)
          ++ [tok] ∧
      tok ≠ Token.Indent ∧ tok ≠ Token.Dedent ∧
      [Token.Id "a", Token.Newline, Token.Indent, Token.Id "b", Token.Newline, Token.Indent,
        Token.Indent, Token.Id "c", Token.Dedent, Token.Dedent, Token.Dedent, Token.Newline,
        Token.Eof] = st1.tokens ++ after :=
  C3_indent_tokens_of_a_content_line ["a".toList, "  b".toList] "    \t".toList 'c' []
    _ (by decide) (by decide) (by decide) (by decide)

end parse

/-! # Part IV: properties of the object model and of the evaluator -/

namespace runtime

/-! ## Method resolution -/

theorem find_first_named (methods pre post : List Method) (method : Method) (m : String)
    (hsplit : methods = pre ++ method :: post) (hname : method.name = m)
    (hpre : ∀ x ∈ pre, x.name ≠ m) :
    methods.find? (fun x => x.name == m) = some method := by
  subst hsplit
  induction pre with
  | nil => simp [List.find?, hname]
  | cons p ps ih =>
    have hp : p.name ≠ m := hpre p (by simp)
    have : (p.name == m) = false := by simpa using hp
    simp only [List.cons_append, List.find?, this]
    exact ih (fun x hx => hpre x (by simp [hx]))

theorem find_none_named (methods : List Method) (m : String) :
    methods.find? (fun x => x.name == m) = none ↔ ∀ x ∈ methods, x.name ≠ m := by
  simp [List.find?_eq_none]

theorem GetMethod_mk_none (name : String) (methods : List Method) (m : String) :
    (Class.mk name methods none).GetMethod m =
      methods.find? (fun method => method.name == m) := by
  simp only [Class.GetMethod]
  cases methods.find? (fun method => method.name == m) <;> rfl

theorem GetMethod_mk_some (name : String) (methods : List Method) (p : Class) (m : String) :
    (Class.mk name methods (some p)).GetMethod m =
      match methods.find? (fun method => method.name == m) with
      | some method => some method
      | none => p.GetMethod m := by
  simp only [Class.GetMethod]

theorem ancestry_mk_none (name : String) (methods : List Method) :
    (Class.mk name methods none).ancestry = [Class.mk name methods none] := by
  simp only [Class.ancestry]

theorem ancestry_mk_some (name : String) (methods : List Method) (p : Class) :
    (Class.mk name methods (some p)).ancestry =
      Class.mk name methods (some p) :: p.ancestry := by
  simp only [Class.ancestry]

theorem GetMethod_eq_none_iff : ∀ (cls : Class) (m : String),
    cls.GetMethod m = none ↔ ∀ A ∈ cls.ancestry, ∀ x ∈ A.methods, x.name ≠ m
  | .mk name methods none, m => by
    rw [GetMethod_mk_none]
    rw [ancestry_mk_none]
    simp only [List.mem_singleton, forall_eq, find_none_named]
    rfl
  | .mk name methods (some p), m => by
    have ih := GetMethod_eq_none_iff p m
    rw [GetMethod_mk_some]
    rw [ancestry_mk_some]
    simp only [List.mem_cons, forall_eq_or_imp]
    cases hf : methods.find? (fun x => x.name == m) with
    | some method =>
      simp only [false_iff, reduceCtorEq, not_and]
      intro hall
      have := (find_none_named methods m).2 hall
      rw [hf] at this
      cases this
    | none =>
      simp only [ih]
      constructor
      · intro h
        exact ⟨(find_none_named methods m).1 hf, h⟩
      · intro h
        exact h.2

/-- Claim C7. `Class::GetMethod(m)` returns the first method named `m` of the class's
own list when there is one, whatever the ancestors define; otherwise what the
parent's `GetMethod(m)` returns (nothing without a parent); and it returns nothing
exactly when no class of the parent chain has a method named `m`. -/
theorem C7_GetMethod_resolution (name : String) (methods : List Method)
    (parent : Option Class) (m : String) :
    (∀ (pre post : List Method) (method : Method),
        methods = pre ++ method :: post → method.name = m → (∀ x ∈ pre, x.name ≠ m) →
        (Class.mk name methods parent).GetMethod m = some method) ∧
    ((∀ x ∈ methods, x.name ≠ m) →
        (Class.mk name methods parent).GetMethod m =
          match parent with
          | some parent_class => parent_class.GetMethod m
          | none => none) ∧
    ((Class.mk name methods parent).GetMethod m = none ↔
        ∀ A ∈ (Class.mk name methods parent).ancestry, ∀ x ∈ A.methods, x.name ≠ m) := by
  refine ⟨?_, ?_, GetMethod_eq_none_iff _ m⟩
  · intro pre post method hsplit hname hpre
    have := find_first_named methods pre post method m hsplit hname hpre
    cases parent with
    | none => rw [GetMethod_mk_none, this]
    | some p => rw [GetMethod_mk_some, this]
  · intro hnone
    have := (find_none_named methods m).2 hnone
    cases parent with
    | none => rw [GetMethod_mk_none, this]
    | some p => rw [GetMethod_mk_some, this]

/-- An instance of C7: `StringableValue` overrides `GetValue`, and the lookup
on it returns its own method, not the one of `BoxedValue`. -/
theorem C7_GetMethod_resolution_witness :
    exampleDerived.GetMethod "GetValue" = some exampleOverride :=
  (C7_GetMethod_resolution "StringableValue"
      [exampleOverride, .mk "AsString" [] (.StringConst "value")] (some exampleBase)
      "GetValue").1 [] [.mk "AsString" [] (.StringConst "value")] exampleOverride
    rfl rfl (by simp)

/-! ## Comparison of primitive values -/

theorem stringLess_irrefl : ∀ (a : List Char), stringLess a a = false
  | [] => rfl
  | c :: cs => by
    simp only [stringLess, lt_self_iff_false, if_false]
    exact stringLess_irrefl cs

theorem stringLess_trichotomy : ∀ (a b : List Char),
    (stringLess a b = true ∧ a ≠ b ∧ stringLess b a = false) ∨
    (stringLess a b = false ∧ a = b ∧ stringLess b a = false) ∨
    (stringLess a b = false ∧ a ≠ b ∧ stringLess b a = true)
  | [], [] => by simp [stringLess]
  | [], _ :: _ => by simp [stringLess]
  | _ :: _, [] => by simp [stringLess]
  | x :: xs, y :: ys => by
    have ih := stringLess_trichotomy xs ys
    simp only [stringLess]
    rcases Nat.lt_trichotomy x.toNat y.toNat with h | h | h
    · have h2 : ¬ y.toNat < x.toNat := by omega
      have h3 : x ≠ y := by intro e; subst e; omega
      simp [h, h2, h3]
    · have hxy : x = y := Char.ext (UInt32.ext h)
      subst hxy
      simp only [lt_self_iff_false, if_false, List.cons.injEq, true_and, ne_eq]
      exact ih
    · have h2 : ¬ x.toNat < y.toNat := by omega
      have h3 : x ≠ y := by intro e; subst e; omega
      simp [h, h2, h3]

/-- Claim C8. For two primitive values of the same kind (two Numbers, two Strings or
two Bools) the calls `Less(a, b)`, `Equal(a, b)` and `Less(b, a)` all return, and
exactly one of the three results is true. -/
theorem C8_trichotomy_on_primitives
    (exec : Statement → Closure → Context → Outcome ObjectHolder)
    (closure : Closure) (context : Context) (a b : ObjectHolder)
    (hkind : (∃ x y, a = .Number x ∧ b = .Number y) ∨
             (∃ x y, a = .String x ∧ b = .String y) ∨
             (∃ x y, a = .Bool x ∧ b = .Bool y)) :
    ∃ lt eq gt : Bool,
      Less exec a b closure context = .ok lt closure context ∧
      Equal exec a b closure context = .ok eq closure context ∧
      Less exec b a closure context = .ok gt closure context ∧
      ((lt = true ∧ eq = false ∧ gt = false) ∨
       (lt = false ∧ eq = true ∧ gt = false) ∨
       (lt = false ∧ eq = false ∧ gt = true)) := by
  rcases hkind with ⟨x, y, rfl, rfl⟩ | ⟨x, y, rfl, rfl⟩ | ⟨x, y, rfl, rfl⟩
  · refine ⟨decide (x < y), decide (x = y), decide (y < x), rfl, rfl, rfl, ?_⟩
    rcases lt_trichotomy x y with h | h | h
    · have h1 : x ≠ y := ne_of_lt h
      have h2 : ¬ y < x := not_lt.2 (le_of_lt h)
      simp [h, h1, h2]
    · subst h; simp
    · have h1 : x ≠ y := (ne_of_lt h).symm
      have h2 : ¬ x < y := not_lt.2 (le_of_lt h)
      simp [h, h1, h2]
  · refine ⟨stringLess x.data y.data, decide (x = y), stringLess y.data x.data,
      rfl, rfl, rfl, ?_⟩
    have hd : x = y ↔ x.data = y.data := by
      constructor
      · intro e; rw [e]
      · intro e; exact String.ext e
    rcases stringLess_trichotomy x.data y.data with ⟨h1, h2, h3⟩ | ⟨h1, h2, h3⟩ | ⟨h1, h2, h3⟩
    · have : x ≠ y := fun e => h2 (hd.1 e)
      simp [h1, h3, this]
    · have : x = y := hd.2 h2
      subst this
      simp [h1]
    · have : x ≠ y := fun e => h2 (hd.1 e)
      simp [h1, h3, this]
  · refine ⟨(!x && y), decide (x = y), (!y && x), rfl, rfl, rfl, ?_⟩
    cases x <;> cases y <;> simp

/-- Instances of C8: the Numbers 3 and 5, for any way of running method bodies. -/
theorem C8_trichotomy_on_primitives_witness :
    ∃ lt eq gt : Bool,
      Less (Execute 0) (.Number 3) (.Number 5) [] emptyContext = .ok lt [] emptyContext ∧
      Equal (Execute 0) (.Number 3) (.Number 5) [] emptyContext = .ok eq [] emptyContext ∧
      Less (Execute 0) (.Number 5) (.Number 3) [] emptyContext = .ok gt [] emptyContext ∧
      ((lt = true ∧ eq = false ∧ gt = false) ∨
       (lt = false ∧ eq = true ∧ gt = false) ∨
       (lt = false ∧ eq = false ∧ gt = true)) :=
  C8_trichotomy_on_primitives (Execute 0) [] emptyContext (.Number 3) (.Number 5)
    (Or.inl ⟨3, 5, rfl, rfl⟩)

/-! ## `Equal` -/

/-- Claim C10. `Equal(l, r)` is true for two empty holders; the equality of the values
for two Strings, two Numbers or two Bools; the truth of what `__eq__(r)` returns
when `l` is a class instance whose class resolves `__eq__` with one parameter; and
a `runtime_error` in every other case. -/
theorem C10_Equal_cases
    (exec : Statement → Closure → Context → Outcome ObjectHolder)
    (closure : Closure) (context : Context) (l r : ObjectHolder) :
    (l = .None → r = .None → Equal exec l r closure context = .ok true closure context) ∧
    (∀ x y, l = .String x → r = .String y →
        Equal exec l r closure context = .ok (decide (x = y)) closure context) ∧
    (∀ x y, l = .Number x → r = .Number y →
        Equal exec l r closure context = .ok (decide (x = y)) closure context) ∧
    (∀ x y, l = .Bool x → r = .Bool y →
        Equal exec l r closure context = .ok (decide (x = y)) closure context) ∧
    (∀ address cls, l = .ClassInstance address cls → HasMethod cls "__eq__" 1 = true →
        Equal exec l r closure context =
          (Call exec address cls "__eq__" [r] closure context).bind
            fun result closure1 context1 => .ok (IsTrue result) closure1 context1) ∧
    (¬ (l = .None ∧ r = .None) →
      ¬ (∃ x y, l = .String x ∧ r = .String y) →
      ¬ (∃ x y, l = .Number x ∧ r = .Number y) →
      ¬ (∃ x y, l = .Bool x ∧ r = .Bool y) →
      ¬ (∃ address cls, l = .ClassInstance address cls ∧ HasMethod cls "__eq__" 1 = true) →
        Equal exec l r closure context = .thrown .runtime_error closure context) := by
  refine ⟨?_, ?_, ?_, ?_, ?_, ?_⟩
  · rintro rfl rfl; rfl
  · rintro x y rfl rfl; rfl
  · rintro x y rfl rfl; rfl
  · rintro x y rfl rfl; rfl
  · rintro address cls rfl h
    simp only [Equal, h, if_true]
  · intro h1 h2 h3 h4 h5
    cases l <;> cases r <;> simp_all [Equal]

/-! ## One step of `Execute`, node by node -/

theorem Outcome.bind_congr {α β : Type} (x : Outcome α)
    (f g : α → Closure → Context → Outcome β)
    (h : ∀ v closure context, f v closure context = g v closure context) :
    x.bind f = x.bind g := by
  cases x <;> simp only [Outcome.bind, h]

theorem Execute_Compound (fuel : Nat) (stmts : List Statement) (closure : Closure)
    (context : Context) :
    Execute (fuel + 1) (.Compound stmts) closure context =
      (executeEach (Execute fuel) stmts closure context).bind fun _ closure1 context1 =>
        .ok .None closure1 context1 := rfl

theorem Execute_Return (fuel : Nat) (statement : Statement) (closure : Closure)
    (context : Context) :
    Execute (fuel + 1) (.Return statement) closure context =
      (Execute fuel statement closure context).bind fun obj closure1 context1 =>
        .thrown (.returned obj) closure1 context1 := rfl

theorem Execute_MethodBody (fuel : Nat) (body : Statement) (closure : Closure)
    (context : Context) :
    Execute (fuel + 1) (.MethodBody body) closure context =
      match Execute fuel body closure context with
      | .ok _ closure1 context1 => .ok .None closure1 context1
      | .thrown (.returned ret_obj) closure1 context1 => .ok ret_obj closure1 context1
      | .thrown what closure1 context1 => .thrown what closure1 context1
      | .undefined => .undefined
      | .out_of_fuel => .out_of_fuel := rfl

theorem Execute_IfElse (fuel : Nat) (condition if_body : Statement)
    (else_body : Option Statement) (closure : Closure) (context : Context) :
    Execute (fuel + 1) (.IfElse condition if_body else_body) closure context =
      (Execute fuel condition closure context).bind fun obj_condition closure1 context1 =>
        match obj_condition with
        | .Bool obj_condition_bool =>
          if obj_condition_bool = true then Execute fuel if_body closure1 context1
          else
            match else_body with
            | some else_stmt => Execute fuel else_stmt closure1 context1
            | none => .ok .None closure1 context1
        | _ => .undefined := rfl

theorem Execute_Stringify (fuel : Nat) (argument : Statement) (closure : Closure)
    (context : Context) :
    Execute (fuel + 1) (.Stringify argument) closure context =
      (Execute fuel argument closure context).bind fun obj closure1 context1 =>
        match obj with
        | .None => .ok (.String "None") closure1 context1
        | _ =>
          (PrintObject fuel obj closure1 context1).bind fun text closure2 context2 =>
            .ok (.String text) closure2 context2 := rfl

theorem PrintObject_ClassInstance (fuel : Nat) (address : Nat) (cls : Class)
    (closure : Closure) (context : Context) :
    PrintObject (fuel + 1) (.ClassInstance address cls) closure context =
      if HasMethod cls "__str__" 0 = true then
        (Call (Execute fuel) address cls "__str__" [] closure context).bind
          fun result closure1 context1 => PrintObject fuel result closure1 context1
      else .ok (addressText address) closure context := rfl

theorem PrintObject_String (fuel : Nat) (value : String) (closure : Closure)
    (context : Context) :
    PrintObject (fuel + 1) (.String value) closure context = .ok value closure context := rfl

theorem PrintObject_Number (fuel : Nat) (value : Int) (closure : Closure)
    (context : Context) :
    PrintObject (fuel + 1) (.Number value) closure context
      = .ok (toString value) closure context := rfl

theorem Execute_Or_source (fuel : Nat) (lhs rhs : Statement) (closure : Closure)
    (context : Context) :
    Execute (fuel + 1) (.Or lhs rhs) closure context =
      (Execute fuel lhs closure context).bind fun l_obj closure1 context1 =>
        if isNonZeroNumber l_obj = true then .ok (.Bool true) closure1 context1
        else if isNonEmptyString l_obj = true then .ok (.Bool true) closure1 context1
        else if isTrueBool l_obj = true then .ok (.Bool true) closure1 context1
        else
          (Execute fuel rhs closure1 context1).bind fun r_obj closure2 context2 =>
            if isNonZeroNumber r_obj = true then .ok (.Bool true) closure2 context2
            else if isNonEmptyString r_obj = true then .ok (.Bool true) closure2 context2
            else if isTrueBool r_obj = true then .ok (.Bool true) closure2 context2
            else .ok (.Bool false) closure2 context2 := rfl

theorem Execute_And_source (fuel : Nat) (lhs rhs : Statement) (closure : Closure)
    (context : Context) :
    Execute (fuel + 1) (.And lhs rhs) closure context =
      (Execute fuel lhs closure context).bind fun l_obj closure1 context1 =>
        if (if isNonZeroNumber l_obj = true then true
            else if isNonEmptyString l_obj = true then true
            else if isTrueBool l_obj = true then true
            else false) = false then .ok (.Bool false) closure1 context1
        else
          (Execute fuel rhs closure1 context1).bind fun r_obj closure2 context2 =>
            if isNonZeroNumber r_obj = true then .ok (.Bool true) closure2 context2
            else if isNonEmptyString r_obj = true then .ok (.Bool true) closure2 context2
            else if isTrueBool r_obj = true then .ok (.Bool true) closure2 context2
            else .ok (.Bool false) closure2 context2 := rfl

theorem tests_eq_IsTrue (obj : ObjectHolder) (closure : Closure) (context : Context) :
    (if isNonZeroNumber obj = true then Outcome.ok (ObjectHolder.Bool true) closure context
     else if isNonEmptyString obj = true then .ok (.Bool true) closure context
     else if isTrueBool obj = true then .ok (.Bool true) closure context
     else .ok (.Bool false) closure context) = .ok (.Bool (IsTrue obj)) closure context := by
  cases obj <;> simp [IsTrue, isNonZeroNumber, isNonEmptyString, isTrueBool]
  all_goals split <;> simp_all

/-- An instance of C10: a Number compared with a String is a `runtime_error`. -/
theorem C10_Equal_cases_witness :
    Equal (Execute 0) (.Number 1) (.String "1") [] emptyContext
      = .thrown .runtime_error [] emptyContext :=
  (C10_Equal_cases (Execute 0) [] emptyContext (.Number 1) (.String "1")).2.2.2.2.2
    (by simp) (by simp) (by simp) (by simp) (by simp)

/-! ## `Or` and `And` -/

/-- The three tests that `Or`, `And` and `Not` make on a value amount to `IsTrue`. -/
theorem IsTrue_eq_tests (obj : ObjectHolder) :
    IsTrue obj = (isNonZeroNumber obj || isNonEmptyString obj || isTrueBool obj) := by
  cases obj <;> simp [IsTrue, isNonZeroNumber, isNonEmptyString, isTrueBool]

theorem tests_of_IsTrue_false (obj : ObjectHolder) (h : IsTrue obj = false) :
    isNonZeroNumber obj = false ∧ isNonEmptyString obj = false ∧ isTrueBool obj = false := by
  rw [IsTrue_eq_tests] at h
  simpa [Bool.or_eq_false_iff, and_assoc] using h

theorem Execute_Or (fuel : Nat) (lhs rhs : Statement) (closure : Closure) (context : Context) :
    Execute (fuel + 1) (.Or lhs rhs) closure context =
      (Execute fuel lhs closure context).bind fun l_obj closure1 context1 =>
        if IsTrue l_obj = true then .ok (.Bool true) closure1 context1
        else
          (Execute fuel rhs closure1 context1).bind fun r_obj closure2 context2 =>
            .ok (.Bool (IsTrue r_obj)) closure2 context2 := by
  rw [Execute_Or_source]
  apply Outcome.bind_congr
  intro l_obj closure1 context1
  by_cases hl : IsTrue l_obj = true
  · have := tests_eq_IsTrue l_obj closure1 context1
    rw [hl] at this
    simp only [hl, if_true]
    by_cases h1 : isNonZeroNumber l_obj = true
    · simp only [h1, if_true]
    · by_cases h2 : isNonEmptyString l_obj = true
      · simp [h1, h2]
      · by_cases h3 : isTrueBool l_obj = true
        · simp [h1, h2, h3]
        · simp [h1, h2, h3] at this
  · obtain ⟨h1, h2, h3⟩ := tests_of_IsTrue_false l_obj (by simpa using hl)
    simp only [h1, h2, h3, hl, if_false, Bool.false_eq_true]
    apply Outcome.bind_congr
    intro r_obj closure2 context2
    exact tests_eq_IsTrue r_obj closure2 context2

theorem Execute_And (fuel : Nat) (lhs rhs : Statement) (closure : Closure) (context : Context) :
    Execute (fuel + 1) (.And lhs rhs) closure context =
      (Execute fuel lhs closure context).bind fun l_obj closure1 context1 =>
        if IsTrue l_obj = false then .ok (.Bool false) closure1 context1
        else
          (Execute fuel rhs closure1 context1).bind fun r_obj closure2 context2 =>
            .ok (.Bool (IsTrue r_obj)) closure2 context2 := by
  rw [Execute_And_source]
  apply Outcome.bind_congr
  intro l_obj closure1 context1
  have hfirst : (if isNonZeroNumber l_obj = true then true
      else if isNonEmptyString l_obj = true then true
      else if isTrueBool l_obj = true then true else false) = IsTrue l_obj := by
    rw [IsTrue_eq_tests]
    by_cases h1 : isNonZeroNumber l_obj = true <;>
      by_cases h2 : isNonEmptyString l_obj = true <;>
        by_cases h3 : isTrueBool l_obj = true <;> simp [h1, h2, h3]
  rw [hfirst]
  by_cases hl : IsTrue l_obj = false
  · simp only [hl, if_true]
  · simp only [hl, if_false]
    apply Outcome.bind_congr
    intro r_obj closure2 context2
    exact tests_eq_IsTrue r_obj closure2 context2

/-- Claim C6. Once `l` has been evaluated to a value: `Or(l, r)` returns `Bool(true)`
from the state `l` left when that value is truthy, whatever `r` is, and otherwise
evaluates `r` from that state and returns the truth of its value; `And(l, r)`
returns `Bool(false)` from the state `l` left when the value is falsy, whatever `r`
is, and otherwise evaluates `r` and returns the truth of its value.  Truth is
`IsTrue`, so the results are `IsTrue l || IsTrue r` and `IsTrue l && IsTrue r`. -/
theorem C6_Or_And_short_circuit (fuel : Nat) (l r : Statement)
    (closure closure1 : Closure) (context context1 : Context) (l_obj : ObjectHolder)
    (hl : Execute fuel l closure context = .ok l_obj closure1 context1) :
    (IsTrue l_obj = true →
        Execute (fuel + 1) (.Or l r) closure context = .ok (.Bool true) closure1 context1) ∧
    (IsTrue l_obj = false → ∀ r_obj closure2 context2,
        Execute fuel r closure1 context1 = .ok r_obj closure2 context2 →
        Execute (fuel + 1) (.Or l r) closure context
          = .ok (.Bool (IsTrue l_obj || IsTrue r_obj)) closure2 context2) ∧
    (IsTrue l_obj = false →
        Execute (fuel + 1) (.And l r) closure context = .ok (.Bool false) closure1 context1) ∧
    (IsTrue l_obj = true → ∀ r_obj closure2 context2,
        Execute fuel r closure1 context1 = .ok r_obj closure2 context2 →
        Execute (fuel + 1) (.And l r) closure context
          = .ok (.Bool (IsTrue l_obj && IsTrue r_obj)) closure2 context2) := by
  refine ⟨?_, ?_, ?_, ?_⟩
  · intro ht
    rw [Execute_Or, hl]
    simp only [Outcome.bind, ht, if_true]
  · intro hf r_obj closure2 context2 hr
    rw [Execute_Or, hl]
    simp only [Outcome.bind, hf, hr, Bool.false_eq_true, if_false, Bool.false_or]
  · intro hf
    rw [Execute_And, hl]
    simp only [Outcome.bind, hf, if_true]
  · intro ht r_obj closure2 context2 hr
    rw [Execute_And, hl]
    simp only [Outcome.bind, ht, hr, Bool.true_eq_false, if_false, Bool.true_and]

/-- An instance of C6: `Or` of the Number 4 and a statement that prints
returns `Bool(true)` and nothing has been printed. -/
theorem C6_Or_And_short_circuit_witness :
    Execute 2 (.Or (.NumericConst 4) printsRhs) [] emptyContext
      = .ok (.Bool true) [] emptyContext :=
  (C6_Or_And_short_circuit 1 (.NumericConst 4) printsRhs [] [] emptyContext emptyContext
    (.Number 4) rfl).1 rfl

/-! ## `Return` and `MethodBody` -/

theorem executeEach_append_returning
    (exec : Statement → Closure → Context → Outcome ObjectHolder)
    (before : List Statement) (S : Statement) (after : List Statement)
    (closure closure1 closure2 : Closure) (context context1 context2 : Context)
    (what : Thrown)
    (hbefore : CompleteInOrder exec before closure context closure1 context1)
    (hS : exec S closure1 context1 = .thrown what closure2 context2) :
    executeEach exec (before ++ S :: after) closure context = .thrown what closure2 context2 := by
  induction hbefore with
  | nil cl ctx => simp only [List.nil_append, executeEach, hS, Outcome.bind]
  | cons st rest value cl cl1 cl2 ctx ctx1 ctx2 first others ih =>
    simp only [List.cons_append, executeEach, first, Outcome.bind]
    exact ih hS

theorem executeEach_complete
    (exec : Statement → Closure → Context → Outcome ObjectHolder)
    (stmts : List Statement)
    (closure closure1 : Closure) (context context1 : Context)
    (h : CompleteInOrder exec stmts closure context closure1 context1) :
    executeEach exec stmts closure context = .ok () closure1 context1 := by
  induction h with
  | nil cl ctx => simp only [executeEach]
  | cons st rest value cl cl1 cl2 ctx ctx1 ctx2 first others ih =>
    simp only [executeEach, first, Outcome.bind]
    exact ih

/-- Claim C5. Let `X` evaluate to a value.  In
`MethodBody(Compound([A1..An, Return(X), Y1..Ym]))` where `A1..An` run in order and
each ends with a value, the body returns the holder `X` evaluated to, in the state
`X` left, whatever `Y1..Ym` are.  The same holds when the `Return(X)` is the chosen
branch of an `IfElse` that stands after `A1..An`, and when it stands in an inner
`Compound` after statements that end with a value.  When the body of a `MethodBody`
ends with a value, no `Return` having run, `MethodBody` returns the empty holder. -/
theorem C5_return_ends_method_body (fuel : Nat) (X : Statement)
    (closure1 closure2 : Closure) (context1 context2 : Context) (value : ObjectHolder)
    (hX : Execute fuel X closure1 context1 = .ok value closure2 context2) :
    (∀ (before after : List Statement) (closure : Closure) (context : Context),
        CompleteInOrder (Execute (fuel + 1)) before closure context closure1 context1 →
        Execute (fuel + 3) (.MethodBody (.Compound (before ++ .Return X :: after)))
          closure context = .ok value closure2 context2) ∧
    (∀ (before after : List Statement) (cond : Statement) (other : Option Statement)
        (closure closure0 : Closure) (context context0 : Context),
        CompleteInOrder (Execute (fuel + 2)) before closure context closure0 context0 →
        Execute (fuel + 1) cond closure0 context0 = .ok (.Bool true) closure1 context1 →
        Execute (fuel + 4)
          (.MethodBody (.Compound (before ++ .IfElse cond (.Return X) other :: after)))
          closure context = .ok value closure2 context2) ∧
    (∀ (before after : List Statement) (cond other : Statement)
        (closure closure0 : Closure) (context context0 : Context),
        CompleteInOrder (Execute (fuel + 2)) before closure context closure0 context0 →
        Execute (fuel + 1) cond closure0 context0 = .ok (.Bool false) closure1 context1 →
        Execute (fuel + 4)
          (.MethodBody (.Compound (before ++ .IfElse cond other (some (.Return X)) :: after)))
          closure context = .ok value closure2 context2) ∧
    (∀ (before after inner_before inner_after : List Statement)
        (closure closure0 : Closure) (context context0 : Context),
        CompleteInOrder (Execute (fuel + 2)) before closure context closure0 context0 →
        CompleteInOrder (Execute (fuel + 1)) inner_before closure0 context0 closure1 context1 →
        Execute (fuel + 4)
          (.MethodBody (.Compound
            (before ++ .Compound (inner_before ++ .Return X :: inner_after) :: after)))
          closure context = .ok value closure2 context2) ∧
    (∀ (n : Nat) (body : Statement) (result : ObjectHolder) (closure0 closure3 : Closure)
        (context0 context3 : Context),
        Execute n body closure0 context0 = .ok result closure3 context3 →
        Execute (n + 1) (.MethodBody body) closure0 context0 = .ok .None closure3 context3) := by
  have hret : Execute (fuel + 1) (.Return X) closure1 context1
      = .thrown (.returned value) closure2 context2 := by
    rw [Execute_Return, hX]; rfl
  have hbody : ∀ (k : Nat) (before after : List Statement) (S : Statement)
      (closure closure0 : Closure) (context context0 : Context),
      CompleteInOrder (Execute k) before closure context closure0 context0 →
      Execute k S closure0 context0 = .thrown (.returned value) closure2 context2 →
      Execute (k + 2) (.MethodBody (.Compound (before ++ S :: after))) closure context
        = .ok value closure2 context2 := by
    intro k before after S closure closure0 context context0 hb hS
    rw [Execute_MethodBody, Execute_Compound, executeEach_append_returning (Execute k) before S
      after closure closure0 closure2 context context0 context2 _ hb hS]
    rfl
  refine ⟨?_, ?_, ?_, ?_, ?_⟩
  · intro before after closure context hb
    exact hbody (fuel + 1) before after _ closure closure1 context context1 hb hret
  · intro before after cond other closure closure0 context context0 hb hc
    refine hbody (fuel + 2) before after _ closure closure0 context context0 hb ?_
    rw [Execute_IfElse, hc]
    simp only [Outcome.bind, if_true, hret]
  · intro before after cond other closure closure0 context context0 hb hc
    refine hbody (fuel + 2) before after _ closure closure0 context context0 hb ?_
    rw [Execute_IfElse, hc]
    simp only [Outcome.bind, Bool.false_eq_true, if_false, hret]
  · intro before after inner_before inner_after closure closure0 context context0 hb hi
    refine hbody (fuel + 2) before after _ closure closure0 context context0 hb ?_
    rw [Execute_Compound, executeEach_append_returning (Execute (fuel + 1)) inner_before _
      inner_after closure0 closure1 closure2 context0 context1 context2 _ hi hret]
    rfl
  · intro n body result closure0 closure3 context0 context3 hb
    rw [Execute_MethodBody, hb]

/-- An instance of C5: the body `y = 2; return 1; print "rhs"` returns the Number
1, has bound `y`, and has printed nothing. -/
theorem C5_return_ends_method_body_witness :
    Execute 4 (.MethodBody (.Compound
        ([.Assignment "y" (.NumericConst 2)] ++ .Return (.NumericConst 1) :: [printsRhs])))
        [] emptyContext
      = .ok (.Number 1) [("y", .Number 2)] emptyContext :=
  (C5_return_ends_method_body 1 (.NumericConst 1) [("y", .Number 2)] [("y", .Number 2)]
    emptyContext emptyContext (.Number 1) rfl).1
    [.Assignment "y" (.NumericConst 2)] [printsRhs] [] emptyContext
    (.cons _ _ (.Number 2) _ _ _ _ _ _ rfl (.nil _ _))

/-! ## `Stringify` -/

/-- Claim C9. Once `x` has been evaluated: `Stringify(x)` returns the String `None`
for the empty holder, and otherwise a String holding exactly the text that
printing the value writes; printing that String writes the same text again.  The
print of a class instance is the print of what `__str__` returns when its class or
an ancestor has `__str__` without parameters, and the address of the instance
otherwise. -/
theorem C9_Stringify_holds_the_printed_text (fuel : Nat) (x : Statement)
    (closure closure1 : Closure) (context context1 : Context) (obj : ObjectHolder)
    (hx : Execute fuel x closure context = .ok obj closure1 context1) :
    (obj = .None →
        Execute (fuel + 1) (.Stringify x) closure context
          = .ok (.String "None") closure1 context1) ∧
    (obj ≠ .None → ∀ text closure2 context2,
        PrintObject fuel obj closure1 context1 = .ok text closure2 context2 →
        Execute (fuel + 1) (.Stringify x) closure context
            = .ok (.String text) closure2 context2 ∧
          PrintObject fuel (.String text) closure2 context2 = .ok text closure2 context2) ∧
    (∀ address cls, obj = .ClassInstance address cls →
        PrintObject (fuel + 1) obj closure1 context1 =
          if HasMethod cls "__str__" 0 = true then
            (Call (Execute fuel) address cls "__str__" [] closure1 context1).bind
              fun result closure2 context2 => PrintObject fuel result closure2 context2
          else .ok (addressText address) closure1 context1) := by
  refine ⟨?_, ?_, ?_⟩
  · rintro rfl
    rw [Execute_Stringify, hx]; rfl
  · intro hne text closure2 context2 hp
    constructor
    · rw [Execute_Stringify, hx]
      simp only [Outcome.bind]
      cases obj with
      | None => exact absurd rfl hne
      | _ => simp only [hp]
    · cases fuel with
      | zero => simp [PrintObject] at hp
      | succ n => rw [PrintObject_String]
  · rintro address cls rfl
    rw [PrintObject_ClassInstance]

/-- An instance of C9: `Stringify` of the Number 57 is the String `57`. -/
theorem C9_Stringify_holds_the_printed_text_witness :
    Execute 2 (.Stringify (.NumericConst 57)) [] emptyContext
        = .ok (.String "57") [] emptyContext ∧
      PrintObject 1 (.String "57") [] emptyContext = .ok "57" [] emptyContext :=
  (C9_Stringify_holds_the_printed_text 1 (.NumericConst 57) [] [] emptyContext emptyContext
    (.Number 57) rfl).2.1 (by simp) "57" [] emptyContext rfl

end runtime

namespace runtime

/-! ## Tables of names -/

theorem Closure.find_set (closure : Closure) (name key : String) (value : ObjectHolder) :
    (closure.set name value).find key =
      if key = name then some value else closure.find key := by
  induction closure with
  | nil =>
    by_cases h : key = name
    · simp [Closure.set, Closure.find, List.lookup, h]
    · have : (key == name) = false := by simpa using h
      simp [Closure.set, Closure.find, List.lookup, h, this]
  | cons entry rest ih =>
    obtain ⟨k, v⟩ := entry
    simp only [Closure.find] at ih ⊢
    by_cases hk : k = name
    · subst hk
      by_cases h : key = k
      · simp [Closure.set, List.lookup, h]
      · have : (key == k) = false := by simpa using h
        simp [Closure.set, List.lookup, h, this]
    · by_cases h : key = name
      · subst h
        have : (key == k) = false := by simpa using fun e => hk e.symm
        simp [Closure.set, List.lookup, hk, this, ih]
      · by_cases h2 : key = k
        · simp [Closure.set, List.lookup, hk, h, h2]
        · have : (key == k) = false := by simpa using h2
          simp [Closure.set, List.lookup, hk, h, this, ih]

/-! ## Truth of a value -/

/-- Claim C13. `IsTrue(h)` is true exactly when `h` is not the empty holder and holds
a non-empty String, a non-zero Number or `Bool(true)`; it is false for the empty
holder, the empty String, the Number 0, `Bool(false)`, every Class and every class
instance.  It is a total function: it has no failure. -/
theorem C13_IsTrue_cases (h : ObjectHolder) :
    (IsTrue h = true ↔
      h ≠ .None ∧
        ((∃ s, h = .String s ∧ s ≠ "") ∨ (∃ n, h = .Number n ∧ n ≠ 0) ∨ h = .Bool true)) ∧
    IsTrue .None = false ∧
    IsTrue (.String "") = false ∧
    IsTrue (.Number 0) = false ∧
    IsTrue (.Bool false) = false ∧
    (∀ cls, IsTrue (.Class cls) = false) ∧
    (∀ address cls, IsTrue (.ClassInstance address cls) = false) := by
  refine ⟨?_, rfl, rfl, rfl, rfl, fun _ => rfl, fun _ _ => rfl⟩
  cases h with
  | None => simp [IsTrue]
  | Number value => simp [IsTrue]
  | String value =>
    have : value.length = 0 ↔ value = "" := by
      constructor
      · intro h0
        exact String.ext (List.length_eq_zero.mp h0)
      · rintro rfl; rfl
    simp [IsTrue, this]
  | Bool value => simp [IsTrue]
  | Class cls => simp [IsTrue]
  | ClassInstance address cls => simp [IsTrue]

/-! ## `Less` and the comparisons derived from it -/

theorem stringLess_iff (x y : List Char) :
    stringLess x y = true ↔ LexicographicallyLess x y := by
  induction x generalizing y with
  | nil =>
    cases y with
    | nil =>
      simp only [stringLess, LexicographicallyLess]
      constructor
      · intro h; cases h
      · rintro (⟨rest, hne, h⟩ | ⟨common, c, d, xs, ys, h, _, _⟩)
        · exact absurd (by simpa using h.symm) hne
        · cases common <;> cases h
    | cons b bs =>
      simp only [stringLess, LexicographicallyLess, true_iff]
      exact Or.inl ⟨b :: bs, by simp, rfl⟩
  | cons a as ih =>
    cases y with
    | nil =>
      simp only [stringLess, LexicographicallyLess]
      constructor
      · intro h; cases h
      · rintro (⟨rest, _, h⟩ | ⟨common, c, d, xs, ys, _, h, _⟩)
        · cases h
        · cases common <;> cases h
    | cons b bs =>
      simp only [stringLess]
      by_cases hab : a.toNat < b.toNat
      · simp only [hab, if_true, true_iff]
        exact Or.inr ⟨[], a, b, as, bs, rfl, rfl, hab⟩
      · by_cases hba : b.toNat < a.toNat
        · simp only [hab, hba, if_false, if_true]
          constructor
          · intro h; cases h
          · rintro (⟨rest, _, h⟩ | ⟨common, c, d, xs, ys, hx, hy, hcd⟩)
            · simp only [List.cons_append, List.cons.injEq] at h
              rw [h.1] at hba
              exact absurd hba (Nat.lt_irrefl _)
            · cases common with
              | nil =>
                simp only [List.nil_append, List.cons.injEq] at hx hy
                rw [hx.1, hy.1] at hab
                exact absurd hcd hab
              | cons e common1 =>
                simp only [List.cons_append, List.cons.injEq] at hx hy
                rw [hx.1, hy.1] at hba
                exact absurd hba (Nat.lt_irrefl _)
        · have heq : a = b := by
            apply Char.ext
            apply UInt32.ext
            have : a.toNat = b.toNat := by omega
            exact this
          subst heq
          simp only [hab, if_false]
          rw [ih bs]
          constructor
          · rintro (⟨rest, hne, h⟩ | ⟨common, c, d, xs, ys, hx, hy, hcd⟩)
            · exact Or.inl ⟨rest, hne, by rw [h]; rfl⟩
            · exact Or.inr ⟨a :: common, c, d, xs, ys, by rw [hx]; rfl, by rw [hy]; rfl, hcd⟩
          · rintro (⟨rest, hne, h⟩ | ⟨common, c, d, xs, ys, hx, hy, hcd⟩)
            · simp only [List.cons_append, List.cons.injEq, true_and] at h
              exact Or.inl ⟨rest, hne, h⟩
            · cases common with
              | nil =>
                simp only [List.nil_append, List.cons.injEq] at hx hy
                rw [← hx.1, ← hy.1] at hcd
                exact absurd hcd (Nat.lt_irrefl _)
              | cons e common1 =>
                simp only [List.cons_append, List.cons.injEq] at hx hy
                exact Or.inr ⟨common1, c, d, xs, ys, hx.2, hy.2, hcd⟩

/-- Claim C11. `Less(l, r)` is the lexicographic order of the characters for two
Strings, the order of the integers for two Numbers, `false < true` for two Bools,
the truth of what `__lt__(r)` returns when `l` is a class instance whose class
resolves `__lt__` with one parameter, and a `runtime_error` in every other case,
two empty holders included. -/
theorem C11_Less_cases
    (exec : Statement → Closure → Context → Outcome ObjectHolder)
    (closure : Closure) (context : Context) (l r : ObjectHolder) :
    (∀ x y, l = .String x → r = .String y →
        ∃ result, Less exec l r closure context = .ok result closure context ∧
          (result = true ↔ LexicographicallyLess x.data y.data)) ∧
    (∀ x y, l = .Number x → r = .Number y →
        Less exec l r closure context = .ok (decide (x < y)) closure context) ∧
    (∀ x y, l = .Bool x → r = .Bool y →
        Less exec l r closure context
          = .ok (decide (x = false ∧ y = true)) closure context) ∧
    (∀ address cls, l = .ClassInstance address cls → HasMethod cls "__lt__" 1 = true →
        Less exec l r closure context =
          (Call exec address cls "__lt__" [r] closure context).bind
            fun result closure1 context1 => .ok (IsTrue result) closure1 context1) ∧
    (¬ (∃ x y, l = .String x ∧ r = .String y) →
      ¬ (∃ x y, l = .Number x ∧ r = .Number y) →
      ¬ (∃ x y, l = .Bool x ∧ r = .Bool y) →
      ¬ (∃ address cls, l = .ClassInstance address cls ∧ HasMethod cls "__lt__" 1 = true) →
        Less exec l r closure context = .thrown .runtime_error closure context) ∧
    (l = .None → r = .None →
        Less exec l r closure context = .thrown .runtime_error closure context) := by
  refine ⟨?_, ?_, ?_, ?_, ?_, ?_⟩
  · rintro x y rfl rfl
    exact ⟨stringLess x.data y.data, rfl, stringLess_iff _ _⟩
  · rintro x y rfl rfl; rfl
  · rintro x y rfl rfl
    cases x <;> cases y <;> rfl
  · rintro address cls rfl h
    simp only [Less, h, if_true]
  · intro h1 h2 h3 h4
    cases l <;> cases r <;> simp_all [Less]
  · rintro rfl rfl; rfl

/-- An instance of C11: a Number is not comparable with `<` to the empty holder. -/
theorem C11_Less_cases_witness :
    Less (Execute 0) (.Number 1) .None [] emptyContext
      = .thrown .runtime_error [] emptyContext :=
  (C11_Less_cases (Execute 0) [] emptyContext (.Number 1) .None).2.2.2.2.1
    (by simp) (by simp) (by simp) (by simp)

/-- Claim C12. Where `Less(l, r)` and `Equal(l, r)` both give a result, `NotEqual` is
`!Equal`, `Greater` is `!Less && !Equal`, `LessOrEqual` is `Less || Equal` and
`GreaterOrEqual` is `!Less`; `NotEqual` gives a result exactly when `Equal` does, and
fails as `Equal` fails.  `Greater` and `LessOrEqual` call `Less` first and `Equal`
after it, in the state that `Less` left, and only when the value of `Less` does not
decide. -/
theorem C12_derived_comparisons
    (exec : Statement → Closure → Context → Outcome ObjectHolder)
    (closure : Closure) (context : Context) (l r : ObjectHolder) :
    (∀ less equal, Less exec l r closure context = .ok less closure context →
        Equal exec l r closure context = .ok equal closure context →
        NotEqual exec l r closure context = .ok (derivedNotEqual equal) closure context ∧
        Greater exec l r closure context
          = .ok (derivedGreater less equal) closure context ∧
        LessOrEqual exec l r closure context
          = .ok (derivedLessOrEqual less equal) closure context ∧
        GreaterOrEqual exec l r closure context
          = .ok (derivedGreaterOrEqual less) closure context) ∧
    (∀ equal closure1 context1, Equal exec l r closure context = .ok equal closure1 context1 →
        NotEqual exec l r closure context = .ok (derivedNotEqual equal) closure1 context1) ∧
    (∀ less closure1 context1, Less exec l r closure context = .ok less closure1 context1 →
        GreaterOrEqual exec l r closure context
          = .ok (derivedGreaterOrEqual less) closure1 context1) ∧
    (∀ less equal closure1 context1 closure2 context2,
        Less exec l r closure context = .ok less closure1 context1 →
        Equal exec l r closure1 context1 = .ok equal closure2 context2 →
        Greater exec l r closure context
          = .ok (derivedGreater less equal)
              (if less = true then closure1 else closure2)
              (if less = true then context1 else context2) ∧
        LessOrEqual exec l r closure context
          = .ok (derivedLessOrEqual less equal)
              (if less = true then closure1 else closure2)
              (if less = true then context1 else context2)) ∧
    ((∃ result closure1 context1,
        NotEqual exec l r closure context = .ok result closure1 context1) ↔
      (∃ equal closure1 context1,
        Equal exec l r closure context = .ok equal closure1 context1)) ∧
    (∀ what closure1 context1,
        NotEqual exec l r closure context = .thrown what closure1 context1 ↔
          Equal exec l r closure context = .thrown what closure1 context1) := by
  refine ⟨?_, ?_, ?_, ?_, ?_, ?_⟩
  · intro less equal hl he
    refine ⟨?_, ?_, ?_, ?_⟩
    · simp only [NotEqual, he, Outcome.bind, derivedNotEqual]
    · cases less <;> simp [Greater, hl, he, Outcome.bind, derivedGreater]
    · cases less <;> simp [LessOrEqual, hl, he, Outcome.bind, derivedLessOrEqual]
    · simp only [GreaterOrEqual, hl, Outcome.bind, derivedGreaterOrEqual]
  · intro equal closure1 context1 he
    simp only [NotEqual, he, Outcome.bind, derivedNotEqual]
  · intro less closure1 context1 hl
    simp only [GreaterOrEqual, hl, Outcome.bind, derivedGreaterOrEqual]
  · intro less equal closure1 context1 closure2 context2 hl he
    cases less <;>
      simp [Greater, LessOrEqual, hl, he, Outcome.bind, derivedGreater, derivedLessOrEqual]
  · simp only [NotEqual]
    cases Equal exec l r closure context <;> simp [Outcome.bind]
  · intro what closure1 context1
    simp only [NotEqual]
    cases Equal exec l r closure context <;> simp [Outcome.bind]

/-- An instance of C12: for the Numbers 2 and 1, `Greater` holds and `LessOrEqual`
does not. -/
theorem C12_derived_comparisons_witness :
    NotEqual (Execute 0) (.Number 2) (.Number 1) [] emptyContext
      = .ok (derivedNotEqual false) [] emptyContext ∧
    Greater (Execute 0) (.Number 2) (.Number 1) [] emptyContext
      = .ok (derivedGreater false false) [] emptyContext ∧
    LessOrEqual (Execute 0) (.Number 2) (.Number 1) [] emptyContext
      = .ok (derivedLessOrEqual false false) [] emptyContext ∧
    GreaterOrEqual (Execute 0) (.Number 2) (.Number 1) [] emptyContext
      = .ok (derivedGreaterOrEqual false) [] emptyContext :=
  (C12_derived_comparisons (Execute 0) [] emptyContext (.Number 2) (.Number 1)).1
    false false rfl rfl

/-! ## `Not` -/

theorem Execute_Not (fuel : Nat) (argument : Statement) (closure : Closure)
    (context : Context) :
    Execute (fuel + 1) (.Not argument) closure context =
      (Execute fuel argument closure context).bind fun obj closure1 context1 =>
        if isZeroNumber obj = true then .ok (.Bool true) closure1 context1
        else if isEmptyString obj = true then .ok (.Bool true) closure1 context1
        else if isFalseBool obj = true then .ok (.Bool true) closure1 context1
        else .ok (.Bool false) closure1 context1 := rfl

/-- What `Not` gives for a value: `Bool(true)` for the Number 0, the empty String and
`Bool(false)`, and `Bool(false)` for every other value. -/
theorem Execute_Not_value (fuel : Nat) (argument : Statement) (closure closure1 : Closure)
    (context context1 : Context) (obj : ObjectHolder)
    (h : Execute fuel argument closure context = .ok obj closure1 context1) :
    Execute (fuel + 1) (.Not argument) closure context =
      .ok (.Bool (isZeroNumber obj || isEmptyString obj || isFalseBool obj))
        closure1 context1 := by
  rw [Execute_Not, h]
  simp only [Outcome.bind]
  cases h1 : isZeroNumber obj <;> cases h2 : isEmptyString obj <;>
    cases h3 : isFalseBool obj <;> simp

/-- On a Number, a String or a Bool, `Not` gives the negation of `IsTrue`. -/
theorem Execute_Not_primitive (fuel : Nat) (argument : Statement) (closure closure1 : Closure)
    (context context1 : Context) (obj : ObjectHolder)
    (h : Execute fuel argument closure context = .ok obj closure1 context1)
    (hp : (∃ n, obj = .Number n) ∨ (∃ s, obj = .String s) ∨ (∃ b, obj = .Bool b)) :
    Execute (fuel + 1) (.Not argument) closure context =
      .ok (.Bool (!IsTrue obj)) closure1 context1 := by
  rw [Execute_Not_value fuel argument closure closure1 context context1 obj h]
  rcases hp with ⟨n, rfl⟩ | ⟨s, rfl⟩ | ⟨b, rfl⟩
  · simp [isZeroNumber, isEmptyString, isFalseBool, IsTrue, bne]
  · simp [isZeroNumber, isEmptyString, isFalseBool, IsTrue, bne]
  · cases b <;> simp [isZeroNumber, isEmptyString, isFalseBool, IsTrue]

/-- Claim C14, at `Not(None)` and at `Not` of a class instance: the argument is not
true (`IsTrue` is false, and `Or` of the empty holder with itself is `Bool(false)`),
yet `Not` returns `Bool(false)` and not `Bool(true)`.  For the Number 0, the empty
String and `Bool(false)` it returns `Bool(true)`. -/
theorem C14_Not_of_empty_holder_is_false :
    Execute 2 (.Not .None) [] emptyContext = .ok (.Bool false) [] emptyContext ∧
    IsTrue .None = false ∧
    Execute 3 (.Not (.NewInstance 1 exampleEmpty [])) [] emptyContext
      = .ok (.Bool false) [] emptyContext ∧
    IsTrue (.ClassInstance 1 exampleEmpty) = false ∧
    Execute 2 (.Or .None .None) [] emptyContext = .ok (.Bool false) [] emptyContext ∧
    Execute 2 (.Not (.NumericConst 0)) [] emptyContext = .ok (.Bool true) [] emptyContext ∧
    Execute 2 (.Not (.StringConst "")) [] emptyContext = .ok (.Bool true) [] emptyContext ∧
    Execute 2 (.Not (.BoolConst false)) [] emptyContext = .ok (.Bool true) [] emptyContext :=
  ⟨rfl, rfl, rfl, rfl, rfl, rfl, rfl, rfl⟩

/-! ## Arithmetic -/

theorem wrapInt_of_fitsInt (v : Int) (h : fitsInt v) : wrapInt v = v := by
  unfold fitsInt at h
  unfold wrapInt
  rw [Int.bmod_def]
  have h1 : ((4294967296 : Nat) : Int) = 4294967296 := rfl
  rw [h1]
  split <;> omega

theorem Execute_Add (fuel : Nat) (lhs rhs : Statement) (closure : Closure) (context : Context) :
    Execute (fuel + 1) (.Add lhs rhs) closure context =
      (Execute fuel lhs closure context).bind fun l closure1 context1 =>
        (Execute fuel rhs closure1 context1).bind fun r closure2 context2 =>
          match l, r with
          | .Number a, .Number b => .ok (.Number (wrapInt (a + b))) closure2 context2
          | .String a, .String b => .ok (.String (a ++ b)) closure2 context2
          | .ClassInstance address cls, _ =>
            if HasMethod cls "__add__" 1 = true then
              Call (Execute fuel) address cls "__add__" [r] closure2 context2
            else .thrown .runtime_error closure2 context2
          | _, _ => .thrown .runtime_error closure2 context2 := rfl

theorem Execute_Sub (fuel : Nat) (lhs rhs : Statement) (closure : Closure) (context : Context) :
    Execute (fuel + 1) (.Sub lhs rhs) closure context =
      (Execute fuel lhs closure context).bind fun l closure1 context1 =>
        (Execute fuel rhs closure1 context1).bind fun r closure2 context2 =>
          match l, r with
          | .Number a, .Number b => .ok (.Number (wrapInt (a - b))) closure2 context2
          | _, _ => .thrown .runtime_error closure2 context2 := rfl

theorem Execute_Mult (fuel : Nat) (lhs rhs : Statement) (closure : Closure) (context : Context) :
    Execute (fuel + 1) (.Mult lhs rhs) closure context =
      (Execute fuel lhs closure context).bind fun l closure1 context1 =>
        (Execute fuel rhs closure1 context1).bind fun r closure2 context2 =>
          match l, r with
          | .Number a, .Number b => .ok (.Number (wrapInt (a * b))) closure2 context2
          | _, _ => .thrown .runtime_error closure2 context2 := rfl

theorem Execute_Div (fuel : Nat) (lhs rhs : Statement) (closure : Closure) (context : Context) :
    Execute (fuel + 1) (.Div lhs rhs) closure context =
      (Execute fuel lhs closure context).bind fun l closure1 context1 =>
        (Execute fuel rhs closure1 context1).bind fun r closure2 context2 =>
          match l, r with
          | .Number a, .Number b =>
            if b ≠ 0 then
              if a = -2147483648 ∧ b = -1 then .undefined
              else .ok (.Number (wrapInt (Int.tdiv a b))) closure2 context2
            else .thrown .runtime_error closure2 context2
          | _, _ => .thrown .runtime_error closure2 context2 := rfl

/-- Claim C15 at `2147483647 + 1`: the sum of the two Numbers does not fit in an `int`,
and `Add` does not give `Number(2147483648)`. -/
theorem C15_Add_overflow :
    Execute 2 (.Add (.NumericConst 2147483647) (.NumericConst 1)) [] emptyContext
      = .ok (.Number (-2147483648)) [] emptyContext ∧
    ObjectHolder.Number (-2147483648) ≠ ObjectHolder.Number (2147483647 + 1) ∧
    ¬ fitsInt (2147483647 + 1) :=
  ⟨rfl, by simp, by decide⟩

/-- Claim C15, with the sum in the range of `int`. `Add(l, r)` evaluates `l`, then `r` in
the state that `l` left, and returns `Number(a + b)` for two Numbers whose sum fits
in an `int`, the concatenation for two Strings, what `l.__add__(r)` returns when `l`
is a class instance whose class resolves `__add__` with one parameter, and fails
with a `runtime_error` in every other case. -/
theorem C15_Add_cases (fuel : Nat) (lhs rhs : Statement)
    (closure closure1 closure2 : Closure) (context context1 context2 : Context)
    (l r : ObjectHolder)
    (hl : Execute fuel lhs closure context = .ok l closure1 context1)
    (hr : Execute fuel rhs closure1 context1 = .ok r closure2 context2) :
    (∀ a b, l = .Number a → r = .Number b → fitsInt (a + b) →
        Execute (fuel + 1) (.Add lhs rhs) closure context
          = .ok (.Number (a + b)) closure2 context2) ∧
    (∀ a b, l = .String a → r = .String b →
        Execute (fuel + 1) (.Add lhs rhs) closure context
          = .ok (.String (a ++ b)) closure2 context2) ∧
    (∀ address cls, l = .ClassInstance address cls → HasMethod cls "__add__" 1 = true →
        Execute (fuel + 1) (.Add lhs rhs) closure context
          = Call (Execute fuel) address cls "__add__" [r] closure2 context2) ∧
    (¬ (∃ a b, l = .Number a ∧ r = .Number b) →
      ¬ (∃ a b, l = .String a ∧ r = .String b) →
      ¬ (∃ address cls, l = .ClassInstance address cls ∧ HasMethod cls "__add__" 1 = true) →
        Execute (fuel + 1) (.Add lhs rhs) closure context
          = .thrown .runtime_error closure2 context2) := by
  refine ⟨?_, ?_, ?_, ?_⟩
  · rintro a b rfl rfl hfit
    rw [Execute_Add, hl]
    simp only [Outcome.bind, hr, wrapInt_of_fitsInt _ hfit]
  · rintro a b rfl rfl
    rw [Execute_Add, hl]
    simp only [Outcome.bind, hr]
  · rintro address cls rfl h
    rw [Execute_Add, hl]
    simp only [Outcome.bind, hr, h, if_true]
  · intro h1 h2 h3
    rw [Execute_Add, hl]
    simp only [Outcome.bind, hr]
    cases l <;> cases r <;> simp_all

/-- An instance of C15: `2 + 3` is `Number(5)`. -/
theorem C15_Add_cases_witness :
    Execute 2 (.Add (.NumericConst 2) (.NumericConst 3)) [] emptyContext
      = .ok (.Number (2 + 3)) [] emptyContext :=
  (C15_Add_cases 1 (.NumericConst 2) (.NumericConst 3) [] [] [] emptyContext emptyContext
    emptyContext (.Number 2) (.Number 3) rfl rfl).1 2 3 rfl rfl (by decide)

/-- The quotient of `Int.tdiv` is truncated toward zero: its magnitude is the whole part
of the quotient of the magnitudes, its sign the product of the signs. -/
theorem tdiv_truncates (a b : Int) :
    Int.tdiv a b = Int.sign a * Int.sign b * ((a.natAbs / b.natAbs : Nat) : Int) := by
  obtain ⟨m, rfl | rfl⟩ := Int.eq_nat_or_neg a <;> obtain ⟨n, rfl | rfl⟩ := Int.eq_nat_or_neg b
  all_goals
    rcases Nat.eq_zero_or_pos m with rfl | pm <;> rcases Nat.eq_zero_or_pos n with rfl | pn
  all_goals simp [Int.neg_tdiv, Int.tdiv_neg, Int.sign_eq_one_of_pos, Int.sign_neg, *]
  all_goals rfl

/-- Claim C16 at `65536 * 65536`: the product of the two Numbers does not fit in an
`int`, and `Mult` does not give `Number(4294967296)`. -/
theorem C16_Mult_overflow :
    Execute 2 (.Mult (.NumericConst 65536) (.NumericConst 65536)) [] emptyContext
      = .ok (.Number 0) [] emptyContext ∧
    ObjectHolder.Number 0 ≠ ObjectHolder.Number (65536 * 65536) ∧
    ¬ fitsInt (65536 * 65536) :=
  ⟨rfl, by simp, by decide⟩

/-- Claim C16, with the results in the range of `int`. For Numbers `a` and `b`, `Sub`,
`Mult` and `Div` return `Number(a - b)`, `Number(a * b)` and, when `b` is not 0, the
Number of the quotient truncated toward zero, each when the result fits in an `int`;
`Div` fails with a `runtime_error` when `b` is 0; each of the three fails with a
`runtime_error` when an operand is not a Number. -/
theorem C16_Sub_Mult_Div_cases (fuel : Nat) (lhs rhs : Statement)
    (closure closure1 closure2 : Closure) (context context1 context2 : Context)
    (l r : ObjectHolder)
    (hl : Execute fuel lhs closure context = .ok l closure1 context1)
    (hr : Execute fuel rhs closure1 context1 = .ok r closure2 context2) :
    (∀ a b, l = .Number a → r = .Number b →
        (fitsInt (a - b) →
          Execute (fuel + 1) (.Sub lhs rhs) closure context
            = .ok (.Number (a - b)) closure2 context2) ∧
        (fitsInt (a * b) →
          Execute (fuel + 1) (.Mult lhs rhs) closure context
            = .ok (.Number (a * b)) closure2 context2) ∧
        (b ≠ 0 → fitsInt (Int.tdiv a b) →
          Execute (fuel + 1) (.Div lhs rhs) closure context
            = .ok (.Number (Int.tdiv a b)) closure2 context2 ∧
          Int.tdiv a b = Int.sign a * Int.sign b * ((a.natAbs / b.natAbs : Nat) : Int)) ∧
        (b = 0 →
          Execute (fuel + 1) (.Div lhs rhs) closure context
            = .thrown .runtime_error closure2 context2)) ∧
    (¬ (∃ a b, l = .Number a ∧ r = .Number b) →
        Execute (fuel + 1) (.Sub lhs rhs) closure context
          = .thrown .runtime_error closure2 context2 ∧
        Execute (fuel + 1) (.Mult lhs rhs) closure context
          = .thrown .runtime_error closure2 context2 ∧
        Execute (fuel + 1) (.Div lhs rhs) closure context
          = .thrown .runtime_error closure2 context2) := by
  refine ⟨?_, ?_⟩
  · rintro a b rfl rfl
    refine ⟨?_, ?_, ?_, ?_⟩
    · intro hfit
      rw [Execute_Sub, hl]
      simp only [Outcome.bind, hr, wrapInt_of_fitsInt _ hfit]
    · intro hfit
      rw [Execute_Mult, hl]
      simp only [Outcome.bind, hr, wrapInt_of_fitsInt _ hfit]
    · intro hb hfit
      refine ⟨?_, tdiv_truncates a b⟩
      have hmin : ¬ (a = -2147483648 ∧ b = -1) := by
        rintro ⟨rfl, rfl⟩
        exact absurd hfit (by decide)
      rw [Execute_Div, hl]
      simp only [Outcome.bind, hr, wrapInt_of_fitsInt _ hfit, hb, ne_eq, not_false_eq_true,
        if_true, hmin, if_false]
    · rintro rfl
      rw [Execute_Div, hl]
      simp only [Outcome.bind, hr, ne_eq, not_true_eq_false, if_false]
  · intro h
    refine ⟨?_, ?_, ?_⟩
    · rw [Execute_Sub, hl]
      simp only [Outcome.bind, hr]
      cases l <;> cases r <;> simp_all
    · rw [Execute_Mult, hl]
      simp only [Outcome.bind, hr]
      cases l <;> cases r <;> simp_all
    · rw [Execute_Div, hl]
      simp only [Outcome.bind, hr]
      cases l <;> cases r <;> simp_all

/-- An instance of C16: `-7 / 2` is `Number(-3)`. -/
theorem C16_Sub_Mult_Div_cases_witness :
    Execute 2 (.Div (.NumericConst (-7)) (.NumericConst 2)) [] emptyContext
      = .ok (.Number (Int.tdiv (-7) 2)) [] emptyContext ∧
    Int.tdiv (-7) 2 = Int.sign (-7) * Int.sign 2 * (((-7 : Int).natAbs / (2 : Int).natAbs : Nat) : Int) :=
  ((C16_Sub_Mult_Div_cases 1 (.NumericConst (-7)) (.NumericConst 2) [] [] [] emptyContext
    emptyContext emptyContext (.Number (-7)) (.Number 2) rfl rfl).1 (-7) 2 rfl rfl).2.2.1
      (by decide) (by decide)

/-! ## Calling a method -/

theorem HasMethod_eq_true_iff (cls : Class) (method : String) (argument_count : Nat) :
    HasMethod cls method argument_count = true ↔
      ∃ m, cls.GetMethod method = some m ∧ m.formal_params.length = argument_count := by
  unfold HasMethod
  cases cls.GetMethod method with
  | none => simp
  | some m => simp

theorem HasMethod_eq_false_iff (cls : Class) (method : String) (argument_count : Nat) :
    HasMethod cls method argument_count = false ↔
      (cls.GetMethod method = none ∨
        ∃ m, cls.GetMethod method = some m ∧ m.formal_params.length ≠ argument_count) := by
  unfold HasMethod
  cases cls.GetMethod method with
  | none => simp
  | some m => simp

theorem bindParams_find_other (names : List String) (args : List ObjectHolder)
    (closure : Closure) (key : String) (h : key ∉ names) :
    (bindParams names args closure).find key = closure.find key := by
  induction names generalizing args closure with
  | nil => simp [bindParams]
  | cons name rest ih =>
    cases args with
    | nil => simp [bindParams]
    | cons arg others =>
      simp only [List.mem_cons, not_or] at h
      simp only [bindParams]
      rw [ih others (closure.set name arg) h.2, Closure.find_set, if_neg h.1]

theorem bindParams_find_param (names : List String) (args : List ObjectHolder)
    (closure : Closure) (hnodup : names.Nodup) (i : Nat) (p : String) (a : ObjectHolder)
    (hp : names[i]? = some p) (ha : args[i]? = some a) :
    (bindParams names args closure).find p = some a := by
  induction names generalizing args closure i with
  | nil => simp at hp
  | cons name rest ih =>
    cases args with
    | nil => simp at ha
    | cons arg others =>
      rw [List.nodup_cons] at hnodup
      simp only [bindParams]
      cases i with
      | zero =>
        simp only [List.getElem?_cons_zero, Option.some.injEq] at hp ha
        subst hp ha
        rw [bindParams_find_other rest others _ _ hnodup.1, Closure.find_set, if_pos rfl]
      | succ j =>
        simp only [List.getElem?_cons_succ] at hp ha
        exact ih others _ hnodup.2 j hp ha

/-- Claim C17 at three calls on an instance of `Faulty`.  The method `f()` resolves with
the right number of parameters and `Call` still fails with a `runtime_error`, the one
its body throws when it divides by 0.  The method `g(self)`, called with the Number
7, runs with `self` bound to 7, not to the instance.  The method `h(x, x)`, called
with the Numbers 1 and 2, runs with `x` bound to 2: the first parameter is not bound
to the argument at its position. -/
theorem C17_Call_fails_inside_a_resolved_method :
    HasMethod exampleFaulty "f" 0 = true ∧
    Call (Execute 2) 1 exampleFaulty "f" [] [] emptyContext
      = .thrown .runtime_error [] emptyContext ∧
    Call (Execute 1) 1 exampleFaulty "g" [.Number 7] [] emptyContext
      = .ok (.Number 7) [] emptyContext ∧
    Call (Execute 1) 1 exampleFaulty "h" [.Number 1, .Number 2] [] emptyContext
      = .ok (.Number 2) [] emptyContext :=
  ⟨rfl, rfl, rfl, rfl⟩

/-- Claim C17, with the failures of the body. `ClassInstance::Call(name, args)`, run by
the evaluator, fails with a `runtime_error` exactly when the class and its ancestors
resolve no method `name`, or resolve one whose number of formal parameters differs
from the number of arguments, or resolve one with that number of parameters whose
body fails with a `runtime_error`.  In the first two cases it fails before any body
runs: the context is the caller's.  Otherwise it runs the body of the resolved
method in a new scope and ends as the body ends, with the value of the body or with
what the body throws; the new scope, for formal parameters that are distinct names
other than `self`, holds `self` bound to the instance, every formal parameter bound
to the argument at the same position, and no other name. -/
theorem C17_Call_cases (fuel : Nat) (address : Nat) (cls : Class) (name : String)
    (args : List ObjectHolder) (closure : Closure) (context : Context) :
    ((∃ closure1 context1, Call (Execute fuel) address cls name args closure context
        = .thrown .runtime_error closure1 context1) ↔
      (cls.GetMethod name = none ∨
        (∃ m, cls.GetMethod name = some m ∧ m.formal_params.length ≠ args.length) ∨
        (∃ m scope1 context1, cls.GetMethod name = some m ∧
          m.formal_params.length = args.length ∧
          Execute fuel m.body
              (bindParams m.formal_params args [("self", .ClassInstance address cls)]) context
            = .thrown .runtime_error scope1 context1))) ∧
    ((cls.GetMethod name = none ∨
        ∃ m, cls.GetMethod name = some m ∧ m.formal_params.length ≠ args.length) →
      Call (Execute fuel) address cls name args closure context
        = .thrown .runtime_error closure context) ∧
    (∀ m, cls.GetMethod name = some m → m.formal_params.length = args.length →
      (∀ value scope1 context1,
        Execute fuel m.body
            (bindParams m.formal_params args [("self", .ClassInstance address cls)]) context
          = .ok value scope1 context1 →
        Call (Execute fuel) address cls name args closure context
          = .ok value closure context1) ∧
      (∀ what scope1 context1,
        Execute fuel m.body
            (bindParams m.formal_params args [("self", .ClassInstance address cls)]) context
          = .thrown what scope1 context1 →
        Call (Execute fuel) address cls name args closure context
          = .thrown what closure context1) ∧
      ("self" ∉ m.formal_params → m.formal_params.Nodup →
        (bindParams m.formal_params args [("self", .ClassInstance address cls)]).find "self"
          = some (.ClassInstance address cls) ∧
        (∀ (i : Nat) (p : String) (a : ObjectHolder),
            m.formal_params[i]? = some p → args[i]? = some a →
          (bindParams m.formal_params args [("self", .ClassInstance address cls)]).find p
            = some a) ∧
        (∀ key, key ≠ "self" → key ∉ m.formal_params →
          (bindParams m.formal_params args [("self", .ClassInstance address cls)]).find key
            = none))) := by
  have habsent : (cls.GetMethod name = none ∨
        ∃ m, cls.GetMethod name = some m ∧ m.formal_params.length ≠ args.length) →
      Call (Execute fuel) address cls name args closure context
        = .thrown .runtime_error closure context := by
    intro h
    have hm := (HasMethod_eq_false_iff cls name args.length).mpr h
    simp [Call, hm]
  refine ⟨⟨?_, ?_⟩, habsent, ?_⟩
  · rintro ⟨closure1, context1, h⟩
    cases hm : HasMethod cls name args.length with
    | false =>
      rcases (HasMethod_eq_false_iff cls name args.length).mp hm with h1 | h1
      · exact Or.inl h1
      · exact Or.inr (Or.inl h1)
    | true =>
      obtain ⟨m, hget, hlen⟩ := (HasMethod_eq_true_iff cls name args.length).mp hm
      refine Or.inr (Or.inr ?_)
      simp only [Call, hm, Bool.true_eq_false, if_false, hget] at h
      cases hbody : Execute fuel m.body
          (bindParams m.formal_params args [("self", .ClassInstance address cls)]) context with
      | ok value scope1 context2 => rw [hbody] at h; cases h
      | thrown what scope1 context2 =>
        rw [hbody] at h
        simp only [Outcome.thrown.injEq] at h
        exact ⟨m, scope1, context2, hget, hlen, by rw [hbody, h.1]⟩
      | undefined => rw [hbody] at h; cases h
      | out_of_fuel => rw [hbody] at h; cases h
  · rintro (h | h | ⟨m, scope1, context1, hget, hlen, hbody⟩)
    · exact ⟨closure, context, habsent (Or.inl h)⟩
    · exact ⟨closure, context, habsent (Or.inr h)⟩
    · have hm : HasMethod cls name args.length = true :=
        (HasMethod_eq_true_iff cls name args.length).mpr ⟨m, hget, hlen⟩
      exact ⟨closure, context1, by simp [Call, hm, hget, hbody]⟩
  · intro m hget hlen
    have hm : HasMethod cls name args.length = true :=
      (HasMethod_eq_true_iff cls name args.length).mpr ⟨m, hget, hlen⟩
    refine ⟨?_, ?_, ?_⟩
    · intro value scope1 context1 h
      simp [Call, hm, hget, h]
    · intro what scope1 context1 h
      simp [Call, hm, hget, h]
    · intro hself hnodup
      refine ⟨?_, ?_, ?_⟩
      · rw [bindParams_find_other _ _ _ _ hself]
        rfl
      · intro i p a hp ha
        exact bindParams_find_param _ _ _ hnodup i p a hp ha
      · intro key hkey hnot
        rw [bindParams_find_other _ _ _ _ hnot]
        have : (key == "self") = false := by simpa using hkey
        simp [Closure.find, List.lookup, this]

/-- An instance of C17: `__add__(x)` of the class `Cell`, called with the Number 7, runs
its body `x` with `x` bound to 7 and returns 7; the caller's closure is untouched. -/
theorem C17_Call_cases_witness :
    Call (Execute 1) 1 exampleCell "__add__" [.Number 7] [("a", .Number 1)] emptyContext
      = .ok (.Number 7) [("a", .Number 1)] emptyContext :=
  ((C17_Call_cases 1 1 exampleCell "__add__" [.Number 7] [("a", .Number 1)]
    emptyContext).2.2 (.mk "__add__" ["x"] (.VariableValue "x" [])) rfl rfl).1
      (.Number 7)
      [("self", .ClassInstance 1 exampleCell), ("x", .Number 7)] emptyContext rfl

/-! ## `MethodCall` and `NewInstance` -/

theorem executeArgs_of_EvaluatedInOrder
    (exec : Statement → Closure → Context → Outcome ObjectHolder)
    (args : List Statement) (values : List ObjectHolder)
    (closure closure1 : Closure) (context context1 : Context)
    (h : EvaluatedInOrder exec args values closure context closure1 context1) :
    executeArgs exec args closure context = .ok values closure1 context1 := by
  induction h with
  | nil closure context => rfl
  | cons st rest value values closure closure1 closure2 context context1 context2 first _ ih =>
    simp only [executeArgs, first, Outcome.bind, ih]

theorem Execute_MethodCall (fuel : Nat) (object : Statement) (method : String)
    (args : List Statement) (closure : Closure) (context : Context) :
    Execute (fuel + 1) (.MethodCall object method args) closure context =
      (executeArgs (Execute fuel) args closure context).bind fun actual_args closure1 context1 =>
        (Execute fuel object closure1 context1).bind fun obj closure2 context2 =>
          match obj with
          | .ClassInstance address cls =>
            if HasMethod cls method args.length = true then
              Call (Execute fuel) address cls method actual_args closure2 context2
            else .ok .None closure2 context2
          | _ => .ok .None closure2 context2 := rfl

theorem Execute_NewInstance (fuel : Nat) (address : Nat) (cls : Class)
    (args : List Statement) (closure : Closure) (context : Context) :
    Execute (fuel + 1) (.NewInstance address cls args) closure context =
      if HasMethod cls "__init__" args.length = true then
        (executeArgs (Execute fuel) args closure context).bind
          fun actual_args closure1 context1 =>
            (Call (Execute fuel) address cls "__init__" actual_args closure1 context1).bind
              fun _ closure2 context2 => .ok (.ClassInstance address cls) closure2 context2
      else .ok (.ClassInstance address cls) closure context := rfl

theorem executeArgs_first_failure
    (exec : Statement → Closure → Context → Outcome ObjectHolder)
    (before : List Statement) (values : List ObjectHolder)
    (closure closure1 closure2 : Closure) (context context1 context2 : Context)
    (st : Statement) (after : List Statement) (what : Thrown)
    (h : EvaluatedInOrder exec before values closure context closure1 context1)
    (hst : exec st closure1 context1 = .thrown what closure2 context2) :
    executeArgs exec (before ++ st :: after) closure context
      = .thrown what closure2 context2 := by
  induction h with
  | nil closure context =>
    simp only [List.nil_append, executeArgs, hst, Outcome.bind]
  | cons st0 rest value values closure closure1 closure3 context context1 context3 first _ ih =>
    have h2 := ih hst
    show executeArgs exec (st0 :: (rest ++ st :: after)) closure context = _
    simp only [executeArgs, first, Outcome.bind, h2]

/-- The order of `MethodCall::Execute`. `MethodCall(obj, name, args)` evaluates the
arguments from left to right first and `obj` after them, in the state that the last
argument left: a failure of `obj`, the empty holder returned for an `obj` that is no
class instance, and the dispatch on an `obj` that is one, all come with the effects
of all the arguments and then of `obj`; and when an argument fails, the arguments
after it and `obj` are not evaluated. -/
theorem MethodCall_evaluates_arguments_first (fuel : Nat) (object : Statement)
    (method : String) (args : List Statement) (closure : Closure) (context : Context) :
    (∀ actual closure1 context1,
      EvaluatedInOrder (Execute fuel) args actual closure context closure1 context1 →
        (∀ what closure2 context2,
          Execute fuel object closure1 context1 = .thrown what closure2 context2 →
            Execute (fuel + 1) (.MethodCall object method args) closure context
              = .thrown what closure2 context2) ∧
        (∀ obj closure2 context2,
          Execute fuel object closure1 context1 = .ok obj closure2 context2 →
          (∀ address cls, obj ≠ .ClassInstance address cls) →
            Execute (fuel + 1) (.MethodCall object method args) closure context
              = .ok .None closure2 context2) ∧
        (∀ address cls closure2 context2,
          Execute fuel object closure1 context1
              = .ok (.ClassInstance address cls) closure2 context2 →
            Execute (fuel + 1) (.MethodCall object method args) closure context
              = if HasMethod cls method args.length = true then
                  Call (Execute fuel) address cls method actual closure2 context2
                else .ok .None closure2 context2)) ∧
    (∀ before st after values closure1 context1 what closure2 context2,
      args = before ++ st :: after →
      EvaluatedInOrder (Execute fuel) before values closure context closure1 context1 →
      Execute fuel st closure1 context1 = .thrown what closure2 context2 →
        Execute (fuel + 1) (.MethodCall object method args) closure context
          = .thrown what closure2 context2) := by
  refine ⟨?_, ?_⟩
  · intro actual closure1 context1 hargs
    have h := executeArgs_of_EvaluatedInOrder _ _ _ _ _ _ _ hargs
    refine ⟨?_, ?_, ?_⟩
    · intro what closure2 context2 hobj
      rw [Execute_MethodCall, h]
      simp only [Outcome.bind, hobj]
    · intro obj closure2 context2 hobj hno
      rw [Execute_MethodCall, h]
      cases obj with
      | ClassInstance address cls => exact absurd rfl (hno address cls)
      | _ => simp only [Outcome.bind, hobj]
    · intro address cls closure2 context2 hobj
      rw [Execute_MethodCall, h]
      simp only [Outcome.bind, hobj]
  · intro before st after values closure1 context1 what closure2 context2 hsplit hbefore hst
    rw [Execute_MethodCall, hsplit,
      executeArgs_first_failure _ _ _ _ _ _ _ _ _ _ after _ hbefore hst]
    rfl

/-- Claim C18 at the call `obj.m(arg)` in which `obj` writes the line `obj` and `arg`
writes the line `arg`: the line of the argument is written first.  And in
`x.m(x = 1)`, run in an empty closure, the object `x` is read after the argument has
assigned it, where reading `x` first fails.  The sibling node `Add` evaluates its
left operand, the receiver of `__add__`, before the right one, the argument: the
line `obj` comes first. -/
theorem C18_argument_runs_before_object :
    Execute 3 (.MethodCall (printsText "obj") "m" [printsText "arg"]) [] emptyContext
      = .ok .None [] { output := "arg\nobj\n", instances := [] } ∧
    "arg\nobj\n" ≠ "obj\narg\n" ∧
    Execute 3 (.MethodCall (.VariableValue "x" []) "m" [.Assignment "x" (.NumericConst 1)])
        [] emptyContext
      = .ok .None [("x", .Number 1)] emptyContext ∧
    Execute 2 (.VariableValue "x" []) [] emptyContext
      = .thrown .runtime_error [] emptyContext ∧
    Execute 3 (.Add (printsText "obj") (printsText "arg")) [] emptyContext
      = .thrown .runtime_error [] { output := "obj\narg\n", instances := [] } :=
  ⟨rfl, by decide, rfl, rfl, rfl⟩

/-- Claim C19. Once the arguments and `obj` of a `MethodCall` are evaluated: when the
value of `obj` is not a class instance, or its class resolves no method `name` with
as many formal parameters as there are arguments, the call returns the empty holder
in the state that these evaluations left (no method runs, nothing fails); otherwise
it is `obj.Call(name, evaluated arguments)`. -/
theorem C19_MethodCall_dispatch (fuel : Nat) (object : Statement) (method : String)
    (args : List Statement) (actual : List ObjectHolder) (obj : ObjectHolder)
    (closure closure1 closure2 : Closure) (context context1 context2 : Context)
    (hargs : EvaluatedInOrder (Execute fuel) args actual closure context closure1 context1)
    (hobj : Execute fuel object closure1 context1 = .ok obj closure2 context2) :
    ((¬ ∃ address cls, obj = .ClassInstance address cls ∧
          ∃ m, cls.GetMethod method = some m ∧ m.formal_params.length = args.length) →
        Execute (fuel + 1) (.MethodCall object method args) closure context
          = .ok .None closure2 context2) ∧
    (∀ address cls m, obj = .ClassInstance address cls → cls.GetMethod method = some m →
        m.formal_params.length = args.length →
        Execute (fuel + 1) (.MethodCall object method args) closure context
          = Call (Execute fuel) address cls method actual closure2 context2) := by
  have h := executeArgs_of_EvaluatedInOrder _ _ _ _ _ _ _ hargs
  refine ⟨?_, ?_⟩
  · intro hno
    rw [Execute_MethodCall, h]
    simp only [Outcome.bind, hobj]
    cases obj with
    | ClassInstance address cls =>
      have hm : HasMethod cls method args.length = false := by
        cases hc : HasMethod cls method args.length with
        | false => rfl
        | true =>
          exact absurd ⟨address, cls, rfl, (HasMethod_eq_true_iff _ _ _).mp hc⟩ hno
      simp [hm]
    | _ => rfl
  · rintro address cls m rfl hget hlen
    have hm : HasMethod cls method args.length = true :=
      (HasMethod_eq_true_iff _ _ _).mpr ⟨m, hget, hlen⟩
    rw [Execute_MethodCall, h]
    simp only [Outcome.bind, hobj, hm, if_true]

/-- An instance of C19: a Number has no method, so `1.m(2)` is the empty holder. -/
theorem C19_MethodCall_dispatch_witness :
    Execute 2 (.MethodCall (.NumericConst 1) "m" [.NumericConst 2]) [] emptyContext
      = .ok .None [] emptyContext :=
  (C19_MethodCall_dispatch 1 (.NumericConst 1) "m" [.NumericConst 2] [.Number 2] (.Number 1)
    [] [] [] emptyContext emptyContext emptyContext
    (.cons _ _ _ _ _ _ _ _ _ _ rfl (.nil _ _)) rfl).1 (by simp)

/-- Claim C20. `NewInstance(class, args)` calls `__init__` exactly when the class
resolves, in itself or an ancestor, an `__init__` with as many formal parameters as
there are arguments, and passes it the arguments evaluated from left to right in the
caller's closure; without such an `__init__` no argument is evaluated and no method
runs.  In both cases the result is the class instance, not the empty holder, and
what `__init__` returned is dropped. -/
theorem C20_NewInstance_calls_init (fuel : Nat) (address : Nat) (cls : Class)
    (args : List Statement) (closure : Closure) (context : Context) :
    ((¬ ∃ m, cls.GetMethod "__init__" = some m ∧ m.formal_params.length = args.length) →
        Execute (fuel + 1) (.NewInstance address cls args) closure context
          = .ok (.ClassInstance address cls) closure context) ∧
    (∀ m actual closure1 context1, cls.GetMethod "__init__" = some m →
        m.formal_params.length = args.length →
        EvaluatedInOrder (Execute fuel) args actual closure context closure1 context1 →
        (∀ value closure2 context2,
          Call (Execute fuel) address cls "__init__" actual closure1 context1
              = .ok value closure2 context2 →
            Execute (fuel + 1) (.NewInstance address cls args) closure context
              = .ok (.ClassInstance address cls) closure2 context2) ∧
        (∀ what closure2 context2,
          Call (Execute fuel) address cls "__init__" actual closure1 context1
              = .thrown what closure2 context2 →
            Execute (fuel + 1) (.NewInstance address cls args) closure context
              = .thrown what closure2 context2)) ∧
    ObjectHolder.ClassInstance address cls ≠ .None := by
  refine ⟨?_, ?_, ?_⟩
  · intro hno
    have hm : HasMethod cls "__init__" args.length = false := by
      cases hc : HasMethod cls "__init__" args.length with
      | false => rfl
      | true => exact absurd ((HasMethod_eq_true_iff _ _ _).mp hc) hno
    rw [Execute_NewInstance]
    simp [hm]
  · intro m actual closure1 context1 hget hlen hargs
    have hm : HasMethod cls "__init__" args.length = true :=
      (HasMethod_eq_true_iff _ _ _).mpr ⟨m, hget, hlen⟩
    have h := executeArgs_of_EvaluatedInOrder _ _ _ _ _ _ _ hargs
    refine ⟨?_, ?_⟩
    · intro value closure2 context2 hcall
      rw [Execute_NewInstance]
      simp only [hm, if_true, h, Outcome.bind, hcall]
    · intro what closure2 context2 hcall
      rw [Execute_NewInstance]
      simp only [hm, if_true, h, Outcome.bind, hcall]
  · intro h
    cases h

/-- An instance of C20: `Cell(5)` runs `__init__(v)`, which stores 5 in the field
`value`, and gives the instance; the 5 that `__init__` returned is dropped. -/
theorem C20_NewInstance_calls_init_witness :
    Execute 3 (.NewInstance 1 exampleCell [.NumericConst 5]) [] emptyContext
      = .ok (.ClassInstance 1 exampleCell) []
          { output := "", instances := [(1, [("value", .Number 5)])] } :=
  ((C20_NewInstance_calls_init 2 1 exampleCell [.NumericConst 5] [] emptyContext).2.1
    (.mk "__init__" ["v"] (.FieldAssignment "self" [] "value" (.VariableValue "v" [])))
    [.Number 5] [] emptyContext rfl rfl
    (.cons _ _ _ _ _ _ _ _ _ _ rfl (.nil _ _))).1
      (.Number 5) [] { output := "", instances := [(1, [("value", .Number 5)])] } rfl

end runtime

namespace runtime

/-! ## `FieldAssignment` -/

theorem Execute_FieldAssignment (fuel : Nat) (object_var_name : String)
    (object_dotted_ids : List String) (field_name : String) (rv : Statement)
    (closure : Closure) (context : Context) :
    Execute (fuel + 1) (.FieldAssignment object_var_name object_dotted_ids field_name rv)
        closure context =
      (executeVariableValue object_var_name object_dotted_ids closure context).bind
        fun obj closure1 context1 =>
          (Execute fuel rv closure1 context1).bind fun value closure2 context2 =>
            match obj with
            | .ClassInstance address _ =>
              Execute fuel rv closure2 (context2.setField address field_name value)
            | _ => .undefined := rfl

/-- What `FieldAssignment` does when its object is an instance: the right-hand side is
evaluated, its value is stored, and the right-hand side is evaluated once more for
the value that is returned. -/
theorem Execute_FieldAssignment_evaluates_twice (fuel : Nat) (object_var_name : String)
    (object_dotted_ids : List String) (field_name : String) (rv : Statement)
    (closure closure1 closure2 : Closure) (context context1 context2 : Context)
    (address : Nat) (cls : Class) (value : ObjectHolder)
    (hobj : executeVariableValue object_var_name object_dotted_ids closure context
      = .ok (.ClassInstance address cls) closure1 context1)
    (hrv : Execute fuel rv closure1 context1 = .ok value closure2 context2) :
    Execute (fuel + 1) (.FieldAssignment object_var_name object_dotted_ids field_name rv)
        closure context
      = Execute fuel rv closure2 (context2.setField address field_name value) := by
  rw [Execute_FieldAssignment, hobj]
  simp only [Outcome.bind, hrv]

/-- Claim C21, at `p.f = (n = n + 1)` with `n` bound to 0 and at `p.f = print "x"`: the
right-hand side is evaluated twice.  In the first the field `f` holds 1 while the
value returned is 2 and `n` ends at 2; in the second the line `x` is written twice. -/
theorem C21_FieldAssignment_evaluates_rhs_twice :
    Execute 4 (.FieldAssignment "p" [] "f" incrementN) exampleClosure emptyContext
      = .ok (.Number 2) [("p", .ClassInstance 1 exampleEmpty), ("n", .Number 2)]
          { output := "", instances := [(1, [("f", .Number 1)])] } ∧
    ObjectHolder.Number 2 ≠ ObjectHolder.Number 1 ∧
    Execute 3 (.FieldAssignment "p" [] "f" (printsText "x")) exampleClosure emptyContext
      = .ok .None exampleClosure
          { output := "x\nx\n", instances := [(1, [("f", .None)])] } :=
  ⟨rfl, by simp, rfl⟩

/-! ## `Print` -/

theorem Execute_Print (fuel : Nat) (argument : Option Statement) (args : List Statement)
    (name : String) (closure : Closure) (context : Context) :
    Execute (fuel + 1) (.Print argument args name) closure context =
      if argument.isNone = true ∧ args.length = 0 then
        if name.length = 0 then
          .ok .None closure (context.write "\n")
        else
          match closure.find name with
          | none => .thrown .out_of_range closure context
          | some obj =>
            match obj with
            | .None => .ok obj closure ((context.write "None").write "\n")
            | _ =>
              (PrintObject fuel obj closure context).bind fun text closure1 context1 =>
                .ok obj closure1 ((context1.write text).write "\n")
      else if name.length = 0 ∧ argument.isNone = true ∧ args.length ≠ 0 then
        (printArgs (Execute fuel) (PrintObject fuel) args.length args 0 closure context).bind
          fun _ closure1 context1 => .ok .None closure1 (context1.write "\n")
      else .ok .None closure context := rfl

theorem Context.write_write (context : Context) (a b : String) :
    (context.write a).write b = context.write (a ++ b) := by
  simp [Context.write, String.append_assoc]

theorem Context.write_empty (context : Context) : context.write "" = context := by
  simp [Context.write]

/-- One pass of the loop of `Print::Execute`, up to the space: the item is executed and
its printed form written. -/
theorem written_of_ItemWritten
    (exec : Statement → Closure → Context → Outcome ObjectHolder)
    (print : ObjectHolder → Closure → Context → Outcome String)
    (st : Statement) (closure closure1 : Closure) (context context1 : Context)
    (h : ItemWritten exec print st closure context closure1 context1)
    (next : Closure → Context → Outcome Unit) :
    ((exec st closure context).bind fun obj closure2 context2 =>
      (match obj with
        | .None => Outcome.ok () closure2 (context2.write "None")
        | _ => (print obj closure2 context2).bind fun text closure3 context3 =>
            .ok () closure3 (context3.write text)).bind
        fun _ closure4 context4 => next closure4 context4)
      = next closure1 context1 :=
  match h with
  | .empty _ _ _ _ _ evaluated => by
    rw [evaluated]
    rfl
  | .value _ obj _ _ _ _ _ _ _ evaluated holds printed => by
    rw [evaluated]
    cases obj with
    | None => exact absurd rfl holds
    | Number value => simp only [Outcome.bind, printed]
    | String value => simp only [Outcome.bind, printed]
    | Bool value => simp only [Outcome.bind, printed]
    | Class cls => simp only [Outcome.bind, printed]
    | ClassInstance address cls => simp only [Outcome.bind, printed]

/-- The loop of `Print::Execute`, which writes a space after every item but the last,
writes what the rule "a space before every item but the first" writes. -/
theorem printArgs_of_written
    (exec : Statement → Closure → Context → Outcome ObjectHolder)
    (print : ObjectHolder → Closure → Context → Outcome String) (size : Nat) :
    ∀ (rest : List Statement) (first : Statement) (count : Nat)
      (closure closure1 closure2 : Closure) (context context1 context2 : Context),
      count + (rest.length + 1) = size →
      ItemWritten exec print first closure context closure1 context1 →
      ItemsWrittenAfterSpace exec print rest closure1 context1 closure2 context2 →
      printArgs exec print size (first :: rest) count closure context
        = .ok () closure2 context2
  | [], first, count, closure, closure1, closure2, context, context1, context2,
      hsize, hfirst, hrest => by
    have hlast : ¬ count < size - 1 := by simp at hsize; omega
    rw [printArgs]
    rw [written_of_ItemWritten exec print first closure closure1 context context1 hfirst
      (fun closure4 context4 => printArgs exec print size [] (count + 1) closure4
        (if count < size - 1 then context4.write " " else context4))]
    simp only [hlast, if_false, printArgs]
    match hrest with
    | .nil _ _ => rfl
  | second :: others, first, count, closure, closure1, closure2, context, context1, context2,
      hsize, hfirst, hrest => by
    have hmore : count < size - 1 := by simp at hsize; omega
    rw [printArgs]
    rw [written_of_ItemWritten exec print first closure closure1 context context1 hfirst
      (fun closure4 context4 => printArgs exec print size (second :: others) (count + 1)
        closure4 (if count < size - 1 then context4.write " " else context4))]
    simp only [hmore, if_true]
    match hrest with
    | .cons _ _ _ closure3 _ _ context3 _ hsecond hothers =>
      exact printArgs_of_written exec print size others second (count + 1) closure1 closure3
        closure2 (context1.write " ") context3 context2
        (by simp at hsize ⊢; omega) hsecond hothers

theorem joinWithSpaces_cons (text : String) (rest : List String) :
    joinWithSpaces (text :: rest) = text ++ spaced rest := by
  induction rest generalizing text with
  | nil => simp [joinWithSpaces, spaced]
  | cons second others ih =>
    rw [joinWithSpaces, ih second, spaced]
    simp only [String.append_assoc]
    intro h
    cases h

theorem ItemsWrittenAfterSpace_of_PrintsAs
    (exec : Statement → Closure → Context → Outcome ObjectHolder)
    (print : ObjectHolder → Closure → Context → Outcome String) (closure : Closure)
    (items : List Statement) (texts : List String)
    (h : List.Forall₂ (PrintsAs exec print closure) items texts) :
    ∀ context, ItemsWrittenAfterSpace exec print items closure context closure
      (context.write (spaced texts)) := by
  induction h with
  | nil =>
    intro context
    rw [spaced, Context.write_empty]
    exact .nil _ _
  | @cons st text items texts hfirst _ ih =>
    intro context
    have h1 := hfirst (context.write " ")
    have h2 := ih ((context.write " ").write text)
    have e : ((context.write " ").write text).write (spaced texts)
        = context.write (spaced (text :: texts)) := by
      simp only [Context.write_write, spaced, String.append_assoc]
    rw [e] at h2
    exact .cons _ _ _ _ _ _ _ _ h1 h2

/-- Claim C22. A `Print` of one or more items evaluates them from left to right and
writes the printed form of each (`None` for the empty holder) with one space before
every item but the first and one line feed at the end; for items that write
nothing themselves the text written is the printed forms joined by single spaces,
then the line feed.  A `Print` of no item writes a line feed.  `Print::Variable(name)`
writes the printed form of what `name` is bound to and a line feed.  In each case
the context after the call holds nothing else. -/
theorem C22_Print_writes_items (fuel : Nat) (closure : Closure) (context : Context) :
    (∀ first rest closure1 closure2 context1 context2,
      ItemWritten (Execute fuel) (PrintObject fuel) first closure context closure1 context1 →
      ItemsWrittenAfterSpace (Execute fuel) (PrintObject fuel) rest closure1 context1
        closure2 context2 →
      Execute (fuel + 1) (.Print none (first :: rest) "") closure context
        = .ok .None closure2 (context2.write "\n")) ∧
    (∀ items texts, items ≠ [] →
      List.Forall₂ (PrintsAs (Execute fuel) (PrintObject fuel) closure) items texts →
      Execute (fuel + 1) (.Print none items "") closure context
        = .ok .None closure (context.write (joinWithSpaces texts ++ "\n"))) ∧
    Execute (fuel + 1) (.Print none [] "") closure context
      = .ok .None closure (context.write "\n") ∧
    (∀ name, name ≠ "" → closure.find name = some .None →
      Execute (fuel + 1) (.Print none [] name) closure context
        = .ok .None closure (context.write ("None" ++ "\n"))) ∧
    (∀ name obj text closure1 context1, name ≠ "" → closure.find name = some obj →
      obj ≠ .None → PrintObject fuel obj closure context = .ok text closure1 context1 →
      Execute (fuel + 1) (.Print none [] name) closure context
        = .ok obj closure1 (context1.write (text ++ "\n"))) := by
  have hgeneral : ∀ first rest closure1 closure2 context1 context2,
      ItemWritten (Execute fuel) (PrintObject fuel) first closure context closure1 context1 →
      ItemsWrittenAfterSpace (Execute fuel) (PrintObject fuel) rest closure1 context1
        closure2 context2 →
      Execute (fuel + 1) (.Print none (first :: rest) "") closure context
        = .ok .None closure2 (context2.write "\n") := by
    intro first rest closure1 closure2 context1 context2 hfirst hrest
    rw [Execute_Print]
    have hloop := printArgs_of_written (Execute fuel) (PrintObject fuel) (rest.length + 1)
      rest first 0 closure closure1 closure2 context context1 context2 (by simp) hfirst hrest
    simp [hloop, Outcome.bind]
  have hlen : ∀ name : String, name ≠ "" → name.length ≠ 0 := by
    intro name hname h0
    exact hname (String.ext (List.length_eq_zero.mp h0))
  refine ⟨hgeneral, ?_, ?_, ?_, ?_⟩
  · intro items texts hne hall
    cases hall with
    | nil => exact absurd rfl hne
    | @cons st text items texts hfirst hrest =>
      have h1 := hfirst context
      have h2 := ItemsWrittenAfterSpace_of_PrintsAs _ _ _ _ _ hrest (context.write text)
      rw [hgeneral _ _ _ _ _ _ h1 h2, joinWithSpaces_cons]
      simp only [Context.write_write, String.append_assoc]
  · rw [Execute_Print]
    simp
  · intro name hname hfind
    rw [Execute_Print]
    simp [hlen name hname, hfind, Context.write_write]
  · intro name obj text closure1 context1 hname hfind hobj hprint
    rw [Execute_Print]
    cases obj with
    | None => exact absurd rfl hobj
    | _ => simp [hlen name hname, hfind, hprint, Outcome.bind, Context.write_write]

/-- An instance of C22: `print "hello", None, 3` writes `hello None 3` and a line feed. -/
theorem C22_Print_writes_items_witness :
    Execute 2 (.Print none [.StringConst "hello", .None, .NumericConst 3] "") [] emptyContext
      = .ok .None [] (emptyContext.write (joinWithSpaces ["hello", "None", "3"] ++ "\n")) :=
  (C22_Print_writes_items 1 [] emptyContext).2.1
    [.StringConst "hello", .None, .NumericConst 3] ["hello", "None", "3"] (by simp)
    (.cons (fun _ => .value _ (.String "hello") "hello" _ _ _ _ _ _ rfl (by simp) rfl)
      (.cons (fun _ => .empty _ _ _ _ _ rfl)
        (.cons (fun _ => .value _ (.Number 3) "3" _ _ _ _ _ _ rfl (by simp) rfl) .nil)))

/-- Claim C23, for every argument: the node built by `Print(argument)` with a non-null
argument writes nothing, does not evaluate the argument and returns the empty
holder, while the same expression given as a list of one item is written with its
line feed. -/
theorem C23_Print_of_one_argument_writes_nothing :
    (∀ fuel argument closure context,
      Execute (fuel + 1) (.Print (some argument) [] "") closure context
        = .ok .None closure context) ∧
    Execute 2 (.Print (some (.StringConst "hello")) [] "") [] emptyContext
      = .ok .None [] { output := "", instances := [] } ∧
    Execute 2 (.Print none [.StringConst "hello"] "") [] emptyContext
      = .ok .None [] { output := "hello\n", instances := [] } :=
  ⟨fun _ _ _ _ => rfl, rfl, rfl⟩

/-! ## `Assignment` and `VariableValue` -/

theorem Execute_Assignment (fuel : Nat) (var : String) (rv : Statement) (closure : Closure)
    (context : Context) :
    Execute (fuel + 1) (.Assignment var rv) closure context =
      (Execute fuel rv closure context).bind fun obj closure1 context1 =>
        .ok obj (closure1.set var obj) context1 := rfl

theorem Execute_VariableValue (fuel : Nat) (var_name : String) (dotted_ids : List String)
    (closure : Closure) (context : Context) :
    Execute (fuel + 1) (.VariableValue var_name dotted_ids) closure context =
      executeVariableValue var_name dotted_ids closure context := rfl

theorem length_ne_zero_of_ne_empty (name : String) (h : name ≠ "") : name.length ≠ 0 := by
  intro h0
  exact h (String.ext (List.length_eq_zero.mp h0))

theorem executeVariableValue_single (name : String) (closure : Closure) (context : Context)
    (h : name ≠ "") :
    executeVariableValue name [] closure context =
      match closure.find name with
      | none => .thrown .runtime_error closure context
      | some obj => .ok obj closure context := by
  simp [executeVariableValue, length_ne_zero_of_ne_empty name h]

/-- Claim C24 at `x = x` and at `y = x` followed by `x = z`, in a scope that binds `x`
to the only owner of the Number 5 and `z` to the only owner of the Number 7.  The
value of the expression `x` is a share of the object of `x`; when `x = x` puts it in
the place of the owner, the owner ends and the Number 5 is destroyed: `x` is bound
to a holder that points at no object, and so is the holder returned.  After `y = x`
the name `y` reads 5; the assignment `x = z` then destroys that object, and `y`,
whose binding has not changed, points at no object. -/
theorem C24_assignment_destroys_the_object_bound :
    lifetime.read lifetime.exampleMemory.heap (lifetime.exampleMemory.closure.at "x")
      = some (.Number 5) ∧
    lifetime.VariableValue.Execute "x" lifetime.exampleMemory
      = .ok (.share 1, lifetime.exampleMemory) ∧
    lifetime.Assignment.Execute "x" (lifetime.VariableValue.Execute "x") lifetime.exampleMemory
      = .ok (.share 1,
          { closure := [("x", .share 1), ("z", .owner 2)], heap := [(2, .Number 7, 1)] }) ∧
    lifetime.read [(2, .Number 7, 1)] (.share 1) = none ∧
    lifetime.Assignment.Execute "y" (lifetime.VariableValue.Execute "x") lifetime.exampleMemory
      = .ok (.share 1,
          { closure := [("x", .owner 1), ("z", .owner 2), ("y", .share 1)],
            heap := [(1, .Number 5, 1), (2, .Number 7, 1)] }) ∧
    lifetime.read [(1, .Number 5, 1), (2, .Number 7, 1)] (.share 1) = some (.Number 5) ∧
    lifetime.Assignment.Execute "x" (lifetime.VariableValue.Execute "z")
        { closure := [("x", .owner 1), ("z", .owner 2), ("y", .share 1)],
          heap := [(1, .Number 5, 1), (2, .Number 7, 1)] }
      = .ok (.share 2,
          { closure := [("x", .share 2), ("z", .owner 2), ("y", .share 1)],
            heap := [(2, .Number 7, 1)] }) ∧
    lifetime.read [(2, .Number 7, 1)] (.share 2) = some (.Number 7) :=
  ⟨rfl, rfl, rfl, rfl, rfl, rfl, rfl, rfl⟩

/-- Claim C25. `VariableValue` of a single non-empty name returns what the closure binds
to the name and leaves the closure and the context as they are; it throws
`runtime_error` exactly when the closure does not bind the name, and otherwise
does not fail. -/
theorem C25_VariableValue_of_a_name (fuel : Nat) (n : String) (closure : Closure)
    (context : Context) (hn : n ≠ "") :
    (∀ obj, closure.find n = some obj →
      Execute (fuel + 1) (.VariableValue n []) closure context = .ok obj closure context) ∧
    (Execute (fuel + 1) (.VariableValue n []) closure context
        = .thrown .runtime_error closure context ↔ closure.find n = none) ∧
    ((∀ obj closure1 context1,
        Execute (fuel + 1) (.VariableValue n []) closure context ≠ .ok obj closure1 context1) ↔
      closure.find n = none) := by
  rw [Execute_VariableValue, executeVariableValue_single n _ _ hn]
  cases hfind : closure.find n with
  | none => simp
  | some obj =>
    refine ⟨?_, ?_, ?_⟩
    · intro obj2 h
      rw [Option.some.injEq] at h
      rw [h]
    · simp
    · simp only [reduceCtorEq, iff_false, not_forall, not_not]
      exact ⟨obj, closure, context, rfl⟩

/-- An instance of C25: `y` is bound to `Bool(true)`. -/
theorem C25_VariableValue_of_a_name_witness :
    Execute 1 (.VariableValue "y" []) [("x", .Number 1), ("y", .Bool true)] emptyContext
      = .ok (.Bool true) [("x", .Number 1), ("y", .Bool true)] emptyContext :=
  (C25_VariableValue_of_a_name 0 "y" [("x", .Number 1), ("y", .Bool true)] emptyContext
    (by decide)).1 (.Bool true) rfl

/-- Claim C26, at `n.f` and `n.f = 1` with `n` bound to the Number 0, and at `z.f` with `z`
bound to the empty holder: no `runtime_error` is thrown, the call dereferences the
null pointer that `TryAs<ClassInstance>()` gave (undefined behaviour).  A dotted
path whose first name is unbound throws `std::out_of_range`.  `MethodCall` on the
same Number tests the pointer and returns the empty holder. -/
theorem C26_field_access_on_a_non_instance :
    Execute 1 (.VariableValue "" ["n", "f"]) exampleClosure emptyContext = .undefined ∧
    Execute 2 (.FieldAssignment "n" [] "f" (.NumericConst 1)) exampleClosure emptyContext
      = .undefined ∧
    Execute 1 (.VariableValue "" ["z", "f"]) [("z", .None)] emptyContext = .undefined ∧
    Execute 1 (.VariableValue "" ["q", "f"]) exampleClosure emptyContext
      = .thrown .out_of_range exampleClosure emptyContext ∧
    Execute 2 (.MethodCall (.VariableValue "n" []) "f" []) exampleClosure emptyContext
      = .ok .None exampleClosure emptyContext :=
  ⟨rfl, rfl, rfl, rfl, rfl⟩

/-! ## `IfElse` -/

/-- Claim C27. Once the condition of an `IfElse` has evaluated to a Bool: for `true` the
node is the then-branch run in the state the condition left, whatever the
else-branch is; for `false` it is the else-branch, whatever the then-branch is, and
without an else-branch it returns the empty holder in the state the condition
left. -/
theorem C27_IfElse_runs_one_branch (fuel : Nat) (condition : Statement)
    (closure closure1 : Closure) (context context1 : Context) (b : Bool)
    (hc : Execute fuel condition closure context = .ok (.Bool b) closure1 context1) :
    (b = true → ∀ if_body else_body,
      Execute (fuel + 1) (.IfElse condition if_body else_body) closure context
        = Execute fuel if_body closure1 context1) ∧
    (b = false → ∀ if_body else_stmt,
      Execute (fuel + 1) (.IfElse condition if_body (some else_stmt)) closure context
        = Execute fuel else_stmt closure1 context1) ∧
    (b = false → ∀ if_body,
      Execute (fuel + 1) (.IfElse condition if_body none) closure context
        = .ok .None closure1 context1) := by
  refine ⟨?_, ?_, ?_⟩
  · rintro rfl if_body else_body
    rw [Execute_IfElse, hc]
    rfl
  · rintro rfl if_body else_stmt
    rw [Execute_IfElse, hc]
    rfl
  · rintro rfl if_body
    rw [Execute_IfElse, hc]
    rfl

/-- An instance of C27: with the condition `False` only the else-branch writes. -/
theorem C27_IfElse_runs_one_branch_witness :
    Execute 3 (.IfElse (.BoolConst false) (printsText "then") (some (printsText "else")))
        [] emptyContext
      = Execute 2 (printsText "else") [] emptyContext ∧
    Execute 2 (printsText "else") [] emptyContext
      = .ok .None [] { output := "else\n", instances := [] } :=
  ⟨(C27_IfElse_runs_one_branch 2 (.BoolConst false) [] [] emptyContext emptyContext false
      rfl).2.1 rfl (printsText "then") (printsText "else"), rfl⟩

end runtime

namespace parse

/-! ## String literals -/

theorem SplitAsStringInQuotesLoop_items (q : Char) (hq : q ≠ backslash) (rest : List Char) :
    ∀ (items : List StringItem) (s : String), (∀ item ∈ items, item.Allowed q) →
      detail.SplitAsStringInQuotesLoop q (sourceOf items ++ q :: rest) s true
        = .ok (String.mk (s.data ++ items.map StringItem.value), rest)
  | [], s, _ => by
    rw [sourceOf, List.nil_append, detail.SplitAsStringInQuotesLoop.eq_def]
    simp
  | .plain c :: items, s, h => by
    have hc : (StringItem.plain c).Allowed q := h _ (List.mem_cons_self _ _)
    have hrest : ∀ item ∈ items, item.Allowed q :=
      fun item hi => h item (List.mem_cons_of_mem _ hi)
    obtain ⟨h1, h2, h3, h4⟩ := hc
    have ih := SplitAsStringInQuotesLoop_items q hq rest items (s.push c) hrest
    rw [show sourceOf (.plain c :: items) ++ q :: rest = c :: (sourceOf items ++ q :: rest)
      from rfl, detail.SplitAsStringInQuotesLoop.eq_def]
    simp only [h1, false_and, if_false, h2, h3, h4, or_self, ih]
    simp [String.push, StringItem.value]
  | .escape c :: items, s, h => by
    have hc : (StringItem.escape c).Allowed q := h _ (List.mem_cons_self _ _)
    have hrest : ∀ item ∈ items, item.Allowed q :=
      fun item hi => h item (List.mem_cons_of_mem _ hi)
    have hb : backslash ≠ q := fun e => hq e.symm
    have ihv := SplitAsStringInQuotesLoop_items q hq rest items
      (s.push (StringItem.escape c).value) hrest
    have e1 : squote ≠ 'n' := by decide
    have e2 : squote ≠ 't' := by decide
    have e3 : squote ≠ dquote := by decide
    have e4 : dquote ≠ 'n' := by decide
    have e5 : dquote ≠ 't' := by decide
    have e6 : ('t' : Char) ≠ 'n' := by decide
    have hstep : detail.SplitAsStringInQuotesLoop q
        (backslash :: c :: (sourceOf items ++ q :: rest)) s true
        = detail.SplitAsStringInQuotesLoop q (sourceOf items ++ q :: rest)
            (s.push (StringItem.escape c).value) true := by
      rw [detail.SplitAsStringInQuotesLoop.eq_def]
      simp only [hb, false_and, if_false, if_true]
      rcases hc with rfl | rfl | rfl | rfl
      · simp only [StringItem.value, if_true]
      · simp only [StringItem.value, e6, if_false, if_true]
      · simp only [StringItem.value, e1, e2, e3, if_false, if_true]
      · simp only [StringItem.value, e4, e5, if_false, if_true]
    rw [show sourceOf (.escape c :: items) ++ q :: rest
      = backslash :: c :: (sourceOf items ++ q :: rest) from rfl, hstep, ihv]
    simp [String.push]

/-! ## No two `Newline` tokens in a row -/

theorem newlinesApart_concat (t : Token) :
    ∀ (l : List Token) (p : Token),
      newlinesApart p (l ++ [t]) ↔
        newlinesApart p l ∧ ¬ (lastToken p l = Token.Newline ∧ t = Token.Newline)
  | [], p => by simp [newlinesApart, lastToken]
  | x :: l, p => by
    have ih := newlinesApart_concat t l x
    show (¬ (p = Token.Newline ∧ x = Token.Newline) ∧ newlinesApart x (l ++ [t])) ↔
      (¬ (p = Token.Newline ∧ x = Token.Newline) ∧ newlinesApart x l) ∧
        ¬ (lastToken x l = Token.Newline ∧ t = Token.Newline)
    rw [ih, and_assoc]

theorem lastToken_concat (t : Token) :
    ∀ (l : List Token) (p : Token), lastToken p (l ++ [t]) = t
  | [], _ => rfl
  | x :: l, _ => by
    show lastToken x (l ++ [t]) = t
    exact lastToken_concat t l x

theorem lastToken_of_getLast? :
    ∀ (l : List Token) (p x : Token), l.getLast? = some x → lastToken p l = x
  | [], _, _, h => by simp at h
  | [a], _, _, h => by
    simp only [List.getLast?_singleton, Option.some.injEq] at h
    simp [lastToken, h]
  | a :: b :: l, _, x, h => by
    rw [List.getLast?_cons_cons] at h
    rw [lastToken]
    exact lastToken_of_getLast? (b :: l) a x h

/-- Tokens other than `Newline` can always be added. -/
theorem newlinesApart_append (added : List Token) (h : ∀ t ∈ added, t ≠ Token.Newline) :
    ∀ (l : List Token) (p : Token), newlinesApart p l →
      newlinesApart p (l ++ added) ∧
        (lastToken p (l ++ added) = lastToken p l ∨
          lastToken p (l ++ added) ≠ Token.Newline) := by
  induction added using List.reverseRecOn with
  | nil =>
    intro l p hl
    simp [hl]
  | append_singleton added t ih =>
    intro l p hl
    have ht : t ≠ Token.Newline := h t (by simp)
    have h1 := (ih (fun x hx => h x (by simp [hx])) l p hl).1
    rw [← List.append_assoc]
    refine ⟨(newlinesApart_concat t _ p).2 ⟨h1, fun hc => ht hc.2⟩, Or.inr ?_⟩
    rw [lastToken_concat]
    exact ht

theorem newlinesApart_inside :
    ∀ (before : List Token) (p a b : Token) (after : List Token),
      newlinesApart p (before ++ a :: b :: after) → ¬ (a = Token.Newline ∧ b = Token.Newline)
  | [], _, _, _, _, h => h.2.1
  | _ :: before, _, a, b, after, h => newlinesApart_inside before _ a b after h.2

theorem DefineToken_eq_Newline (str : String) (h : DefineToken str = Token.Newline) :
    str = "\n" := by
  by_contra hne
  revert h
  unfold DefineToken
  simp only [hne, if_false]
  repeat' (apply ite_ne_token)
  all_goals exact Token.noConfusion

theorem SplitAsStringWithoutQuotesLoop_no_LF :
    ∀ (input : List Char) (s : String), LF ∉ s.data →
      LF ∉ (detail.SplitAsStringWithoutQuotesLoop input s).1.data
  | [], s, h => by
    simpa [detail.SplitAsStringWithoutQuotesLoop] using h
  | ch :: rest, s, h => by
    rw [detail.SplitAsStringWithoutQuotesLoop.eq_def]
    simp only
    split
    · exact h
    · rename_i hstop
      split
      · exact h
      · apply SplitAsStringWithoutQuotesLoop_no_LF rest (s.push ch)
        have hch : ch ≠ LF := fun e => hstop (Or.inr (Or.inl e))
        simp only [String.push, List.mem_append, List.mem_singleton, not_or]
        exact ⟨h, fun e => hch e.symm⟩

/-- A pass on a character other than the line feed, once the comment and blank cases
are gone, adds exactly one token, and this token is no `Newline`. -/
theorem lexeme_no_Newline (st st1 : LexerState) (c : Char) (rest rest1 : List Char)
    (hc : c ≠ LF) (h : lexeme st c rest = .ok (st1, rest1)) :
    ∃ tok, st1 = { st with tokens := st.tokens ++ [tok] } ∧ tok ≠ Token.Newline := by
  unfold lexeme at h
  split at h
  · split at h
    · simp at h
    · simp only [Except.ok.injEq, Prod.mk.injEq] at h
      exact ⟨_, h.1.symm, by simp⟩
  · simp only [hc, if_false] at h
    split at h
    · split at h
      · simp at h
      · simp only [Except.ok.injEq, Prod.mk.injEq] at h
        exact ⟨_, h.1.symm, by simp⟩
    · split at h
      · split at h
        · simp only [Except.ok.injEq, Prod.mk.injEq] at h
          exact ⟨_, h.1.symm, by simp⟩
        · split at h
          · simp only [Except.ok.injEq, Prod.mk.injEq] at h
            refine ⟨_, h.1.symm, fun hn => ?_⟩
            have h2 := congrArg String.length (DefineToken_eq_Newline _ hn)
            simp [String.length] at h2
          · simp only [Except.ok.injEq, Prod.mk.injEq] at h
            exact ⟨_, h.1.symm, by simp⟩
      · simp only [Except.ok.injEq, Prod.mk.injEq] at h
        refine ⟨_, h.1.symm, fun hn => ?_⟩
        have h2 := DefineToken_eq_Newline _ hn
        have h3 := SplitAsStringWithoutQuotesLoop_no_LF (c :: rest) "" (by simp)
        unfold detail.SplitAsStringWithoutQuotes at h2
        rw [h2] at h3
        exact h3 (by decide)

/-- Every pass keeps the tokens free of a `Newline` at the front or after a `Newline`,
and while a line has content its last token is no `Newline`. -/
theorem body_newlines_apart (st st1 : LexerState) (c : Char) (rest rest1 : List Char)
    (hapart : newlinesApart Token.Newline st.tokens)
    (hlast : st.not_space_exist = true → lastToken Token.Newline st.tokens ≠ Token.Newline)
    (h : body st c rest = .ok (st1, rest1)) :
    newlinesApart Token.Newline st1.tokens ∧
      (st1.not_space_exist = true →
        lastToken Token.Newline st1.tokens ≠ Token.Newline) := by
  by_cases hLF : c = LF
  · subst hLF
    rw [body_LF] at h
    simp only [Except.ok.injEq, Prod.mk.injEq] at h
    rw [← h.1]
    by_cases hnse : st.not_space_exist = true
    · simp only [hnse, if_true]
      refine ⟨(newlinesApart_concat _ _ _).2 ⟨hapart, fun hc => hlast hnse hc.1⟩, ?_⟩
      intro hc
      cases hc
    · have hf : st.not_space_exist = false := by simpa using hnse
      simp only [hf, Bool.false_eq_true, if_false]
      exact ⟨hapart, fun hc => by cases hc⟩
  · by_cases hcom : st.is_comment = true
    · rw [body_in_comment st c rest hcom hLF] at h
      simp only [Except.ok.injEq, Prod.mk.injEq] at h
      rw [← h.1]
      exact ⟨hapart, hlast⟩
    · have hcom2 : st.is_comment = false := by simpa using hcom
      by_cases hhash : c = hash
      · subst hhash
        rw [body_hash st rest hcom2] at h
        simp only [Except.ok.injEq, Prod.mk.injEq] at h
        rw [← h.1]
        exact ⟨hapart, hlast⟩
      · by_cases hsp : c = ' '
        · subst hsp
          rw [body_space st rest hcom2] at h
          simp only [Except.ok.injEq, Prod.mk.injEq] at h
          rw [← h.1]
          unfold countColumns
          split
          · exact ⟨hapart, hlast⟩
          · exact ⟨hapart, hlast⟩
        · by_cases htab : c = TAB
          · subst htab
            rw [body_tab st rest hcom2] at h
            simp only [Except.ok.injEq, Prod.mk.injEq] at h
            rw [← h.1]
            unfold countColumns
            split
            · exact ⟨hapart, hlast⟩
            · exact ⟨hapart, hlast⟩
          · rw [body_content st c rest hcom2 ⟨hsp, htab, hLF, hhash⟩] at h
            obtain ⟨tok, hst1, htok⟩ := lexeme_no_Newline _ _ _ _ _ hLF h
            obtain ⟨added, hadded, hkinds⟩ :=
              indentBlock_adds { st with stroke_not_empty := true }
            have hne : ∀ t ∈ added, t ≠ Token.Newline := by
              intro t ht
              rcases hkinds t ht with e | e <;> simp [e]
            have h1 := (newlinesApart_append added hne st.tokens Token.Newline hapart).1
            have htokens : st1.tokens = (st.tokens ++ added) ++ [tok] := by
              have := congrArg LexerState.tokens hst1
              simp only at this
              rw [this, hadded]
            rw [htokens]
            refine ⟨(newlinesApart_concat _ _ _).2 ⟨h1, fun hc => htok hc.2⟩, fun _ => ?_⟩
            rw [lastToken_concat]
            exact htok

theorem atEnd_newlines_apart (st : LexerState) (toks : List Token)
    (hapart : newlinesApart Token.Newline st.tokens)
    (h : atEnd st = .ok toks) : newlinesApart Token.Newline toks := by
  unfold atEnd at h
  simp only [pushPerTwoColumns_eq] at h
  obtain ⟨added, hadded, hne⟩ : ∃ added,
      (if st.current_count_space < st.prev_count_space then
          st.tokens ++
            List.replicate ((st.prev_count_space - st.current_count_space) / 2) Token.Dedent
        else st.tokens) = st.tokens ++ added ∧ ∀ t ∈ added, t ≠ Token.Newline := by
    split
    · refine ⟨_, rfl, fun t ht => ?_⟩
      rw [List.eq_of_mem_replicate ht]
      simp
    · exact ⟨[], by simp, by simp⟩
  rw [hadded] at h
  have h1 := (newlinesApart_append added hne st.tokens Token.Newline hapart).1
  have hEof : ∀ l : List Token, newlinesApart Token.Newline l →
      newlinesApart Token.Newline (l ++ [Token.Eof]) := by
    intro l hl
    exact (newlinesApart_concat _ _ _).2 ⟨hl, fun hc => by simp at hc⟩
  split at h
  · split at h
    · simp at h
    · rename_i last hlast
      split at h
      · rename_i hnot
        simp only [Except.ok.injEq] at h
        rw [← h]
        apply hEof
        refine (newlinesApart_concat _ _ _).2 ⟨h1, fun hc => hnot ?_⟩
        rw [← lastToken_of_getLast? _ Token.Newline last hlast]
        exact hc.1
      · simp only [Except.ok.injEq] at h
        rw [← h]
        exact hEof _ h1
  · simp only [Except.ok.injEq] at h
    rw [← h]
    exact hEof _ h1

theorem loop_newlines_apart (fuel : Nat) :
    ∀ (st : LexerState) (input : List Char) (toks : List Token),
      newlinesApart Token.Newline st.tokens →
      (st.not_space_exist = true → lastToken Token.Newline st.tokens ≠ Token.Newline) →
      loop fuel st input = .ok toks → newlinesApart Token.Newline toks := by
  induction fuel with
  | zero =>
    intro st input toks _ _ h
    simp [loop] at h
  | succ fuel ih =>
    intro st input toks hapart hlast h
    cases input with
    | nil =>
      simp only [loop] at h
      exact atEnd_newlines_apart st toks hapart h
    | cons c rest =>
      obtain ⟨st1, rest1, hb, hloop⟩ := loop_step _ _ _ _ _ h
      obtain ⟨h1, h2⟩ := body_newlines_apart _ _ _ _ _ hapart hlast hb
      exact ih st1 rest1 toks h1 h2 hloop

/-- Claim C29. In the tokens of every input that the lexer accepts, the first token
is not `Newline` and no `Newline` directly follows a `Newline`. -/
theorem C29_no_adjacent_Newlines (input : List Char) (toks : List Token)
    (h : SplitStream input = .ok toks) :
    (∀ rest, toks ≠ Token.Newline :: rest) ∧
    (∀ before after, toks ≠ before ++ Token.Newline :: Token.Newline :: after) := by
  have hapart : newlinesApart Token.Newline toks :=
    loop_newlines_apart _ initialState input toks (by simp [initialState, newlinesApart])
      (by simp [initialState]) h
  refine ⟨?_, ?_⟩
  · intro rest hrest
    rw [hrest] at hapart
    exact hapart.1 ⟨rfl, rfl⟩
  · intro before after hsplit
    rw [hsplit] at hapart
    exact newlinesApart_inside before _ _ _ after hapart ⟨rfl, rfl⟩

/-- An instance of C29: blank lines, a comment line and a line of blanks between two
statements give one `Newline` after each statement. -/
theorem C29_no_adjacent_Newlines_witness :
    SplitStream "\n\nx\n\n \t# c\n\ny".toList
        = .ok [Token.Id "x", Token.Newline, Token.Id "y", Token.Newline, Token.Eof] ∧
      ((∀ rest, [Token.Id "x", Token.Newline, Token.Id "y", Token.Newline, Token.Eof]
          ≠ Token.Newline :: rest) ∧
        (∀ before after, [Token.Id "x", Token.Newline, Token.Id "y", Token.Newline, Token.Eof]
          ≠ before ++ Token.Newline :: Token.Newline :: after)) :=
  ⟨by decide, C29_no_adjacent_Newlines "\n\nx\n\n \t# c\n\ny".toList _ (by decide)⟩

end parse

namespace parse

/-! ## Blank lines and comment lines -/

/-- The result of the loop does not depend on its budget once the budget exceeds the
number of characters. -/
theorem loop_fuel (fuel1 : Nat) :
    ∀ (fuel2 : Nat) (st : LexerState) (input : List Char),
      input.length < fuel1 → input.length < fuel2 →
      loop fuel1 st input = loop fuel2 st input := by
  induction fuel1 with
  | zero =>
    intro fuel2 st input h1
    exact absurd h1 (Nat.not_lt_zero _)
  | succ n ih =>
    intro fuel2 st input h1 h2
    cases fuel2 with
    | zero => exact absurd h2 (Nat.not_lt_zero _)
    | succ m =>
      cases input with
      | nil => simp only [loop]
      | cons c rest =>
        simp only [loop]
        cases hb : body st c rest with
        | error e => rfl
        | ok p =>
          obtain ⟨st1, rest1⟩ := p
          have hlen := body_length _ _ _ _ _ hb
          simp only [List.length_cons] at h1 h2
          exact ih m st1 rest1 (by omega) (by omega)

theorem run_nil (st : LexerState) : run st [] = atEnd st := by
  simp [run, loop]

theorem run_cons (st : LexerState) (c : Char) (rest : List Char) :
    run st (c :: rest) =
      match body st c rest with
      | .error e => .error e
      | .ok (st1, rest1) => run st1 rest1 := by
  unfold run
  simp only [List.length_cons, loop]
  cases hb : body st c rest with
  | error e => rfl
  | ok p =>
    obtain ⟨st1, rest1⟩ := p
    have hlen := body_length _ _ _ _ _ hb
    exact loop_fuel _ _ _ _ (by omega) (by omega)

theorem run_of_body (st st1 : LexerState) (c : Char) (rest rest1 : List Char)
    (h : body st c rest = .ok (st1, rest1)) : run st (c :: rest) = run st1 rest1 := by
  rw [run_cons, h]

theorem SplitStream_eq_run (input : List Char) : SplitStream input = run initialState input :=
  rfl

theorem countColumns_fields (k : Nat) (st : LexerState) :
    (countColumns k st).not_space_exist = st.not_space_exist ∧
      (countColumns k st).is_comment = st.is_comment ∧
      (countColumns k st).prev_count_space = st.prev_count_space ∧
      (countColumns k st).tokens = st.tokens := by
  unfold countColumns
  split <;> simp

/-- Blanks at the start of a line change neither the tokens nor the indentation of the
line before. -/
theorem run_blanks :
    ∀ (ws : List Char) (st : LexerState),
      st.not_space_exist = false → st.is_comment = false →
      (∀ x ∈ ws, x = ' ' ∨ x = TAB) →
      ∃ st2, (∀ t, run st (ws ++ t) = run st2 t) ∧
        st2.not_space_exist = false ∧ st2.is_comment = false ∧
        st2.prev_count_space = st.prev_count_space ∧ st2.tokens = st.tokens
  | [], st, hnse, hcom, _ => ⟨st, fun _ => rfl, hnse, hcom, rfl, rfl⟩
  | c :: ws, st, hnse, hcom, hws => by
    have hws2 : ∀ x ∈ ws, x = ' ' ∨ x = TAB := fun x hx => hws x (List.mem_cons_of_mem _ hx)
    rcases hws c (List.mem_cons_self _ _) with rfl | rfl
    · obtain ⟨f1, f2, f3, f4⟩ := countColumns_fields 1 st
      obtain ⟨st2, hrun, h1, h2, h3, h4⟩ := run_blanks ws (countColumns 1 st)
        (f1.trans hnse) (f2.trans hcom) hws2
      refine ⟨st2, fun t => ?_, h1, h2, h3.trans f3, h4.trans f4⟩
      rw [List.cons_append, run_of_body _ _ _ _ _ (body_space st (ws ++ t) hcom), hrun]
    · obtain ⟨f1, f2, f3, f4⟩ := countColumns_fields 2 { st with stroke_not_empty := true }
      obtain ⟨st2, hrun, h1, h2, h3, h4⟩ :=
        run_blanks ws (countColumns 2 { st with stroke_not_empty := true })
          (f1.trans hnse) (f2.trans hcom) hws2
      refine ⟨st2, fun t => ?_, h1, h2, h3.trans f3, h4.trans f4⟩
      rw [List.cons_append, run_of_body _ _ _ _ _ (body_tab st (ws ++ t) hcom), hrun]

/-- Inside a comment every character up to the line feed is skipped. -/
theorem run_comment :
    ∀ (cs : List Char) (st : LexerState) (t : List Char),
      st.is_comment = true → LF ∉ cs → run st (cs ++ t) = run st t
  | [], _, _, _, _ => rfl
  | c :: cs, st, t, hcom, hLF => by
    have hc : c ≠ LF := fun e => hLF (by simp [e])
    have hcs : LF ∉ cs := fun h => hLF (List.mem_cons_of_mem _ h)
    rw [List.cons_append, run_of_body _ _ _ _ _ (body_in_comment st c (cs ++ t) hcom hc)]
    exact run_comment cs st t hcom hcs

/-- A line of blanks, with or without a comment after them, read from the start of a
line: after its line feed the lexer is in the state in which it began the line. -/
theorem run_blank_line (st : LexerState) (ws comment rest : List Char)
    (hnse : st.not_space_exist = false) (hcur : st.current_count_space = 0)
    (hstroke : st.stroke_not_empty = false) (hcom : st.is_comment = false)
    (hws : ∀ x ∈ ws, x = ' ' ∨ x = TAB)
    (hcomment : comment = [] ∨ ∃ cs, comment = hash :: cs ∧ LF ∉ cs) :
    run st (ws ++ comment ++ LF :: rest) = run st rest := by
  obtain ⟨st2, hrun, h1, h2, h3, h4⟩ := run_blanks ws st hnse hcom hws
  rw [List.append_assoc, hrun]
  have hback : (⟨st2.tokens, false, st2.prev_count_space, 0, false, false⟩ : LexerState)
      = st := by
    cases st
    cases st2
    simp_all
  rcases hcomment with rfl | ⟨cs, rfl, hLF⟩
  · rw [List.nil_append, run_of_body _ _ _ _ _ (body_LF st2 rest)]
    simp only [h1, Bool.false_eq_true, if_false, hback]
  · have hst3 : ({ st2 with is_comment := true } : LexerState).is_comment = true := rfl
    rw [List.cons_append, run_of_body _ _ _ _ _ (body_hash st2 (cs ++ LF :: rest) h2),
      run_comment cs _ _ hst3 hLF, run_of_body _ _ _ _ _ (body_LF _ rest)]
    simp only [h1, Bool.false_eq_true, if_false, hback]

/-- While a line has content the count of its leading blanks stays cleared. -/
theorem body_count_cleared (st st1 : LexerState) (c : Char) (rest rest1 : List Char)
    (hinv : st.not_space_exist = true → st.current_count_space = 0)
    (h : body st c rest = .ok (st1, rest1)) :
    st1.not_space_exist = true → st1.current_count_space = 0 := by
  by_cases hLF : c = LF
  · subst hLF
    rw [body_LF] at h
    simp only [Except.ok.injEq, Prod.mk.injEq] at h
    rw [← h.1]
    split <;> simp
  · by_cases hcom : st.is_comment = true
    · rw [body_in_comment st c rest hcom hLF] at h
      simp only [Except.ok.injEq, Prod.mk.injEq] at h
      rw [← h.1]
      exact hinv
    · have hcom2 : st.is_comment = false := by simpa using hcom
      by_cases hhash : c = hash
      · subst hhash
        rw [body_hash st rest hcom2] at h
        simp only [Except.ok.injEq, Prod.mk.injEq] at h
        rw [← h.1]
        exact hinv
      · by_cases hsp : c = ' '
        · subst hsp
          rw [body_space st rest hcom2] at h
          simp only [Except.ok.injEq, Prod.mk.injEq] at h
          rw [← h.1]
          unfold countColumns
          split
          · rename_i hf
            intro ht
            simp only at ht
            rw [hf] at ht
            cases ht
          · exact hinv
        · by_cases htab : c = TAB
          · subst htab
            rw [body_tab st rest hcom2] at h
            simp only [Except.ok.injEq, Prod.mk.injEq] at h
            rw [← h.1]
            unfold countColumns
            split
            · rename_i hf
              intro ht
              simp only at ht hf
              rw [hf] at ht
              cases ht
            · exact hinv
          · rw [body_content st c rest hcom2 ⟨hsp, htab, hLF, hhash⟩] at h
            obtain ⟨tok, hst1, -⟩ := lexeme_no_Newline _ _ _ _ _ hLF h
            rw [hst1]
            intro _
            simp only
            unfold indentBlock
            split
            · rfl
            · rename_i hf
              exact hinv (by simpa using hf)

end parse

namespace parse

/-! ## What is read of a line does not depend on the lines after it -/

theorem takeWhile_append_stop (p : Char → Bool) (b : Char) (t : List Char) (hb : p b = false) :
    ∀ (a : List Char), (a ++ b :: t).takeWhile p = a.takeWhile p
  | [] => by simp [List.takeWhile, hb]
  | x :: xs => by
    by_cases hx : p x = true
    · simp only [List.cons_append, List.takeWhile_cons_of_pos hx]
      rw [takeWhile_append_stop p b t hb xs]
    · simp only [List.cons_append, List.takeWhile_cons_of_neg hx]

theorem SplitAsStringInQuotesLoop_tail (quotes : Char) (t : List Char) (hq : quotes ≠ LF)
    (n : Nat) :
    ∀ (inp : List Char) (s : String) (fq : Bool), inp.length ≤ n → LF ∉ inp →
      detail.SplitAsStringInQuotesLoop quotes (inp ++ LF :: t) s fq
        = withTail t (detail.SplitAsStringInQuotesLoop quotes (inp ++ [LF]) s fq) := by
  have hLFq : ¬ LF = quotes := fun e => hq e.symm
  have hLFb : ¬ LF = backslash := by decide
  induction n with
  | zero =>
    intro inp s fq hlen _
    have : inp = [] := List.length_eq_zero.mp (Nat.le_zero.mp hlen)
    subst this
    simp only [List.nil_append]
    rw [detail.SplitAsStringInQuotesLoop.eq_def, detail.SplitAsStringInQuotesLoop.eq_def]
    simp [hLFq, hLFb, withTail]
  | succ n ih =>
    intro inp s fq hlen hLF
    cases inp with
    | nil =>
      simp only [List.nil_append]
      rw [detail.SplitAsStringInQuotesLoop.eq_def, detail.SplitAsStringInQuotesLoop.eq_def]
      simp [hLFq, hLFb, withTail]
    | cons ch rest =>
      have hrest : LF ∉ rest := fun h => hLF (List.mem_cons_of_mem _ h)
      have hlen2 : rest.length ≤ n := by simp at hlen; omega
      simp only [List.cons_append]
      rw [detail.SplitAsStringInQuotesLoop.eq_def]
      conv_rhs => rw [detail.SplitAsStringInQuotesLoop.eq_def]
      simp only
      by_cases h1 : ch = quotes ∧ fq = true
      · simp [h1, withTail]
      · simp only [h1, if_false]
        by_cases h2 : ch = quotes ∧ fq = false
        · simp only [h2, and_self, if_true]
          exact ih rest s true hlen2 hrest
        · simp only [h2, if_false]
          by_cases h3 : ch = backslash
          · simp only [h3, if_true]
            cases rest with
            | nil =>
              have e1 : ¬ LF = 'n' := by decide
              have e2 : ¬ LF = 't' := by decide
              have e3 : ¬ LF = dquote := by decide
              have e4 : ¬ LF = squote := by decide
              simp [e1, e2, e3, e4, withTail]
            | cons escaped rest2 =>
              have hrest2 : LF ∉ rest2 := fun h => hrest (List.mem_cons_of_mem _ h)
              have hlen3 : rest2.length ≤ n := by simp at hlen2; omega
              simp only [List.cons_append]
              split_ifs
              · exact ih rest2 _ fq hlen3 hrest2
              · exact ih rest2 _ fq hlen3 hrest2
              · exact ih rest2 _ fq hlen3 hrest2
              · exact ih rest2 _ fq hlen3 hrest2
              · rfl
          · simp only [h3, if_false]
            split_ifs
            · rfl
            · exact ih rest _ fq hlen2 hrest

theorem SplitAsStringWithoutQuotesLoop_tail (t : List Char) :
    ∀ (inp : List Char) (s : String), LF ∉ inp →
      detail.SplitAsStringWithoutQuotesLoop (inp ++ LF :: t) s
        = ((detail.SplitAsStringWithoutQuotesLoop (inp ++ [LF]) s).1,
           (detail.SplitAsStringWithoutQuotesLoop (inp ++ [LF]) s).2 ++ t)
  | [], s, _ => by
    simp only [List.nil_append]
    rw [detail.SplitAsStringWithoutQuotesLoop.eq_def,
      detail.SplitAsStringWithoutQuotesLoop.eq_def]
    simp
  | ch :: rest, s, hLF => by
    have hrest : LF ∉ rest := fun h => hLF (List.mem_cons_of_mem _ h)
    simp only [List.cons_append]
    rw [detail.SplitAsStringWithoutQuotesLoop.eq_def]
    conv_rhs => rw [detail.SplitAsStringWithoutQuotesLoop.eq_def]
    simp only
    split_ifs
    · simp
    · simp
    · exact SplitAsStringWithoutQuotesLoop_tail t rest _ hrest

theorem withTail_map (t : List Char) (f : List Char → List Char)
    (r : Except LexFailure (List Char × List Char)) :
    withTail t (r.map fun q => (f q.1, q.2)) = (withTail t r).map fun q => (f q.1, q.2) := by
  cases r with
  | error e => rfl
  | ok p => rfl

theorem read_digits_tail (t inp : List Char) (hLF : LF ∉ inp) :
    detail.read_digits (inp ++ LF :: t) = withTail t (detail.read_digits (inp ++ [LF])) := by
  have hd : Char.isDigit LF = false := by decide
  cases inp with
  | nil =>
    simp [detail.read_digits, hd, withTail]
  | cons ch rest =>
    simp only [List.cons_append, detail.read_digits]
    split_ifs with h
    · have e1 := takeWhile_append_stop Char.isDigit LF t hd (ch :: rest)
      have e2 := takeWhile_append_stop Char.isDigit LF [] hd (ch :: rest)
      have e3 := dropWhile_append_stop Char.isDigit LF t hd (ch :: rest)
      have e4 := dropWhile_append_stop Char.isDigit LF [] hd (ch :: rest)
      simp only [List.cons_append] at e1 e2 e3 e4
      rw [e1, e2, e3, e4]
      simp [withTail]
    · rfl

theorem readMinus_tail (t inp : List Char) :
    detail.readMinus (inp ++ LF :: t)
      = ((detail.readMinus (inp ++ [LF])).1, (detail.readMinus (inp ++ [LF])).2 ++ t) := by
  have hm : ¬ LF = '-' := by decide
  cases inp with
  | nil => simp [detail.readMinus, hm]
  | cons ch rest =>
    simp only [List.cons_append, detail.readMinus]
    split_ifs <;> simp

theorem readIntegerPart_tail (t inp parsed : List Char) (hLF : LF ∉ inp) :
    detail.readIntegerPart parsed (inp ++ LF :: t)
      = withTail t (detail.readIntegerPart parsed (inp ++ [LF])) := by
  have hz : ¬ LF = '0' := by decide
  cases inp with
  | nil =>
    have h := read_digits_tail t [] (by simp)
    simp only [List.nil_append] at h ⊢
    simp only [detail.readIntegerPart, hz, if_false, h]
    exact (withTail_map t (fun x => parsed ++ x) _).symm
  | cons ch rest =>
    have h := read_digits_tail t (ch :: rest) hLF
    simp only [List.cons_append] at h ⊢
    simp only [detail.readIntegerPart]
    split_ifs
    · simp [withTail]
    · rw [h]
      exact (withTail_map t (fun x => parsed ++ x) _).symm

theorem readExponentPart_tail (t inp parsed : List Char) (hLF : LF ∉ inp) :
    detail.readExponentPart parsed (inp ++ LF :: t)
      = withTail t (detail.readExponentPart parsed (inp ++ [LF])) := by
  have he : ¬ (LF = 'e' ∨ LF = 'E') := by decide
  have hs : ¬ (LF = '+' ∨ LF = '-') := by decide
  cases inp with
  | nil =>
    simp [detail.readExponentPart, he, withTail]
  | cons ch rest =>
    have hrest : LF ∉ rest := fun h => hLF (List.mem_cons_of_mem _ h)
    simp only [List.cons_append, detail.readExponentPart]
    split_ifs with h1
    · cases rest with
      | nil =>
        have h := read_digits_tail t [] (by simp)
        simp only [List.nil_append] at h ⊢
        simp only [hs, if_false, h]
        exact (withTail_map t (fun x => parsed ++ [ch] ++ x) _).symm
      | cons ch2 rest2 =>
        have hrest2 : LF ∉ rest2 := fun h => hrest (List.mem_cons_of_mem _ h)
        simp only [List.cons_append]
        split_ifs
        · rw [read_digits_tail t rest2 hrest2]
          exact (withTail_map t (fun x => parsed ++ [ch, ch2] ++ x) _).symm
        · have h := read_digits_tail t (ch2 :: rest2) hrest
          simp only [List.cons_append] at h
          rw [h]
          exact (withTail_map t (fun x => parsed ++ [ch] ++ x) _).symm
    · simp [withTail]

theorem SplitAsNumber_tail (t inp : List Char) (hLF : LF ∉ inp) :
    detail.SplitAsNumber (inp ++ LF :: t) = withTail t (detail.SplitAsNumber (inp ++ [LF])) := by
  obtain ⟨l1, hl1, -, hLF1⟩ := readMinus_frame [] inp hLF
  have hm := readMinus_tail t inp
  unfold detail.SplitAsNumber
  rw [hm, hl1]
  simp only [List.append_assoc, List.singleton_append]
  rw [readIntegerPart_tail t l1 _ hLF1]
  cases h2 : detail.readIntegerPart (detail.readMinus (inp ++ [LF])).1 (l1 ++ [LF]) with
  | error e => rfl
  | ok p2 =>
    obtain ⟨parsed2, in2⟩ := p2
    obtain ⟨l2, hl2, -, hLF2⟩ := readIntegerPart_frame [] l1 _ _ _ hLF1 h2
    subst hl2
    simp only [withTail, List.append_assoc, List.singleton_append]
    rw [readExponentPart_tail t l2 _ hLF2]
    cases h3 : detail.readExponentPart parsed2 (l2 ++ [LF]) with
    | error e => rfl
    | ok p3 =>
      obtain ⟨parsed_num, in4⟩ := p3
      simp only [withTail]
      cases detail.stoi parsed_num with
      | none => rfl
      | some v => rfl

/-- One lexeme read on a line gives the same token, and leaves the same part of the
line unread, whatever follows the line feed of the line. -/
theorem lexeme_tail (st : LexerState) (c : Char) (l t : List Char) (hLF : LF ∉ l) :
    lexeme st c (l ++ LF :: t) = withTail t (lexeme st c (l ++ [LF])) := by
  by_cases hc : c = LF
  · subst hc
    simp only [lexeme_LF, withTail, List.append_assoc, List.singleton_append]
  · have hcl : LF ∉ c :: l := by
      simp only [List.mem_cons, not_or]
      exact ⟨fun e => hc e.symm, hLF⟩
    unfold lexeme
    split_ifs with h1 h2 h3
    · have hq : c ≠ LF := hc
      have h := SplitAsStringInQuotesLoop_tail c t hq (c :: l).length (c :: l) "" false
        (Nat.le_refl _) hcl
      simp only [List.cons_append] at h
      unfold detail.SplitAsStringInQuotes
      rw [h]
      cases detail.SplitAsStringInQuotesLoop c (c :: (l ++ [LF])) "" false with
      | error e => rfl
      | ok p => rfl
    · have h := SplitAsNumber_tail t (c :: l) hcl
      simp only [List.cons_append] at h
      rw [h]
      cases detail.SplitAsNumber (c :: (l ++ [LF])) with
      | error e => rfl
      | ok p => rfl
    · cases l with
      | nil =>
        simp only [List.nil_append, CheckSpecialCharCombination_LF, Bool.false_eq_true,
          if_false, withTail]
        rfl
      | cons next_ch rest1 =>
        simp only [List.cons_append]
        split_ifs
        · simp only [withTail, List.append_assoc, List.singleton_append]
        · simp only [withTail, List.cons_append, List.append_assoc, List.singleton_append,
            List.nil_append]
    · have h := SplitAsStringWithoutQuotesLoop_tail t (c :: l) "" hcl
      simp only [List.cons_append] at h
      unfold detail.SplitAsStringWithoutQuotes
      rw [h]
      simp only [withTail]

/-- One pass of the loop on a line gives the same state, and leaves the same part of
the line unread, whatever follows the line feed of the line. -/
theorem body_tail (st : LexerState) (c : Char) (l t : List Char) (hLF : LF ∉ l) :
    body st c (l ++ LF :: t) = withTail t (body st c (l ++ [LF])) := by
  unfold body
  simp only
  split_ifs
  · simp only [withTail, List.append_assoc, List.singleton_append]
  · simp only [withTail, List.append_assoc, List.singleton_append]
  · simp only [withTail, List.append_assoc, List.singleton_append]
  · exact lexeme_tail _ c l t hLF

/-- One pass on a character other than the line feed leaves the line feed of its line
unread. -/
theorem body_frame (st st1 : LexerState) (c : Char) (l t rest1 : List Char)
    (hc : c ≠ LF) (hLF : LF ∉ l)
    (h : body st c (l ++ LF :: t) = .ok (st1, rest1)) :
    ∃ l2, rest1 = l2 ++ LF :: t ∧ l2.length ≤ l.length ∧ LF ∉ l2 := by
  by_cases hcom : st.is_comment = true
  · rw [body_in_comment st c _ hcom hc] at h
    simp only [Except.ok.injEq, Prod.mk.injEq] at h
    exact ⟨l, h.2.symm, Nat.le_refl _, hLF⟩
  · have hcom2 : st.is_comment = false := by simpa using hcom
    by_cases hhash : c = hash
    · subst hhash
      rw [body_hash st _ hcom2] at h
      simp only [Except.ok.injEq, Prod.mk.injEq] at h
      exact ⟨l, h.2.symm, Nat.le_refl _, hLF⟩
    · by_cases hsp : c = ' '
      · subst hsp
        rw [body_space st _ hcom2] at h
        simp only [Except.ok.injEq, Prod.mk.injEq] at h
        exact ⟨l, h.2.symm, Nat.le_refl _, hLF⟩
      · by_cases htab : c = TAB
        · subst htab
          rw [body_tab st _ hcom2] at h
          simp only [Except.ok.injEq, Prod.mk.injEq] at h
          exact ⟨l, h.2.symm, Nat.le_refl _, hLF⟩
        · rw [body_content st c _ hcom2 ⟨hsp, htab, hc, hhash⟩] at h
          exact lexeme_frame _ _ _ _ _ _ hc hsp hhash hLF h

/-- A text that ends with a line feed, read from a state in which the count of blanks
is cleared while a line has content: either the lexer fails in it, with the same
failure whatever follows, or it arrives at the start of the next line in a state
that does not depend on what follows. -/
theorem run_lines (k : Nat) :
    ∀ (A : List Char) (st : LexerState), A.length ≤ k → A.getLast? = some LF →
      (st.not_space_exist = true → st.current_count_space = 0) →
      (∃ e, ∀ R, run st (A ++ R) = .error e) ∨
      (∃ S, (∀ R, run st (A ++ R) = run S R) ∧ S.not_space_exist = false ∧
        S.current_count_space = 0 ∧ S.stroke_not_empty = false ∧ S.is_comment = false) := by
  induction k with
  | zero =>
    intro A st hlen hlast _
    have : A = [] := List.length_eq_zero.mp (Nat.le_zero.mp hlen)
    subst this
    simp at hlast
  | succ k ih =>
    intro A st hlen hlast hinv
    cases A with
    | nil => simp at hlast
    | cons c A1 =>
      have hlen1 : A1.length ≤ k := by simp at hlen; omega
      by_cases hc : c = LF
      · subst hc
        have hstep : ∀ R, run st (LF :: A1 ++ R)
            = run (if st.not_space_exist = true then
                    { st with is_comment := false, stroke_not_empty := false,
                              not_space_exist := false,
                              tokens := st.tokens ++ [Token.Newline] }
                  else { st with is_comment := false, stroke_not_empty := false,
                                 current_count_space := 0 }) (A1 ++ R) := by
          intro R
          rw [List.cons_append, run_of_body _ _ _ _ _ (body_LF st (A1 ++ R))]
        have hprops : ∀ S : LexerState,
            S = (if st.not_space_exist = true then
                    { st with is_comment := false, stroke_not_empty := false,
                              not_space_exist := false,
                              tokens := st.tokens ++ [Token.Newline] }
                  else { st with is_comment := false, stroke_not_empty := false,
                                 current_count_space := 0 }) →
            S.not_space_exist = false ∧ S.current_count_space = 0 ∧
              S.stroke_not_empty = false ∧ S.is_comment = false := by
          intro S hS
          by_cases hnse : st.not_space_exist = true
          · simp only [hnse, if_true] at hS
            subst hS
            exact ⟨rfl, hinv hnse, rfl, rfl⟩
          · have hf : st.not_space_exist = false := by simpa using hnse
            simp only [hf, Bool.false_eq_true, if_false] at hS
            subst hS
            exact ⟨rfl, rfl, rfl, rfl⟩
        obtain ⟨p1, p2, p3, p4⟩ := hprops _ rfl
        cases A1 with
        | nil =>
          exact Or.inr ⟨_, fun R => by rw [hstep R]; rfl, p1, p2, p3, p4⟩
        | cons d A2 =>
          have hlast1 : (d :: A2).getLast? = some LF := by
            rw [List.getLast?_cons_cons] at hlast
            exact hlast
          rcases ih (d :: A2) _ hlen1 hlast1 (fun hn => by rw [p1] at hn; cases hn) with
            ⟨e, he⟩ | ⟨S, hS, q1, q2, q3, q4⟩
          · exact Or.inl ⟨e, fun R => by rw [hstep R, he R]⟩
          · exact Or.inr ⟨S, fun R => by rw [hstep R, hS R], q1, q2, q3, q4⟩
      · have hmem : LF ∈ A1 := by
          cases A1 with
          | nil =>
            simp only [List.getLast?_singleton, Option.some.injEq] at hlast
            exact absurd hlast hc
          | cons d A2 =>
            rw [List.getLast?_cons_cons] at hlast
            obtain ⟨ys, hys⟩ := List.getLast?_eq_some_iff.mp hlast
            rw [hys]
            simp
        obtain ⟨l, x, hsplit, hl⟩ := List.eq_append_cons_of_mem hmem
        subst hsplit
        have hlastx : (LF :: x).getLast? = some LF := by
          have : (c :: (l ++ LF :: x)).getLast? = (LF :: x).getLast? := by
            rw [← List.cons_append, List.getLast?_append_cons]
          rw [← this]
          exact hlast
        cases hb : body st c (l ++ [LF]) with
        | error e =>
          refine Or.inl ⟨e, fun R => ?_⟩
          rw [List.cons_append, List.append_assoc, List.cons_append, run_cons,
            body_tail st c l (x ++ R) hl, hb]
          rfl
        | ok p =>
          obtain ⟨st1, r⟩ := p
          obtain ⟨l2, hr, hlen2, -⟩ := body_frame st st1 c l [] r hc hl hb
          subst hr
          have hinv1 := body_count_cleared _ _ _ _ _ hinv hb
          have hstep : ∀ R, run st (c :: (l ++ LF :: x) ++ R)
              = run st1 ((l2 ++ LF :: x) ++ R) := by
            intro R
            rw [List.cons_append, List.append_assoc, List.cons_append, run_cons,
              body_tail st c l (x ++ R) hl, hb]
            simp only [withTail, List.append_assoc, List.singleton_append, List.cons_append,
              List.nil_append]
          have hlast2 : (l2 ++ LF :: x).getLast? = some LF := by
            rw [List.getLast?_append_cons]
            exact hlastx
          have hlen3 : (l2 ++ LF :: x).length ≤ k := by
            simp only [List.length_append, List.length_cons] at hlen1 ⊢
            omega
          rcases ih (l2 ++ LF :: x) st1 hlen3 hlast2 hinv1 with
            ⟨e, he⟩ | ⟨S, hS, q1, q2, q3, q4⟩
          · exact Or.inl ⟨e, fun R => by rw [hstep R, he R]⟩
          · exact Or.inr ⟨S, fun R => by rw [hstep R, hS R], q1, q2, q3, q4⟩

/-- Claim C28. For all texts `A` and `B` where `A` is empty or ends with a line feed, and
every line made of spaces and tabs with, optionally, a comment after them: the
lexer gives the same result, tokens or failure, on `A`, the line, a line feed and
`B` as on `A` and `B`. -/
theorem C28_blank_and_comment_lines_are_invisible (A B ws comment : List Char)
    (hA : A = [] ∨ A.getLast? = some LF)
    (hws : ∀ x ∈ ws, x = ' ' ∨ x = TAB)
    (hcomment : comment = [] ∨ ∃ cs, comment = hash :: cs ∧ LF ∉ cs) :
    SplitStream (A ++ (ws ++ comment) ++ LF :: B) = SplitStream (A ++ B) := by
  rw [SplitStream_eq_run, SplitStream_eq_run, List.append_assoc]
  rcases hA with rfl | hlast
  · simp only [List.nil_append]
    exact run_blank_line initialState ws comment B rfl rfl rfl rfl hws hcomment
  · rcases run_lines A.length A initialState (Nat.le_refl _) hlast (fun _ => rfl) with
      ⟨e, he⟩ | ⟨S, hS, q1, q2, q3, q4⟩
    · rw [he, he]
    · rw [hS, hS]
      exact run_blank_line S ws comment B q1 q2 q3 q4 hws hcomment

/-- An instance of C28: a line of a space, a tab and a comment between two statements. -/
theorem C28_blank_and_comment_lines_are_invisible_witness :
    SplitStream ("x = 1\n".toList ++ (" \t".toList ++ "# note".toList) ++ LF :: "y = 2\n".toList)
      = SplitStream ("x = 1\n".toList ++ "y = 2\n".toList) :=
  C28_blank_and_comment_lines_are_invisible "x = 1\n".toList "y = 2\n".toList " \t".toList
    "# note".toList (Or.inr (by decide)) (by decide)
    (Or.inr ⟨" note".toList, by decide, by decide⟩)

end parse

namespace parse

/-! ## String literals that are not closed -/

theorem SplitAsStringInQuotesLoop_through_items (q : Char) (hq : q ≠ backslash)
    (tail : List Char) :
    ∀ (items : List StringItem) (s : String), (∀ item ∈ items, item.Allowed q) →
      detail.SplitAsStringInQuotesLoop q (sourceOf items ++ tail) s true
        = detail.SplitAsStringInQuotesLoop q tail
            (String.mk (s.data ++ items.map StringItem.value)) true
  | [], s, _ => by
    simp [sourceOf]
  | .plain c :: items, s, h => by
    have hc : (StringItem.plain c).Allowed q := h _ (List.mem_cons_self _ _)
    have hrest : ∀ item ∈ items, item.Allowed q :=
      fun item hi => h item (List.mem_cons_of_mem _ hi)
    obtain ⟨h1, h2, h3, h4⟩ := hc
    have ih := SplitAsStringInQuotesLoop_through_items q hq tail items (s.push c) hrest
    rw [show sourceOf (.plain c :: items) ++ tail = c :: (sourceOf items ++ tail)
      from rfl, detail.SplitAsStringInQuotesLoop.eq_def]
    simp only [h1, false_and, if_false, h2, h3, h4, or_self, ih]
    simp [String.push, StringItem.value]
  | .escape c :: items, s, h => by
    have hc : (StringItem.escape c).Allowed q := h _ (List.mem_cons_self _ _)
    have hrest : ∀ item ∈ items, item.Allowed q :=
      fun item hi => h item (List.mem_cons_of_mem _ hi)
    have hb : backslash ≠ q := fun e => hq e.symm
    have ihv := SplitAsStringInQuotesLoop_through_items q hq tail items
      (s.push (StringItem.escape c).value) hrest
    have e1 : squote ≠ 'n' := by decide
    have e2 : squote ≠ 't' := by decide
    have e3 : squote ≠ dquote := by decide
    have e4 : dquote ≠ 'n' := by decide
    have e5 : dquote ≠ 't' := by decide
    have e6 : ('t' : Char) ≠ 'n' := by decide
    have hstep : detail.SplitAsStringInQuotesLoop q
        (backslash :: c :: (sourceOf items ++ tail)) s true
        = detail.SplitAsStringInQuotesLoop q (sourceOf items ++ tail)
            (s.push (StringItem.escape c).value) true := by
      rw [detail.SplitAsStringInQuotesLoop.eq_def]
      simp only [hb, false_and, if_false, if_true]
      rcases hc with rfl | rfl | rfl | rfl
      · simp only [StringItem.value, if_true]
      · simp only [StringItem.value, e6, if_false, if_true]
      · simp only [StringItem.value, e1, e2, e3, if_false, if_true]
      · simp only [StringItem.value, e4, e5, if_false, if_true]
    rw [show sourceOf (.escape c :: items) ++ tail
      = backslash :: c :: (sourceOf items ++ tail) from rfl, hstep, ihv]
    simp [String.push]

theorem SplitAsStringInQuotesLoop_unclosed (q : Char) (hq : q = squote ∨ q = dquote)
    (tail : List Char) (s : String) (h : Unclosed tail) :
    detail.SplitAsStringInQuotesLoop q tail s true = .error .logic_error := by
  have hb : backslash ≠ q := by rcases hq with rfl | rfl <;> decide
  have hl : LF ≠ q := by rcases hq with rfl | rfl <;> decide
  have hr : CR ≠ q := by rcases hq with rfl | rfl <;> decide
  have hlb : LF ≠ backslash := by decide
  have hrb : CR ≠ backslash := by decide
  rw [detail.SplitAsStringInQuotesLoop.eq_def]
  cases h with
  | input_ends => rfl
  | backslash_last => simp [hb]
  | no_escape c rest hc =>
    obtain ⟨h1, h2, h3, h4⟩ := hc
    simp [hb, h1, h2, h3, h4]
  | line_feed rest => simp [hl, hlb]
  | carriage_return rest => simp [hr, hrb]

theorem run_of_passes (n : Nat) :
    ∀ (st st1 : LexerState) (input rest : List Char),
      passes n st input = .ok (st1, rest) → run st input = run st1 rest := by
  induction n with
  | zero =>
    intro st st1 input rest h
    simp only [passes, Except.ok.injEq, Prod.mk.injEq] at h
    rw [h.1, h.2]
  | succ n ih =>
    intro st st1 input rest h
    cases input with
    | nil =>
      simp only [passes, Except.ok.injEq, Prod.mk.injEq] at h
      rw [h.1, h.2]
    | cons c tl =>
      simp only [passes] at h
      cases hb : body st c tl with
      | error e => simp [hb] at h
      | ok p =>
        obtain ⟨st2, rest2⟩ := p
        simp only [hb] at h
        rw [run_of_body _ _ _ _ _ hb]
        exact ih st2 st1 rest2 rest h

theorem run_error_of_body (st : LexerState) (c : Char) (rest : List Char) (e : LexFailure)
    (h : body st c rest = .error e) : run st (c :: rest) = .error e := by
  rw [run_cons, h]

/-- Claim C31. A string literal opened by the quote `q` whose body, after a well-formed
beginning, meets a backslash before a character other than `n`, `t` and the two
quotes, a line break, the end of the input, or a backslash as the last character:
`SplitAsStringInQuotes` throws, and so does `SplitStream` on every input in which
the lexer arrives at the opening quote outside a comment; no token sequence is
produced. -/
theorem C31_unclosed_string_literal_fails (q : Char) (items : List StringItem)
    (tail : List Char) (hq : q = squote ∨ q = dquote)
    (hitems : ∀ item ∈ items, item.Allowed q) (htail : Unclosed tail) :
    detail.SplitAsStringInQuotes (q :: (sourceOf items ++ tail)) q = .error .logic_error ∧
    (∀ st, st.is_comment = false →
      run st (q :: (sourceOf items ++ tail)) = .error .logic_error) ∧
    (∀ input n st, passes n initialState input = .ok (st, q :: (sourceOf items ++ tail)) →
      st.is_comment = false → SplitStream input = .error .logic_error) := by
  have hb : q ≠ backslash := by
    rcases hq with rfl | rfl <;> decide
  have hsplit : detail.SplitAsStringInQuotes (q :: (sourceOf items ++ tail)) q
      = .error .logic_error := by
    unfold detail.SplitAsStringInQuotes
    rw [detail.SplitAsStringInQuotesLoop.eq_def]
    simp only [Bool.false_eq_true, and_false, if_false, and_self, if_true]
    rw [SplitAsStringInQuotesLoop_through_items q hb tail items "" hitems,
      SplitAsStringInQuotesLoop_unclosed q hq tail _ htail]
  have hrun : ∀ st : LexerState, st.is_comment = false →
      run st (q :: (sourceOf items ++ tail)) = .error .logic_error := by
    intro st hcom
    have hc : q ≠ ' ' ∧ q ≠ TAB ∧ q ≠ LF ∧ q ≠ hash := by
      rcases hq with rfl | rfl <;> decide
    apply run_error_of_body
    rw [body_content st q _ hcom hc]
    have hor : q = dquote ∨ q = squote := hq.symm
    unfold lexeme
    simp only [hor, if_true, hsplit]
  refine ⟨hsplit, hrun, ?_⟩
  intro input n st hpasses hcom
  rw [SplitStream_eq_run, run_of_passes n _ _ _ _ hpasses]
  exact hrun st hcom

/-- An instance of C31: in `x = 'a` the literal is still open when the input ends. -/
theorem C31_unclosed_string_literal_fails_witness :
    SplitStream "x = 'a".toList = .error .logic_error :=
  (C31_unclosed_string_literal_fails squote [.plain 'a'] [] (Or.inl rfl) (by decide)
    .input_ends).2.2 "x = 'a".toList 4 _ rfl rfl

/-- Claim C32, at an unterminated string, an unknown escape and a line break in a
string on the one hand, and a missing digit and a number too large on the other:
the string literals fail with `std::logic_error`, the numbers with `LexerError`. -/
theorem C32_string_failures_are_logic_errors :
    SplitStream "'abc".toList = .error .logic_error ∧
    SplitStream "'ab\\q'".toList = .error .logic_error ∧
    SplitStream "'ab\nc'".toList = .error .logic_error ∧
    SplitStream "1e".toList = .error .LexerError ∧
    SplitStream "2147483648".toList = .error .LexerError ∧
    LexFailure.logic_error ≠ LexFailure.LexerError := by
  decide

end parse

namespace parse

/-! ## Numbers -/

theorem digitsValue_eq_decimalValue (ds : List Char) :
    detail.digitsValue ds = decimalValue ds := by
  have h : ∀ (l : List Char) (acc : Nat),
      l.foldl (fun acc d => 10 * acc + (d.toNat - 48)) acc
        = acc * 10 ^ l.length + Nat.ofDigits 10 (l.reverse.map fun d => d.toNat - 48) := by
    intro l
    induction l with
    | nil => intro acc; simp
    | cons d l ih =>
      intro acc
      rw [List.foldl_cons, ih, List.reverse_cons, List.map_append, Nat.ofDigits_append]
      simp only [List.length_cons, List.map_cons, List.map_nil, Nat.ofDigits_singleton,
        List.length_map, List.length_reverse]
      ring
  unfold detail.digitsValue decimalValue
  rw [h ds 0]
  simp

theorem ne_of_isDigit (d c : Char) (hd : d.isDigit = true) (hc : c.isDigit = false) :
    d ≠ c := by
  intro e
  rw [e, hc] at hd
  cases hd

theorem takeWhile_dropWhile_digits (rest : List Char)
    (hrest : ∀ x, rest.head? = some x → x.isDigit = false) :
    ∀ (ds : List Char), (∀ x ∈ ds, x.isDigit = true) →
      (ds ++ rest).takeWhile Char.isDigit = ds ∧ (ds ++ rest).dropWhile Char.isDigit = rest
  | [], _ => by
    cases rest with
    | nil => simp
    | cons x tl =>
      have hx := hrest x rfl
      simp [List.takeWhile, List.dropWhile, hx]
  | d :: ds, h => by
    have hd : d.isDigit = true := h d (List.mem_cons_self _ _)
    obtain ⟨h1, h2⟩ := takeWhile_dropWhile_digits rest hrest ds
      (fun x hx => h x (List.mem_cons_of_mem _ hx))
    simp only [List.cons_append, List.takeWhile_cons_of_pos hd, List.dropWhile_cons_of_pos hd,
      h1, h2, and_self]

/-- The call `std::stoi` on a run of digits followed by something that is no digit: the
value of the run when it fits in an `int`. -/
theorem stoi_digits (d : Char) (ds more : List Char) (hd : d.isDigit = true)
    (hds : ∀ x ∈ ds, x.isDigit = true)
    (hmore : ∀ x, more.head? = some x → x.isDigit = false) :
    detail.stoi (d :: ds ++ more) =
      if detail.digitsValue (d :: ds) ≤ 2147483647 then
        some (detail.digitsValue (d :: ds) : Int)
      else none := by
  have h1 : d ≠ '-' := ne_of_isDigit d '-' hd (by decide)
  have h2 : d ≠ '+' := ne_of_isDigit d '+' hd (by decide)
  have hall : ∀ x ∈ d :: ds, x.isDigit = true := by
    intro x hx
    rcases List.mem_cons.mp hx with rfl | hx
    · exact hd
    · exact hds x hx
  have htw := (takeWhile_dropWhile_digits more hmore (d :: ds) hall).1
  unfold detail.stoi
  simp only [List.cons_append, List.head?_cons, Option.some.injEq, h1, h2, or_self, if_false]
  simp only [List.cons_append] at htw
  rw [htw]
  simp only [reduceCtorEq, if_false, Bool.false_eq_true]
  by_cases hle : detail.digitsValue (d :: ds) ≤ 2147483647
  · have : (-2147483648 : Int) ≤ (detail.digitsValue (d :: ds) : Int) ∧
        (detail.digitsValue (d :: ds) : Int) ≤ 2147483647 := by omega
    simp [hle, this]
  · have : ¬ ((-2147483648 : Int) ≤ (detail.digitsValue (d :: ds) : Int) ∧
        (detail.digitsValue (d :: ds) : Int) ≤ 2147483647) := by omega
    simp [hle, this]

/-- The integer part read by `SplitAsNumber` at a run of digits that is the single digit
0 or does not begin with 0. -/
theorem readIntegerPart_digits (d : Char) (ds rest : List Char) (hd : d.isDigit = true)
    (hds : ∀ x ∈ ds, x.isDigit = true) (hzero : d = '0' → ds = [])
    (hrest : ∀ x, rest.head? = some x → x.isDigit = false) :
    detail.readIntegerPart (detail.readMinus (d :: ds ++ rest)).1
        (detail.readMinus (d :: ds ++ rest)).2
      = .ok (d :: ds, rest) := by
  have h1 : d ≠ '-' := ne_of_isDigit d '-' hd (by decide)
  have hall : ∀ x ∈ d :: ds, x.isDigit = true := by
    intro x hx
    rcases List.mem_cons.mp hx with rfl | hx
    · exact hd
    · exact hds x hx
  obtain ⟨htw, hdw⟩ := takeWhile_dropWhile_digits rest hrest (d :: ds) hall
  simp only [List.cons_append] at htw hdw
  simp only [List.cons_append, detail.readMinus, h1, if_false, detail.readIntegerPart]
  by_cases hz : d = '0'
  · have := hzero hz
    subst this
    simp [hz]
  · simp only [hz, if_false, detail.read_digits, hd, if_true, htw, hdw]
    rfl

/-- The function `SplitAsNumber` at a run of digits that no exponent follows. -/
theorem SplitAsNumber_digits (d : Char) (ds rest : List Char) (hd : d.isDigit = true)
    (hds : ∀ x ∈ ds, x.isDigit = true) (hzero : d = '0' → ds = [])
    (hmax : ∀ x, rest.head? = some x → x.isDigit = false)
    (hexp : ∀ x, rest.head? = some x → x ≠ 'e' ∧ x ≠ 'E') :
    detail.SplitAsNumber (d :: ds ++ rest) =
      if detail.digitsValue (d :: ds) ≤ 2147483647 then
        .ok ((detail.digitsValue (d :: ds) : Int), rest)
      else .error .LexerError := by
  have hexpo : detail.readExponentPart (d :: ds) rest = .ok (d :: ds, rest) := by
    cases rest with
    | nil => rfl
    | cons x tl =>
      obtain ⟨h1, h2⟩ := hexp x rfl
      simp only [detail.readExponentPart, h1, h2, or_self, if_false]
  have hstoi := stoi_digits d ds [] hd hds (by simp)
  rw [List.append_nil] at hstoi
  unfold detail.SplitAsNumber
  rw [readIntegerPart_digits d ds rest hd hds hzero hmax]
  simp only [hexpo, hstoi]
  split_ifs <;> rfl

theorem isDigit_not_blank (d : Char) (hd : d.isDigit = true) :
    d ≠ ' ' ∧ d ≠ TAB ∧ d ≠ LF ∧ d ≠ hash :=
  ⟨ne_of_isDigit d _ hd (by decide), ne_of_isDigit d _ hd (by decide),
    ne_of_isDigit d _ hd (by decide), ne_of_isDigit d _ hd (by decide)⟩

/-- The lexeme read at a digit is what `SplitAsNumber` reads there. -/
theorem lexeme_digit (st : LexerState) (d : Char) (rest : List Char) (hd : d.isDigit = true) :
    lexeme st d rest =
      match detail.SplitAsNumber (d :: rest) with
      | .error e => .error e
      | .ok (num, rest1) => .ok ({ st with tokens := st.tokens ++ [Token.Number num] }, rest1) := by
  have h1 : d ≠ dquote := ne_of_isDigit d _ hd (by decide)
  have h2 : d ≠ squote := ne_of_isDigit d _ hd (by decide)
  have h3 : d ≠ LF := ne_of_isDigit d _ hd (by decide)
  unfold lexeme
  simp only [h1, h2, h3, or_self, if_false, hd, if_true]

end parse

namespace parse

/-! ## Numbers with an exponent -/

theorem read_digits_run (k : Char) (ks rest : List Char) (hk : k.isDigit = true)
    (hks : ∀ x ∈ ks, x.isDigit = true)
    (hmax : ∀ x, rest.head? = some x → x.isDigit = false) :
    detail.read_digits (k :: (ks ++ rest)) = .ok (k :: ks, rest) := by
  have hall : ∀ x ∈ k :: ks, x.isDigit = true := by
    intro x hx
    rcases List.mem_cons.mp hx with rfl | hx
    · exact hk
    · exact hks x hx
  obtain ⟨htw, hdw⟩ := takeWhile_dropWhile_digits rest hmax (k :: ks) hall
  simp only [List.cons_append] at htw hdw
  simp only [detail.read_digits, hk, if_true, htw, hdw]

/-- The exponent part read by `SplitAsNumber`: the mark `e` or `E`, an optional sign and
a run of digits are taken into the text of the number. -/
theorem readExponentPart_run (parsed : List Char) (e : Char) (sign : List Char) (k : Char)
    (ks rest : List Char) (he : e = 'e' ∨ e = 'E')
    (hsign : sign = [] ∨ sign = ['+'] ∨ sign = ['-'])
    (hk : k.isDigit = true) (hks : ∀ x ∈ ks, x.isDigit = true)
    (hmax : ∀ x, rest.head? = some x → x.isDigit = false) :
    detail.readExponentPart parsed (e :: (sign ++ k :: (ks ++ rest)))
      = .ok (parsed ++ (e :: (sign ++ k :: ks)), rest) := by
  have hrun := read_digits_run k ks rest hk hks hmax
  have h1 : k ≠ '+' := ne_of_isDigit k _ hk (by decide)
  have h2 : k ≠ '-' := ne_of_isDigit k _ hk (by decide)
  rcases hsign with rfl | rfl | rfl
  · simp only [detail.readExponentPart, he, if_true, List.nil_append, h1, h2, or_self,
      if_false, hrun, Except.map, List.append_assoc, List.singleton_append]
  · simp only [detail.readExponentPart, he, if_true, List.singleton_append, true_or, hrun,
      Except.map, List.append_assoc, List.cons_append, List.nil_append]
  · simp only [detail.readExponentPart, he, if_true, List.singleton_append, or_true, hrun,
      Except.map, List.append_assoc, List.cons_append, List.nil_append]

/-- The exponent part read by `SplitAsNumber` fails when the mark `e` or `E` is not
followed by an optional sign and a digit. -/
theorem readExponentPart_no_digit (parsed : List Char) (e : Char) (after : List Char)
    (he : e = 'e' ∨ e = 'E')
    (hbad : ∀ (sign : List Char) (k : Char) (tail : List Char),
      sign = [] ∨ sign = ['+'] ∨ sign = ['-'] → after = sign ++ k :: tail →
        k.isDigit = false) :
    detail.readExponentPart parsed (e :: after) = .error .LexerError := by
  cases after with
  | nil => simp [detail.readExponentPart, he, detail.read_digits, Except.map]
  | cons c t =>
    by_cases hc : c = '+' ∨ c = '-'
    · cases t with
      | nil => simp [detail.readExponentPart, he, hc, detail.read_digits, Except.map]
      | cons k tail =>
        have hk : k.isDigit = false :=
          hbad [c] k tail (by rcases hc with rfl | rfl <;> simp) rfl
        simp [detail.readExponentPart, he, hc, detail.read_digits, hk, Except.map]
    · have hk : c.isDigit = false := hbad [] c t (Or.inl rfl) rfl
      simp [detail.readExponentPart, he, hc, detail.read_digits, hk, Except.map]

/-- The function `SplitAsNumber` at a run of digits followed by an exponent: the exponent
is read and `std::stoi` gives the value of the digits before it. -/
theorem SplitAsNumber_exponent (d : Char) (ds : List Char) (e : Char) (sign : List Char)
    (k : Char) (ks rest : List Char) (hd : d.isDigit = true)
    (hds : ∀ x ∈ ds, x.isDigit = true) (hzero : d = '0' → ds = [])
    (he : e = 'e' ∨ e = 'E') (hsign : sign = [] ∨ sign = ['+'] ∨ sign = ['-'])
    (hk : k.isDigit = true) (hks : ∀ x ∈ ks, x.isDigit = true)
    (hmax : ∀ x, rest.head? = some x → x.isDigit = false) :
    detail.SplitAsNumber (d :: ds ++ e :: (sign ++ k :: (ks ++ rest))) =
      if detail.digitsValue (d :: ds) ≤ 2147483647 then
        .ok ((detail.digitsValue (d :: ds) : Int), rest)
      else .error .LexerError := by
  have hne : e.isDigit = false := by rcases he with rfl | rfl <;> decide
  have hint := readIntegerPart_digits d ds (e :: (sign ++ k :: (ks ++ rest))) hd hds hzero
    (by intro x hx; simp only [List.head?_cons, Option.some.injEq] at hx; rw [← hx]; exact hne)
  have hexpo := readExponentPart_run (d :: ds) e sign k ks rest he hsign hk hks hmax
  have hstoi := stoi_digits d ds (e :: (sign ++ k :: ks)) hd hds
    (by intro x hx; simp only [List.head?_cons, Option.some.injEq] at hx; rw [← hx]; exact hne)
  unfold detail.SplitAsNumber
  rw [hint]
  simp only [hexpo, hstoi]
  split_ifs <;> rfl

/-- The function `SplitAsNumber` fails at a run of digits followed by `e` or `E` without an
optional sign and a digit after it. -/
theorem SplitAsNumber_no_exponent_digit (d : Char) (ds : List Char) (e : Char)
    (after : List Char) (hd : d.isDigit = true)
    (hds : ∀ x ∈ ds, x.isDigit = true) (hzero : d = '0' → ds = [])
    (he : e = 'e' ∨ e = 'E')
    (hbad : ∀ (sign : List Char) (k : Char) (tail : List Char),
      sign = [] ∨ sign = ['+'] ∨ sign = ['-'] → after = sign ++ k :: tail →
        k.isDigit = false) :
    detail.SplitAsNumber (d :: ds ++ e :: after) = .error .LexerError := by
  have hne : e.isDigit = false := by rcases he with rfl | rfl <;> decide
  have hint := readIntegerPart_digits d ds (e :: after) hd hds hzero
    (by intro x hx; simp only [List.head?_cons, Option.some.injEq] at hx; rw [← hx]; exact hne)
  unfold detail.SplitAsNumber
  rw [hint]
  simp only [readExponentPart_no_digit (d :: ds) e after he hbad]

/-- The literal `4294967296e1`, whose integer part is the digit run `4294967296`
followed by the exponent `e1`, is rejected with `LexerError`: no `Number` token with
the value of the integer part is produced. -/
theorem C39_exponent_after_large_integer_part :
    SplitStream "4294967296e1".toList = .error .LexerError ∧
    decimalValue "4294967296".toList = 4294967296 := by
  decide

/-- Claim C39, with the range of `int`. A numeric literal made of an integer part
`d :: ds` (the digit 0, or digits not starting with 0) whose decimal value is at most
2147483647, followed by `e` or `E`, an optional sign and the digits `k :: ks`: the
lexeme read at `d` consumes the whole literal and adds exactly one `Number` token
with the decimal value of the integer part alone; when the value of the integer
part is larger, the lexeme fails with `LexerError`.  And an integer part followed by
`e` or `E` without an optional sign and a digit after it makes the lexeme and
`SplitStream` fail with `LexerError`. -/
theorem C39_exponent_literal (d : Char) (ds : List Char) (e : Char) (st : LexerState)
    (hd : d.isDigit = true) (hds : ∀ x ∈ ds, x.isDigit = true) (hzero : d = '0' → ds = [])
    (he : e = 'e' ∨ e = 'E') :
    (∀ (sign : List Char) (k : Char) (ks rest : List Char),
      sign = [] ∨ sign = ['+'] ∨ sign = ['-'] →
      k.isDigit = true → (∀ x ∈ ks, x.isDigit = true) →
      (∀ x, rest.head? = some x → x.isDigit = false) →
      (decimalValue (d :: ds) ≤ 2147483647 →
        lexeme st d (ds ++ e :: (sign ++ k :: (ks ++ rest)))
          = .ok ({ st with tokens := st.tokens ++ [Token.Number (decimalValue (d :: ds))] },
                 rest) ∧
        (st.is_comment = false →
          body st d (ds ++ e :: (sign ++ k :: (ks ++ rest)))
            = .ok ({ indentBlock { st with stroke_not_empty := true } with
                      tokens := (indentBlock { st with stroke_not_empty := true }).tokens ++
                        [Token.Number (decimalValue (d :: ds))] },
                   rest))) ∧
      (2147483647 < decimalValue (d :: ds) →
        lexeme st d (ds ++ e :: (sign ++ k :: (ks ++ rest))) = .error .LexerError)) ∧
    (∀ (after : List Char),
      (∀ (sign : List Char) (k : Char) (tail : List Char),
        sign = [] ∨ sign = ['+'] ∨ sign = ['-'] → after = sign ++ k :: tail →
          k.isDigit = false) →
      lexeme st d (ds ++ e :: after) = .error .LexerError ∧
      (st.is_comment = false → run st (d :: (ds ++ e :: after)) = .error .LexerError) ∧
      (∀ input n, passes n initialState input = .ok (st, d :: (ds ++ e :: after)) →
        st.is_comment = false → SplitStream input = .error .LexerError)) := by
  constructor
  · intro sign k ks rest hsign hk hks hmax
    have hnum := SplitAsNumber_exponent d ds e sign k ks rest hd hds hzero he hsign hk hks hmax
    rw [digitsValue_eq_decimalValue, List.cons_append] at hnum
    constructor
    · intro hle
      rw [if_pos hle] at hnum
      have hlex : ∀ s : LexerState, lexeme s d (ds ++ e :: (sign ++ k :: (ks ++ rest)))
          = .ok ({ s with tokens := s.tokens ++ [Token.Number (decimalValue (d :: ds))] },
                 rest) := by
        intro s
        rw [lexeme_digit s d _ hd, hnum]
      refine ⟨hlex st, fun hcom => ?_⟩
      rw [body_content st d _ hcom (isDigit_not_blank d hd), hlex]
    · intro hgt
      rw [if_neg (by omega)] at hnum
      rw [lexeme_digit st d _ hd, hnum]
  · intro after hbad
    have hnum := SplitAsNumber_no_exponent_digit d ds e after hd hds hzero he hbad
    rw [List.cons_append] at hnum
    have hlex : ∀ s : LexerState, lexeme s d (ds ++ e :: after) = .error .LexerError := by
      intro s
      rw [lexeme_digit s d _ hd, hnum]
    have hbody : st.is_comment = false → body st d (ds ++ e :: after) = .error .LexerError := by
      intro hcom
      rw [body_content st d _ hcom (isDigit_not_blank d hd), hlex]
    refine ⟨hlex st, fun hcom => run_error_of_body _ _ _ _ (hbody hcom), ?_⟩
    intro input n hpass hcom
    rw [SplitStream_eq_run, run_of_passes n _ _ _ _ hpass]
    exact run_error_of_body _ _ _ _ (hbody hcom)

/-- An instance of C39: the literal `12E+34` before `x` gives the token `Number` of 12,
and `x = 1e` is rejected. -/
theorem C39_exponent_literal_witness :
    lexeme initialState '1' (['2'] ++ 'E' :: (['+'] ++ '3' :: (['4'] ++ ['x'])))
      = .ok ({ initialState with
                tokens := initialState.tokens ++ [Token.Number (decimalValue ['1', '2'])] },
             ['x']) ∧
    decimalValue ['1', '2'] = 12 ∧
    SplitStream "x = 1e".toList = .error .LexerError :=
  ⟨(((C39_exponent_literal '1' ['2'] 'E' initialState (by decide) (by decide) (by decide)
      (Or.inr rfl)).1 ['+'] '3' ['4'] ['x'] (Or.inr (Or.inl rfl)) (by decide) (by decide)
      (by decide)).1 (by decide)).1,
    by decide,
    ((C39_exponent_literal '1' [] 'e' _ (by decide) (by decide) (by decide)
      (Or.inl rfl)).2 [] (by
        intro sign k tail _ h
        rcases sign with _ | ⟨_, _⟩ <;> cases h)).2.2 "x = 1e".toList 4 rfl rfl⟩

end parse

namespace parse

/-! ## Special characters -/

theorem CheckSpecialCharCombination_iff (c d : Char) :
    detail.CheckSpecialCharCombination c d = true ↔
      (c = '=' ∧ d = '=') ∨ (c = '!' ∧ d = '=') ∨ (c = '<' ∧ d = '=') ∨
        (c = '>' ∧ d = '=') := by
  unfold detail.CheckSpecialCharCombination
  simp only [List.contains, List.elem_eq_mem, List.mem_cons, List.mem_singleton,
    decide_eq_true_eq, String.ext_iff, String.push, List.not_mem_nil, or_false]
  simp only [show "".data = [] from rfl, List.nil_append, List.cons_append,
    show "==".data = ['=', '='] from rfl, show "!=".data = ['!', '='] from rfl,
    show "<=".data = ['<', '='] from rfl, show ">=".data = ['>', '='] from rfl,
    List.cons.injEq, and_true]

theorem mem_operatorPairs_iff (c d : Char) (tok : Token) :
    (c, d, tok) ∈ operatorPairs ↔
      (c = '=' ∧ d = '=' ∧ tok = Token.Eq) ∨ (c = '!' ∧ d = '=' ∧ tok = Token.NotEq) ∨
        (c = '<' ∧ d = '=' ∧ tok = Token.LessOrEq) ∨
        (c = '>' ∧ d = '=' ∧ tok = Token.GreaterOrEq) := by
  simp [operatorPairs]

theorem special_not_other (c : Char) (hc : detail.CheckSpecialChar c = true) :
    c ≠ dquote ∧ c ≠ squote ∧ c ≠ LF ∧ c.isDigit = false ∧
      c ≠ ' ' ∧ c ≠ TAB ∧ c ≠ hash := by
  have hmem : c ∈ Special_Char := by
    simpa [detail.CheckSpecialChar, List.contains] using hc
  simp only [Special_Char, List.mem_cons, List.mem_singleton, List.not_mem_nil, or_false] at hmem
  rcases hmem with rfl | rfl | rfl | rfl | rfl | rfl | rfl | rfl | rfl | rfl | rfl | rfl | rfl <;>
    decide

/-- The lexeme read at a special character. -/
theorem lexeme_special (st : LexerState) (c : Char) (rest : List Char)
    (hc : detail.CheckSpecialChar c = true) :
    lexeme st c rest =
      match rest with
      | [] => .ok ({ st with tokens := st.tokens ++ [Token.Char c] }, [])
      | next_ch :: rest1 =>
        if detail.CheckSpecialCharCombination c next_ch = true then
          .ok ({ st with tokens := st.tokens ++ [DefineToken (("".push c).push next_ch)] },
            rest1)
        else
          .ok ({ st with tokens := st.tokens ++ [Token.Char c] }, next_ch :: rest1) := by
  obtain ⟨h1, h2, h3, h4, _⟩ := special_not_other c hc
  unfold lexeme
  simp only [h1, h2, h3, or_self, if_false, h4, Bool.false_eq_true, hc, if_true]

end parse

namespace parse

/-! ## Words -/

theorem ne_of_isWordChar (x c : Char) (hx : isWordChar x) (hc : ¬ isWordChar c) : x ≠ c := by
  intro e
  rw [e] at hx
  exact hc hx

theorem isWordChar_not_delimiter (x : Char) (hx : isWordChar x) :
    ¬ (x = ' ' ∨ x = LF ∨ detail.CheckSpecialChar x = true ∨ x = hash) := by
  rintro (h | h | h | h)
  · exact ne_of_isWordChar x _ hx (by decide) h
  · exact ne_of_isWordChar x _ hx (by decide) h
  · have hmem : x ∈ Special_Char := by
      simpa [detail.CheckSpecialChar, List.contains] using h
    simp only [Special_Char, List.mem_cons, List.mem_singleton, List.not_mem_nil,
      or_false] at hmem
    rcases hmem with h | h | h | h | h | h | h | h | h | h | h | h | h <;>
      exact ne_of_isWordChar x _ hx (by decide) h
  · exact ne_of_isWordChar x _ hx (by decide) h

/-- The loop of `SplitAsStringWithoutQuotes` reads a run of word characters to its end
when none of the texts gathered on the way is in the table `KeyWords`. -/
theorem SplitAsStringWithoutQuotesLoop_word (rest : List Char)
    (hrest : ∀ x, rest.head? = some x → isDelimiter x) :
    ∀ (cs : List Char) (s : String), (∀ x ∈ cs, isWordChar x) →
      (∀ n < cs.length, String.mk (s.data ++ cs.take n) ∉ KeyWords) →
      detail.SplitAsStringWithoutQuotesLoop (cs ++ rest) s
        = (String.mk (s.data ++ cs), rest)
  | [], s, _, _ => by
    cases rest with
    | nil => simp [detail.SplitAsStringWithoutQuotesLoop]
    | cons x tl =>
      have hx : x = ' ' ∨ x = LF ∨ detail.CheckSpecialChar x = true ∨ x = hash := hrest x rfl
      simp [detail.SplitAsStringWithoutQuotesLoop, hx]
  | ch :: cs, s, hcs, hpre => by
    have hch := isWordChar_not_delimiter ch (hcs ch (List.mem_cons_self _ _))
    have hkey : detail.CheckKeyWord s = false := by
      have h0 := hpre 0 (by simp)
      simp only [List.take_zero, List.append_nil] at h0
      simpa [detail.CheckKeyWord, List.contains] using h0
    have ih := SplitAsStringWithoutQuotesLoop_word rest hrest cs (s.push ch)
      (fun x hx => hcs x (List.mem_cons_of_mem _ hx))
      (by
        intro n hn
        have h1 := hpre (n + 1) (by simpa using hn)
        simpa [String.push] using h1)
    rw [List.cons_append, detail.SplitAsStringWithoutQuotesLoop.eq_def]
    simp only [hch, if_false, hkey, Bool.false_eq_true]
    rw [ih]
    simp [String.push]

theorem word_ne_of_head (c : Char) (cs : List Char) (s : String) (x : Char) (xs : List Char)
    (hs : s.data = x :: xs) (hx : c ≠ x) : String.mk (c :: cs) ≠ s := by
  intro e
  have h := congrArg String.data e
  rw [hs] at h
  exact hx (List.cons.inj h).1

/-- The function `DefineToken` on a word that is no keyword spelling. -/
theorem DefineToken_word (c : Char) (cs : List Char) (hc : isWordChar c)
    (hkey : String.mk (c :: cs) ∉ keywordSpellings) :
    DefineToken (String.mk (c :: cs)) = Token.Id (String.mk (c :: cs)) := by
  simp only [keywordSpellings, List.mem_cons, List.mem_singleton, List.not_mem_nil, or_false,
    not_or] at hkey
  obtain ⟨k1, k2, k3, k4, k5, k6, k7, k8, k9, k10, k11, k12⟩ := hkey
  have n1 : String.mk (c :: cs) ≠ "\n" :=
    word_ne_of_head c cs _ LF [] rfl (ne_of_isWordChar c _ hc (by decide))
  have n2 : String.mk (c :: cs) ≠ "==" :=
    word_ne_of_head c cs _ '=' ['='] rfl (ne_of_isWordChar c _ hc (by decide))
  have n3 : String.mk (c :: cs) ≠ "!=" :=
    word_ne_of_head c cs _ '!' ['='] rfl (ne_of_isWordChar c _ hc (by decide))
  have n4 : String.mk (c :: cs) ≠ "<=" :=
    word_ne_of_head c cs _ '<' ['='] rfl (ne_of_isWordChar c _ hc (by decide))
  have n5 : String.mk (c :: cs) ≠ ">=" :=
    word_ne_of_head c cs _ '>' ['='] rfl (ne_of_isWordChar c _ hc (by decide))
  simp only [DefineToken, k1, k2, k3, k4, k5, k6, k7, k8, k9, k10, k11, k12, n1, n2, n3, n4, n5,
    if_false]

/-- The lexeme read at the first character of a word. -/
theorem lexeme_word (st : LexerState) (c : Char) (rest : List Char) (hc : isWordChar c)
    (hcd : c.isDigit = false) :
    lexeme st c rest =
      .ok ({ st with tokens := st.tokens ++
              [DefineToken (detail.SplitAsStringWithoutQuotes (c :: rest)).1] },
           (detail.SplitAsStringWithoutQuotes (c :: rest)).2) := by
  have h1 : c ≠ dquote := ne_of_isWordChar c _ hc (by decide)
  have h2 : c ≠ squote := ne_of_isWordChar c _ hc (by decide)
  have h3 : c ≠ LF := ne_of_isWordChar c _ hc (by decide)
  have h4 : ¬ detail.CheckSpecialChar c = true :=
    fun h => isWordChar_not_delimiter c hc (Or.inr (Or.inr (Or.inl h)))
  unfold lexeme
  simp only [h1, h2, h3, or_self, if_false, hcd, Bool.false_eq_true, h4]

/-- Claim C34. The run of an identifier does not stop at the keyword spellings written
in lower case: the table `KeyWords` consulted by `SplitAsStringWithoutQuotes` holds
the capitalised names of the token kinds.  Each of `class`, `return`, `if`, `else`,
`def`, `print`, `and`, `or`, `not` followed directly by `y` is one `Id`; the run
stops after `None`, `True` and `False`, and after the text `Class`, which is no
keyword. -/
theorem C34_lower_case_keyword_does_not_stop_the_run :
    SplitStream "classy".toList = .ok [Token.Id "classy", Token.Newline, Token.Eof] ∧
    (∀ k ∈ ["class", "return", "if", "else", "def", "print", "and", "or", "not"],
      detail.CheckKeyWord k = false ∧
      SplitStream (k ++ "y").toList = .ok [Token.Id (k ++ "y"), Token.Newline, Token.Eof]) ∧
    SplitStream "Nonex".toList
      = .ok [Token.None, Token.Id "x", Token.Newline, Token.Eof] ∧
    SplitStream "Truex".toList
      = .ok [Token.True, Token.Id "x", Token.Newline, Token.Eof] ∧
    SplitStream "Falsex".toList
      = .ok [Token.False, Token.Id "x", Token.Newline, Token.Eof] ∧
    SplitStream "Classy".toList
      = .ok [Token.Id "Class", Token.Id "y", Token.Newline, Token.Eof] := by
  decide

/-- Claim C35 at the claim's own examples. The whole words `Order`, `Printer` and `Notify`
are each lexed to two `Id` tokens: the run stops after `Or`, `Print` and `Not`, which
are entries of the table `KeyWords` and no keyword spellings of the language.  The
whole word `Nonempty` is lexed to `None` and `Id mpty`. -/
theorem C35_capitalised_word_is_split :
    SplitStream "Order".toList
      = .ok [Token.Id "Or", Token.Id "der", Token.Newline, Token.Eof] ∧
    SplitStream "Printer".toList
      = .ok [Token.Id "Print", Token.Id "er", Token.Newline, Token.Eof] ∧
    SplitStream "Notify".toList
      = .ok [Token.Id "Not", Token.Id "ify", Token.Newline, Token.Eof] ∧
    (∀ k ∈ ["Or", "Print", "Not"], detail.CheckKeyWord k = true ∧ k ∉ keywordSpellings) ∧
    SplitStream "Nonempty".toList
      = .ok [Token.None, Token.Id "mpty", Token.Newline, Token.Eof] := by
  decide

/-- Where words stay whole. A whole word `c :: cs` (word characters, the first no
digit) that ends at a space, a line feed, a special character, `#` or the end of the
input, and none of whose proper beginnings is an entry of the table `KeyWords`: the
lexeme read at `c` adds exactly one token and leaves what follows the word unread;
the token is the keyword token when the word is one of the twelve keyword spellings
and `Id` with exactly the text of the word otherwise. -/
theorem word_without_KeyWords_beginning_is_one_token (c : Char) (cs rest : List Char)
    (st : LexerState)
    (hc : isWordChar c) (hcd : c.isDigit = false) (hcs : ∀ x ∈ cs, isWordChar x)
    (hrest : ∀ x, rest.head? = some x → isDelimiter x)
    (hpre : ∀ n < (c :: cs).length, String.mk ((c :: cs).take n) ∉ KeyWords) :
    lexeme st c (cs ++ rest)
      = .ok ({ st with tokens := st.tokens ++ [DefineToken (String.mk (c :: cs))] }, rest) ∧
    (st.is_comment = false →
      body st c (cs ++ rest)
        = .ok ({ indentBlock { st with stroke_not_empty := true } with
                  tokens := (indentBlock { st with stroke_not_empty := true }).tokens ++
                    [DefineToken (String.mk (c :: cs))] },
               rest)) ∧
    (∀ tok, (String.mk (c :: cs), tok) ∈ keywordTokens →
      DefineToken (String.mk (c :: cs)) = tok) ∧
    (String.mk (c :: cs) ∉ keywordSpellings →
      DefineToken (String.mk (c :: cs)) = Token.Id (String.mk (c :: cs))) := by
  have hall : ∀ x ∈ c :: cs, isWordChar x := by
    intro x hx
    rcases List.mem_cons.mp hx with rfl | hx
    · exact hc
    · exact hcs x hx
  have hsplit : detail.SplitAsStringWithoutQuotes (c :: (cs ++ rest))
      = (String.mk (c :: cs), rest) := by
    have h := SplitAsStringWithoutQuotesLoop_word rest hrest (c :: cs) "" hall
      (by simpa using hpre)
    simpa [detail.SplitAsStringWithoutQuotes] using h
  have hlex : ∀ s : LexerState, lexeme s c (cs ++ rest)
      = .ok ({ s with tokens := s.tokens ++ [DefineToken (String.mk (c :: cs))] }, rest) := by
    intro s
    rw [lexeme_word s c _ hc hcd, hsplit]
  have hblank : c ≠ ' ' ∧ c ≠ TAB ∧ c ≠ LF ∧ c ≠ hash :=
    ⟨ne_of_isWordChar c _ hc (by decide), ne_of_isWordChar c _ hc (by decide),
      ne_of_isWordChar c _ hc (by decide), ne_of_isWordChar c _ hc (by decide)⟩
  refine ⟨hlex st, fun hcom => ?_, ?_, DefineToken_word c cs hc⟩
  · rw [body_content st c _ hcom hblank, hlex]
  · intro tok hmem
    have hkw : ∀ p ∈ keywordTokens, DefineToken p.1 = p.2 := by decide
    exact hkw _ hmem

end parse

namespace parse

/-! ## The read of the last token at the end of the input -/

theorem countColumns_stroke (k : Nat) (st : LexerState) :
    (countColumns k st).stroke_not_empty = st.stroke_not_empty := by
  unfold countColumns
  split <;> rfl

/-- An input of blanks only, read from a state without tokens and with no indented line
before: when a tab has been read, the branch for the end of the input reads the last
token of the empty vector. -/
theorem run_blank_input :
    ∀ (ws : List Char) (st : LexerState), (∀ x ∈ ws, x = ' ' ∨ x = TAB) →
      st.tokens = [] → st.prev_count_space = 0 → st.is_comment = false →
      run st ws =
        if st.stroke_not_empty = true ∨ TAB ∈ ws then .error .out_of_bounds
        else .ok [Token.Eof]
  | [], st, _, htok, hprev, _ => by
    rw [run_nil]
    unfold atEnd
    simp only [hprev, Nat.not_lt_zero, if_false, htok, List.getLast?_nil, List.not_mem_nil,
      or_false, List.nil_append]
  | c :: ws, st, hws, htok, hprev, hcom => by
    have hws2 : ∀ x ∈ ws, x = ' ' ∨ x = TAB := fun x hx => hws x (List.mem_cons_of_mem _ hx)
    rcases hws c (List.mem_cons_self _ _) with rfl | rfl
    · obtain ⟨_, f2, f3, f4⟩ := countColumns_fields 1 st
      rw [run_of_body st _ ' ' ws ws (body_space st ws hcom),
        run_blank_input ws (countColumns 1 st) hws2 (f4.trans htok) (f3.trans hprev)
          (f2.trans hcom), countColumns_stroke]
      have hne : TAB ≠ ' ' := by decide
      simp only [List.mem_cons, hne, false_or]
    · obtain ⟨_, f2, f3, f4⟩ := countColumns_fields 2 { st with stroke_not_empty := true }
      rw [run_of_body st _ TAB ws ws (body_tab st ws hcom),
        run_blank_input ws (countColumns 2 { st with stroke_not_empty := true }) hws2
          (f4.trans htok) (f3.trans hprev) (f2.trans hcom), countColumns_stroke]
      simp

/-- Claim C38. On an input made of tabs only, the single tab included, `SplitStream`
arrives at the end of the input with the flag `stroke_not_empty` set and no token
pushed: the read `tokens[tokens.size() - 1]` is out of bounds.  An input of one
space does not set the flag and gives `Eof`. -/
theorem C38_tabs_only_input_reads_out_of_bounds :
    SplitStream [TAB] = .error .out_of_bounds ∧
    (∀ n : Nat, SplitStream (List.replicate (n + 1) TAB) = .error .out_of_bounds) ∧
    SplitStream [' ', TAB, ' '] = .error .out_of_bounds ∧
    SplitStream [' '] = .ok [Token.Eof] := by
  refine ⟨by decide, fun n => ?_, by decide, by decide⟩
  rw [SplitStream_eq_run, run_blank_input _ initialState
    (fun x hx => Or.inr (List.eq_of_mem_replicate hx)) rfl rfl rfl]
  simp [List.replicate_succ]

end parse

namespace parse

/-! ## The cursor over the tokens -/

theorem afterNextTokens_succ :
    ∀ (k : Nat) (lexer : Lexer),
      afterNextTokens (k + 1) lexer = (afterNextTokens k lexer).NextToken.2
  | 0, _ => rfl
  | k + 1, lexer => by
    show afterNextTokens (k + 1) lexer.NextToken.2 = _
    rw [afterNextTokens_succ k lexer.NextToken.2]
    rfl

/-- The value returned by `NextToken` is the value `CurrentToken` returns on the lexer it
leaves. -/
theorem NextToken_returns_current (lexer : Lexer) :
    lexer.NextToken.1 = lexer.NextToken.2.CurrentToken := by
  unfold Lexer.NextToken Lexer.CurrentToken
  split_ifs <;> simp_all

/-- The lexer after `k` calls of `NextToken` from the first token: the index is `k`,
held at the last token. -/
theorem afterNextTokens_state (toks : List Token) (hne : toks ≠ []) :
    ∀ k : Nat, afterNextTokens k (⟨toks, 0⟩ : Lexer)
      = (⟨toks, min k (toks.length - 1)⟩ : Lexer)
  | 0 => by simp [afterNextTokens]
  | k + 1 => by
    have hlen : toks.length ≠ 0 := by
      intro h
      exact hne (List.length_eq_zero.mp h)
    rw [afterNextTokens_succ, afterNextTokens_state toks hne k]
    unfold Lexer.NextToken
    by_cases hk : k ≥ toks.length - 1
    · have h1 : min k (toks.length - 1) = toks.length - 1 := by omega
      have h2 : min (k + 1) (toks.length - 1) = toks.length - 1 := by omega
      simp only [h1, h2, ge_iff_le, le_refl, or_true, if_true]
    · have h1 : min k (toks.length - 1) = k := by omega
      have h2 : min (k + 1) (toks.length - 1) = k + 1 := by omega
      have h3 : ¬ (toks.length = 0 ∨ k ≥ toks.length - 1) := by omega
      simp only [h1, h2, h3, if_false]

/-- Claim C37. For an accepted input with the tokens `toks`, whose last one is `Eof`,
and the lexer as its constructor leaves it: after `k` calls of `NextToken` the
function `CurrentToken` returns the token at index `min k (n - 1)`; the value
returned by `NextToken` is the value `CurrentToken` returns on the lexer it leaves;
and once `CurrentToken` is `Eof`, `NextToken` returns `Eof` and leaves the lexer as it
was.  `CurrentToken` is a `const` member: it is a function of the lexer and gives no
new lexer, so it cannot move the cursor. -/
theorem C37_cursor_over_tokens (input : List Char) (toks : List Token)
    (h : SplitStream input = .ok toks) :
    Lexer.make input = .ok (⟨toks, 0⟩ : Lexer) ∧
    toks[toks.length - 1]? = some Token.Eof ∧
    ∀ k : Nat, ∃ t : Token,
      toks[min k (toks.length - 1)]? = some t ∧
      (afterNextTokens k (⟨toks, 0⟩ : Lexer)).CurrentToken = some t ∧
      (afterNextTokens k (⟨toks, 0⟩ : Lexer)).NextToken.1
        = (afterNextTokens (k + 1) (⟨toks, 0⟩ : Lexer)).CurrentToken ∧
      (afterNextTokens k (⟨toks, 0⟩ : Lexer)).NextToken.2
        = afterNextTokens (k + 1) (⟨toks, 0⟩ : Lexer) ∧
      (t = Token.Eof →
        (afterNextTokens k (⟨toks, 0⟩ : Lexer)).NextToken
          = (some Token.Eof, afterNextTokens k (⟨toks, 0⟩ : Lexer))) := by
  obtain ⟨added, h1, h2⟩ := loop_tokens _ _ _ _ h
  simp only [initialState, List.nil_append] at h1
  have hne : toks ≠ [] := by rw [h1]; simp
  have hlen : toks.length = added.length + 1 := by rw [h1]; simp
  have hlast : toks[toks.length - 1]? = some Token.Eof := by
    rw [hlen, h1]
    simp
  refine ⟨by simp only [Lexer.make, h], hlast, fun k => ?_⟩
  have hin : min k (toks.length - 1) < toks.length := by omega
  obtain ⟨t, ht⟩ : ∃ t, toks[min k (toks.length - 1)]? = some t :=
    ⟨toks[min k (toks.length - 1)], List.getElem?_eq_getElem hin⟩
  refine ⟨t, ht, ?_, ?_, (afterNextTokens_succ k _).symm, ?_⟩
  · rw [afterNextTokens_state toks hne k]
    unfold Lexer.CurrentToken
    simp only [ite_self, ht]
  · rw [afterNextTokens_succ]
    exact NextToken_returns_current _
  · intro hte
    have hidx : min k (toks.length - 1) = toks.length - 1 := by
      by_contra hlt
      have hlt2 : min k (toks.length - 1) < added.length := by omega
      have hget : added[min k (toks.length - 1)]? = some Token.Eof := by
        have hget2 : (added ++ [Token.Eof])[min k (toks.length - 1)]? = some t := h1 ▸ ht
        rw [List.getElem?_append_left hlt2, hte] at hget2
        exact hget2
      exact h2 (List.mem_iff_getElem?.mpr ⟨_, hget⟩)
    rw [afterNextTokens_state toks hne k, hidx]
    unfold Lexer.NextToken
    simp only [ge_iff_le, le_refl, or_true, if_true, hlast]

/-- An instance of C37: over the tokens of `x = 1` the cursor goes through `Id x`,
`Char =`, `Number 1`, `Newline` and stays on `Eof`. -/
theorem C37_cursor_over_tokens_witness :
    SplitStream "x = 1".toList
      = .ok [Token.Id "x", Token.Char '=', Token.Number 1, Token.Newline, Token.Eof] ∧
    (∃ t : Token,
      [Token.Id "x", Token.Char '=', Token.Number 1, Token.Newline, Token.Eof][min 7
          ([Token.Id "x", Token.Char '=', Token.Number 1, Token.Newline,
            Token.Eof].length - 1)]? = some t ∧
      (afterNextTokens 7 (⟨[Token.Id "x", Token.Char '=', Token.Number 1, Token.Newline,
        Token.Eof], 0⟩ : Lexer)).CurrentToken = some t) :=
  ⟨by decide,
    let ⟨t, h1, h2, _⟩ := (C37_cursor_over_tokens "x = 1".toList
      [Token.Id "x", Token.Char '=', Token.Number 1, Token.Newline, Token.Eof]
      (by decide)).2.2 7
    ⟨t, h1, h2⟩⟩

end parse

namespace runtime

/-! ## The instance held by a `NewInstance` node -/

theorem EvaluatedInOrder_length
    (exec : Statement → Closure → Context → Outcome ObjectHolder)
    (args : List Statement) (values : List ObjectHolder)
    (closure closure1 : Closure) (context context1 : Context)
    (h : EvaluatedInOrder exec args values closure context closure1 context1) :
    values.length = args.length := by
  induction h with
  | nil closure context => rfl
  | cons st rest value values closure closure1 closure2 context context1 context2 _ _ ih =>
    simp only [List.length_cons, ih]

theorem lookup_setFields (address : Nat) (fields : Closure) :
    ∀ (instances : List (Nat × Closure)),
      List.lookup address (setFields instances address fields) = some fields
  | [] => by simp [setFields, List.lookup]
  | (a, f) :: rest => by
    by_cases h : a = address
    · simp [setFields, h, List.lookup]
    · have hb : (address == a) = false := by
        simpa using fun e : address = a => h e.symm
      simp only [setFields, h, if_false, List.lookup, hb]
      exact lookup_setFields address fields rest

/-- The table `Fields()` of an instance after an assignment to one of its fields. -/
theorem Fields_setField (context : Context) (address : Nat) (field_name : String)
    (value : ObjectHolder) :
    (context.setField address field_name value).Fields address
      = (context.Fields address).set field_name value := by
  simp only [Context.setField, Context.Fields, lookup_setFields, Option.getD_some]

/-- Whatever a `NewInstance` node returns is the instance that lives in the node. -/
theorem Execute_NewInstance_value (fuel : Nat) (address : Nat) (cls : Class)
    (args : List Statement) (closure closure2 : Closure) (context context2 : Context)
    (v : ObjectHolder)
    (h : Execute (fuel + 1) (.NewInstance address cls args) closure context
      = .ok v closure2 context2) :
    v = .ClassInstance address cls := by
  rw [Execute_NewInstance] at h
  split at h
  · cases h1 : executeArgs (Execute fuel) args closure context with
    | ok actual closure1 context1 =>
      rw [h1] at h
      simp only [Outcome.bind] at h
      cases h2 : Call (Execute fuel) address cls "__init__" actual closure1 context1 with
      | ok value closure3 context3 =>
        rw [h2] at h
        simp only [Outcome.ok.injEq] at h
        exact h.1.symm
      | thrown what closure3 context3 => rw [h2] at h; cases h
      | undefined => rw [h2] at h; cases h
      | out_of_fuel => rw [h2] at h; cases h
    | thrown what closure1 context1 => rw [h1] at h; cases h
    | undefined => rw [h1] at h; cases h
    | out_of_fuel => rw [h1] at h; cases h
  · simp only [Outcome.ok.injEq] at h
    exact h.1.symm

/-- Claim C40. Every execution of a `NewInstance` node that gives a value gives the
holder of the one instance that lives in the node, whatever the closure and the
context.  When the class resolves no `__init__` for the arguments, an execution that
follows an assignment to a field of that instance gives the same instance and
leaves the field as assigned.  When it resolves one, each execution evaluates the
arguments and runs the body of `__init__` with `self` bound to that same instance,
in the context the earlier executions left. -/
theorem C40_NewInstance_shares_one_instance (fuel : Nat) (address : Nat) (cls : Class)
    (args : List Statement) (closure : Closure) (context : Context) :
    (∀ v closure2 context2,
      Execute (fuel + 1) (.NewInstance address cls args) closure context
          = .ok v closure2 context2 →
        v = .ClassInstance address cls) ∧
    ((¬ ∃ m, cls.GetMethod "__init__" = some m ∧ m.formal_params.length = args.length) →
      ∀ field_name value,
        Execute (fuel + 1) (.NewInstance address cls args) closure
            (context.setField address field_name value)
          = .ok (.ClassInstance address cls) closure
              (context.setField address field_name value) ∧
        ((context.setField address field_name value).Fields address).find field_name
          = some value) ∧
    (∀ m actual closure1 context1 value closure2 context2,
      cls.GetMethod "__init__" = some m → m.formal_params.length = args.length →
      EvaluatedInOrder (Execute fuel) args actual closure context closure1 context1 →
      Execute fuel m.body
          (bindParams m.formal_params actual [("self", .ClassInstance address cls)]) context1
        = .ok value closure2 context2 →
      Execute (fuel + 1) (.NewInstance address cls args) closure context
        = .ok (.ClassInstance address cls) closure1 context2) := by
  refine ⟨fun v closure2 context2 h => Execute_NewInstance_value _ _ _ _ _ _ _ _ _ h, ?_, ?_⟩
  · intro hno field_name value
    have hm : HasMethod cls "__init__" args.length = false := by
      cases hc : HasMethod cls "__init__" args.length with
      | false => rfl
      | true => exact absurd ((HasMethod_eq_true_iff _ _ _).mp hc) hno
    refine ⟨?_, ?_⟩
    · rw [Execute_NewInstance]
      simp [hm]
    · rw [Fields_setField, Closure.find_set]
      simp
  · intro m actual closure1 context1 value closure2 context2 hget hlen hargs hbody
    have hm : HasMethod cls "__init__" args.length = true :=
      (HasMethod_eq_true_iff _ _ _).mpr ⟨m, hget, hlen⟩
    have hlen2 := EvaluatedInOrder_length _ _ _ _ _ _ _ hargs
    have hm2 : HasMethod cls "__init__" actual.length = true := by rw [hlen2]; exact hm
    have h := executeArgs_of_EvaluatedInOrder _ _ _ _ _ _ _ hargs
    rw [Execute_NewInstance]
    simp only [hm, if_true, h, Outcome.bind, Call, hm2, Bool.true_eq_false, if_false, hget, hbody]

/-- An instance of C40: the node `Cell(n)` run with `n` = 7 after it has run with `n` = 5
gives the instance at the same address and `__init__` overwrites the field `value`
of that instance: the context holds one instance, with `value` = 7. -/
theorem C40_NewInstance_shares_one_instance_witness :
    Execute 3 (.NewInstance 1 exampleCell [.VariableValue "n" []]) [("n", .Number 5)]
        emptyContext
      = .ok (.ClassInstance 1 exampleCell) [("n", .Number 5)]
          { output := "", instances := [(1, [("value", .Number 5)])] } ∧
    Execute 3 (.NewInstance 1 exampleCell [.VariableValue "n" []]) [("n", .Number 7)]
        { output := "", instances := [(1, [("value", .Number 5)])] }
      = .ok (.ClassInstance 1 exampleCell) [("n", .Number 7)]
          { output := "", instances := [(1, [("value", .Number 7)])] } :=
  ⟨rfl,
    (C40_NewInstance_shares_one_instance 2 1 exampleCell [.VariableValue "n" []]
      [("n", .Number 7)] { output := "", instances := [(1, [("value", .Number 5)])] }).2.2
      (.mk "__init__" ["v"] (.FieldAssignment "self" [] "value" (.VariableValue "v" [])))
      [.Number 7] [("n", .Number 7)] { output := "", instances := [(1, [("value", .Number 5)])] }
      (.Number 7) _ { output := "", instances := [(1, [("value", .Number 7)])] } rfl rfl
      (.cons _ _ _ _ _ _ _ _ _ _ rfl (.nil _ _)) rfl⟩

end runtime

namespace parse

/-! ## From one pass of the loop to the tokens of `SplitStream` -/

/-- When the loop of `SplitStream` arrives at a character and the pass that starts there
ends in the state `st1`, the result of `SplitStream` is the result of the loop
continued from `st1`; the tokens of an accepted input are those of `st1`, the tokens
of the later passes and `Eof`. -/
theorem SplitStream_through_pass (input : List Char) (n : Nat) (st st1 : LexerState)
    (c : Char) (rest rest1 : List Char)
    (hpass : passes n initialState input = .ok (st, c :: rest))
    (hbody : body st c rest = .ok (st1, rest1)) :
    SplitStream input = run st1 rest1 ∧
    ∀ toks, SplitStream input = .ok toks →
      ∃ added, toks = st1.tokens ++ added ++ [Token.Eof] ∧ Token.Eof ∉ added := by
  have h1 : SplitStream input = run st1 rest1 := by
    rw [SplitStream_eq_run, run_of_passes n _ _ _ _ hpass, run_of_body _ _ _ _ _ hbody]
  refine ⟨h1, fun toks h => ?_⟩
  rw [h1] at h
  exact loop_tokens _ _ _ _ h

/-- An input that is one lexeme, read by the first pass: the tokens are the token of the
lexeme, `Newline` and `Eof`. -/
theorem SplitStream_single_lexeme (c : Char) (rest : List Char) (tok : Token)
    (hbody : body initialState c rest
      = .ok ({ indentBlock { initialState with stroke_not_empty := true } with
                tokens := (indentBlock { initialState with stroke_not_empty := true }).tokens ++
                  [tok] },
             []))
    (htok : tok ≠ Token.Newline) :
    SplitStream (c :: rest) = .ok [tok, Token.Newline, Token.Eof] := by
  rw [SplitStream_eq_run, run_of_body _ _ _ _ _ hbody, run_nil]
  simp [atEnd, indentBlock, initialState, pushPerTwoColumns, htok]

/-! ## String literals -/

/-- Claim C30. For a literal opened by the quote `q` whose body is made of characters
other than `q`, the backslash and the line breaks, and of the escapes `n`, `t`,
single quote and double quote: `SplitAsStringInQuotes` returns the body with each
escape replaced (line feed, tab, the quote) and every other character kept, and
leaves the input after the closing `q`; the pass of `SplitStream` that starts at the
opening quote adds exactly one `String` token with that value.  For every input in
which the loop arrives at the opening quote outside a comment, `SplitStream` goes
on after the closing quote with that token added, and the tokens of an accepted
input hold it right after the tokens of the text before the literal; the literal
alone is lexed to its `String` token, `Newline` and `Eof`. -/
theorem C30_string_literal (q : Char) (items : List StringItem) (rest : List Char)
    (st : LexerState) (hq : q = squote ∨ q = dquote)
    (hitems : ∀ item ∈ items, item.Allowed q) :
    detail.SplitAsStringInQuotes (q :: (sourceOf items ++ q :: rest)) q
      = .ok (String.mk (items.map StringItem.value), rest) ∧
    lexeme st q (sourceOf items ++ q :: rest)
      = .ok ({ st with
                tokens := st.tokens ++ [Token.String (String.mk (items.map StringItem.value))] },
             rest) ∧
    (st.is_comment = false →
      body st q (sourceOf items ++ q :: rest)
        = .ok ({ indentBlock { st with stroke_not_empty := true } with
                  tokens := (indentBlock { st with stroke_not_empty := true }).tokens ++
                    [Token.String (String.mk (items.map StringItem.value))] },
               rest)) ∧
    (∀ input n, passes n initialState input = .ok (st, q :: (sourceOf items ++ q :: rest)) →
      st.is_comment = false →
      SplitStream input
        = run { indentBlock { st with stroke_not_empty := true } with
                tokens := (indentBlock { st with stroke_not_empty := true }).tokens ++
                  [Token.String (String.mk (items.map StringItem.value))] } rest ∧
      ∀ toks, SplitStream input = .ok toks →
        ∃ added, toks = (indentBlock { st with stroke_not_empty := true }).tokens ++
            [Token.String (String.mk (items.map StringItem.value))] ++ added ++ [Token.Eof] ∧
          Token.Eof ∉ added) ∧
    SplitStream (q :: (sourceOf items ++ [q]))
      = .ok [Token.String (String.mk (items.map StringItem.value)), Token.Newline,
          Token.Eof] := by
  have hb : q ≠ backslash := by
    rcases hq with rfl | rfl <;> decide
  have hsplit : ∀ tl : List Char,
      detail.SplitAsStringInQuotes (q :: (sourceOf items ++ q :: tl)) q
        = .ok (String.mk (items.map StringItem.value), tl) := by
    intro tl
    unfold detail.SplitAsStringInQuotes
    rw [detail.SplitAsStringInQuotesLoop.eq_def]
    simp only [Bool.false_eq_true, and_false, if_false, and_self, if_true]
    rw [SplitAsStringInQuotesLoop_items q hb tl items "" hitems]
    simp
  have hlex : ∀ (s : LexerState) (tl : List Char), lexeme s q (sourceOf items ++ q :: tl)
      = .ok ({ s with
                tokens := s.tokens ++ [Token.String (String.mk (items.map StringItem.value))] },
             tl) := by
    intro s tl
    have hor : q = dquote ∨ q = squote := hq.symm
    unfold lexeme
    simp only [hor, if_true, hsplit]
  have hc : q ≠ ' ' ∧ q ≠ TAB ∧ q ≠ LF ∧ q ≠ hash := by
    rcases hq with rfl | rfl <;> decide
  have hbody : ∀ (s : LexerState) (tl : List Char), s.is_comment = false →
      body s q (sourceOf items ++ q :: tl)
        = .ok ({ indentBlock { s with stroke_not_empty := true } with
                  tokens := (indentBlock { s with stroke_not_empty := true }).tokens ++
                    [Token.String (String.mk (items.map StringItem.value))] },
               tl) := by
    intro s tl hcom
    rw [body_content s q _ hcom hc, hlex]
  refine ⟨hsplit rest, hlex st rest, hbody st rest, ?_, ?_⟩
  · intro input n hpass hcom
    exact SplitStream_through_pass input n st _ q _ rest hpass (hbody st rest hcom)
  · exact SplitStream_single_lexeme q _ _ (hbody initialState [] rfl) (by simp)

/-- An instance of C30: the literal written with single quotes around `a`, an escaped
single quote, a double quote, a space, `#` and the escape `n` is lexed to the token
`String` of these six characters, `Newline` and `Eof`. -/
theorem C30_string_literal_witness :
    SplitStream
        (squote :: (sourceOf [.plain 'a', .escape squote, .plain dquote, .plain ' ',
          .plain hash, .escape 'n'] ++ [squote]))
      = .ok [Token.String (String.mk (List.map StringItem.value [.plain 'a', .escape squote,
          .plain dquote, .plain ' ', .plain hash, .escape 'n'])), Token.Newline, Token.Eof] ∧
    String.mk (List.map StringItem.value [.plain 'a', .escape squote, .plain dquote,
        .plain ' ', .plain hash, .escape 'n'])
      = String.mk ['a', squote, dquote, ' ', hash, LF] ∧
    SplitStream "x = 'a b' y".toList
      = .ok [Token.Id "x", Token.Char '=', Token.String "a b", Token.Id "y", Token.Newline,
          Token.Eof] :=
  ⟨(C30_string_literal squote [.plain 'a', .escape squote, .plain dquote, .plain ' ',
      .plain hash, .escape 'n'] [] initialState (Or.inl rfl) (by decide)).2.2.2.2,
    by decide, by decide⟩

/-! ## Number literals -/

/-- Claim C33 at runs of digits at which no lexeme starts: in `x12` the run `12` goes on
the word and is part of the `Id`; in `1e5` the run `5` is the exponent of the number
and gives no token; the run `12` in a string literal and in a comment gives no
`Number` token either. -/
theorem C33_digit_run_inside_a_lexeme :
    SplitStream "x12".toList = .ok [Token.Id "x12", Token.Newline, Token.Eof] ∧
    SplitStream "1e5".toList = .ok [Token.Number 1, Token.Newline, Token.Eof] ∧
    SplitStream "'12'".toList = .ok [Token.String "12", Token.Newline, Token.Eof] ∧
    SplitStream "x # 12".toList = .ok [Token.Id "x", Token.Newline, Token.Eof] := by
  decide

/-- Claim C33, for a run at which a lexeme starts. A run of digits `d :: ds` (the single
digit 0, or a run that does not begin with 0) followed by no further digit and by
neither `e` nor `E`, at whose first digit the loop of `SplitStream` starts a pass
outside a comment.  When the decimal value of the run is at most 2147483647: the
pass adds exactly one `Number` token with that value and leaves what follows the run
unread, `SplitStream` goes on from there, the tokens of an accepted input hold that
token right after the tokens of the text before the run, and the run alone is lexed
to its `Number` token, `Newline` and `Eof`.  When the value is larger, the pass and
`SplitStream` fail with `LexerError`. -/
theorem C33_number_literal (d : Char) (ds rest : List Char) (st : LexerState)
    (hd : d.isDigit = true) (hds : ∀ x ∈ ds, x.isDigit = true) (hzero : d = '0' → ds = [])
    (hmax : ∀ x, rest.head? = some x → x.isDigit = false)
    (hexp : ∀ x, rest.head? = some x → x ≠ 'e' ∧ x ≠ 'E') :
    (decimalValue (d :: ds) ≤ 2147483647 →
      lexeme st d (ds ++ rest)
        = .ok ({ st with tokens := st.tokens ++ [Token.Number (decimalValue (d :: ds))] },
               rest) ∧
      (st.is_comment = false →
        body st d (ds ++ rest)
          = .ok ({ indentBlock { st with stroke_not_empty := true } with
                    tokens := (indentBlock { st with stroke_not_empty := true }).tokens ++
                      [Token.Number (decimalValue (d :: ds))] },
                 rest)) ∧
      (∀ input n, passes n initialState input = .ok (st, d :: (ds ++ rest)) →
        st.is_comment = false →
        SplitStream input
          = run { indentBlock { st with stroke_not_empty := true } with
                  tokens := (indentBlock { st with stroke_not_empty := true }).tokens ++
                    [Token.Number (decimalValue (d :: ds))] } rest ∧
        ∀ toks, SplitStream input = .ok toks →
          ∃ added, toks = (indentBlock { st with stroke_not_empty := true }).tokens ++
              [Token.Number (decimalValue (d :: ds))] ++ added ++ [Token.Eof] ∧
            Token.Eof ∉ added) ∧
      SplitStream (d :: ds)
        = .ok [Token.Number (decimalValue (d :: ds)), Token.Newline, Token.Eof]) ∧
    (2147483647 < decimalValue (d :: ds) →
      lexeme st d (ds ++ rest) = .error .LexerError ∧
      (st.is_comment = false → run st (d :: (ds ++ rest)) = .error .LexerError) ∧
      (∀ input n, passes n initialState input = .ok (st, d :: (ds ++ rest)) →
        st.is_comment = false → SplitStream input = .error .LexerError)) := by
  have hnum : ∀ tl : List Char, (∀ x, tl.head? = some x → x.isDigit = false) →
      (∀ x, tl.head? = some x → x ≠ 'e' ∧ x ≠ 'E') →
      detail.SplitAsNumber (d :: (ds ++ tl)) =
        if decimalValue (d :: ds) ≤ 2147483647 then
          .ok ((decimalValue (d :: ds) : Int), tl)
        else .error .LexerError := by
    intro tl h1 h2
    have h := SplitAsNumber_digits d ds tl hd hds hzero h1 h2
    rw [digitsValue_eq_decimalValue, List.cons_append] at h
    exact h
  have hlex : ∀ (s : LexerState) (tl : List Char),
      (∀ x, tl.head? = some x → x.isDigit = false) →
      (∀ x, tl.head? = some x → x ≠ 'e' ∧ x ≠ 'E') →
      lexeme s d (ds ++ tl) =
        if decimalValue (d :: ds) ≤ 2147483647 then
          .ok ({ s with tokens := s.tokens ++ [Token.Number (decimalValue (d :: ds))] }, tl)
        else .error .LexerError := by
    intro s tl h1 h2
    rw [lexeme_digit s d _ hd, hnum tl h1 h2]
    split_ifs <;> rfl
  constructor
  · intro hle
    have hbody : ∀ (s : LexerState) (tl : List Char),
        (∀ x, tl.head? = some x → x.isDigit = false) →
        (∀ x, tl.head? = some x → x ≠ 'e' ∧ x ≠ 'E') → s.is_comment = false →
        body s d (ds ++ tl)
          = .ok ({ indentBlock { s with stroke_not_empty := true } with
                    tokens := (indentBlock { s with stroke_not_empty := true }).tokens ++
                      [Token.Number (decimalValue (d :: ds))] },
                 tl) := by
      intro s tl h1 h2 hcom
      rw [body_content s d _ hcom (isDigit_not_blank d hd), hlex _ tl h1 h2, if_pos hle]
    refine ⟨by rw [hlex st rest hmax hexp, if_pos hle], hbody st rest hmax hexp, ?_, ?_⟩
    · intro input n hpass hcom
      exact SplitStream_through_pass input n st _ d _ rest hpass (hbody st rest hmax hexp hcom)
    · have hb := hbody initialState [] (by simp) (by simp) rfl
      rw [List.append_nil] at hb
      exact SplitStream_single_lexeme d ds _ hb (by simp)
  · intro hgt
    have hnle : ¬ decimalValue (d :: ds) ≤ 2147483647 := by omega
    have hbody : st.is_comment = false → body st d (ds ++ rest) = .error .LexerError := by
      intro hcom
      rw [body_content st d _ hcom (isDigit_not_blank d hd), hlex _ rest hmax hexp,
        if_neg hnle]
    refine ⟨by rw [hlex st rest hmax hexp, if_neg hnle],
      fun hcom => run_error_of_body _ _ _ _ (hbody hcom), ?_⟩
    intro input n hpass hcom
    rw [SplitStream_eq_run, run_of_passes n _ _ _ _ hpass]
    exact run_error_of_body _ _ _ _ (hbody hcom)

/-- An instance of C33: the literal `2147483647` is lexed to the token `Number` of
2147483647, `Newline` and `Eof`; in `x = 12 + y` the run `12` gives `Number` of 12. -/
theorem C33_number_literal_witness :
    SplitStream ('2' :: "147483647".toList)
      = .ok [Token.Number (decimalValue ('2' :: "147483647".toList)), Token.Newline,
          Token.Eof] ∧
    decimalValue ('2' :: "147483647".toList) = 2147483647 ∧
    SplitStream "x = 12 + y".toList
      = .ok [Token.Id "x", Token.Char '=', Token.Number 12, Token.Char '+', Token.Id "y",
          Token.Newline, Token.Eof] :=
  ⟨((C33_number_literal '2' "147483647".toList " x".toList initialState (by decide)
      (by decide) (by decide) (by decide) (by decide)).1 (by decide)).2.2.2, by decide,
    by decide⟩

/-! ## Special characters -/

/-- Claim C36 at the sign of an exponent: in `1e-5` and `1e+5` the special characters `-`
and `+` stand outside strings and comments and give no token, they are read as part
of the number.  In `a-5` the same `-` starts a lexeme and gives `Char -`. -/
theorem C36_exponent_sign_gives_no_token :
    SplitStream "1e-5".toList = .ok [Token.Number 1, Token.Newline, Token.Eof] ∧
    SplitStream "1e+5".toList = .ok [Token.Number 1, Token.Newline, Token.Eof] ∧
    SplitStream "a-5".toList
      = .ok [Token.Id "a", Token.Char '-', Token.Number 5, Token.Newline, Token.Eof] := by
  decide

/-- Claim C36, for a special character at which a lexeme starts. At a special character
`c` at which the loop of `SplitStream` starts a pass outside a comment: when the next
character `d` makes one of the pairs `==`, `!=`, `<=`, `>=`, the pass adds the single
token `Eq`, `NotEq`, `LessOrEq` or `GreaterOrEq` of the pair and both characters are
consumed; in every other case, the end of the input after `c` included, the pass
adds `Char c` and only `c` is consumed.  In both cases `SplitStream` goes on from
there and the tokens of an accepted input hold the token right after the tokens of
the text before `c`; the pair alone, and `c` alone, are lexed to that token,
`Newline` and `Eof`. -/
theorem C36_special_character (c : Char) (st : LexerState)
    (hc : c ∈ Special_Char) :
    (∀ (d : Char) (tok : Token) (rest : List Char), (c, d, tok) ∈ operatorPairs →
      lexeme st c (d :: rest) = .ok ({ st with tokens := st.tokens ++ [tok] }, rest) ∧
      (st.is_comment = false →
        body st c (d :: rest)
          = .ok ({ indentBlock { st with stroke_not_empty := true } with
                    tokens := (indentBlock { st with stroke_not_empty := true }).tokens ++
                      [tok] },
                 rest)) ∧
      (∀ input n, passes n initialState input = .ok (st, c :: d :: rest) →
        st.is_comment = false →
        SplitStream input
          = run { indentBlock { st with stroke_not_empty := true } with
                  tokens := (indentBlock { st with stroke_not_empty := true }).tokens ++
                    [tok] } rest ∧
        ∀ toks, SplitStream input = .ok toks →
          ∃ added, toks = (indentBlock { st with stroke_not_empty := true }).tokens ++
              [tok] ++ added ++ [Token.Eof] ∧
            Token.Eof ∉ added) ∧
      SplitStream [c, d] = .ok [tok, Token.Newline, Token.Eof]) ∧
    (∀ (rest : List Char),
      (∀ (d : Char) (tok : Token) (tl : List Char), rest = d :: tl →
        (c, d, tok) ∉ operatorPairs) →
      lexeme st c rest = .ok ({ st with tokens := st.tokens ++ [Token.Char c] }, rest) ∧
      (st.is_comment = false →
        body st c rest
          = .ok ({ indentBlock { st with stroke_not_empty := true } with
                    tokens := (indentBlock { st with stroke_not_empty := true }).tokens ++
                      [Token.Char c] },
                 rest)) ∧
      (∀ input n, passes n initialState input = .ok (st, c :: rest) →
        st.is_comment = false →
        SplitStream input
          = run { indentBlock { st with stroke_not_empty := true } with
                  tokens := (indentBlock { st with stroke_not_empty := true }).tokens ++
                    [Token.Char c] } rest ∧
        ∀ toks, SplitStream input = .ok toks →
          ∃ added, toks = (indentBlock { st with stroke_not_empty := true }).tokens ++
              [Token.Char c] ++ added ++ [Token.Eof] ∧
            Token.Eof ∉ added)) ∧
    SplitStream [c] = .ok [Token.Char c, Token.Newline, Token.Eof] := by
  have hsp : detail.CheckSpecialChar c = true := by
    simpa [detail.CheckSpecialChar, List.contains] using hc
  obtain ⟨_, _, h3, _, h5, h6, h7⟩ := special_not_other c hsp
  have hsingle : ∀ (s : LexerState) (rest : List Char),
      (∀ (d : Char) (tok : Token) (tl : List Char), rest = d :: tl →
        (c, d, tok) ∉ operatorPairs) →
      lexeme s c rest = .ok ({ s with tokens := s.tokens ++ [Token.Char c] }, rest) := by
    intro s rest hno
    rw [lexeme_special s c _ hsp]
    cases rest with
    | nil => rfl
    | cons d tl =>
      have hcomb : ¬ detail.CheckSpecialCharCombination c d = true := by
        rw [CheckSpecialCharCombination_iff]
        rintro (⟨h1, h2⟩ | ⟨h1, h2⟩ | ⟨h1, h2⟩ | ⟨h1, h2⟩)
        · exact hno d Token.Eq tl rfl
            ((mem_operatorPairs_iff c d _).mpr (Or.inl ⟨h1, h2, rfl⟩))
        · exact hno d Token.NotEq tl rfl
            ((mem_operatorPairs_iff c d _).mpr (Or.inr (Or.inl ⟨h1, h2, rfl⟩)))
        · exact hno d Token.LessOrEq tl rfl
            ((mem_operatorPairs_iff c d _).mpr (Or.inr (Or.inr (Or.inl ⟨h1, h2, rfl⟩))))
        · exact hno d Token.GreaterOrEq tl rfl
            ((mem_operatorPairs_iff c d _).mpr (Or.inr (Or.inr (Or.inr ⟨h1, h2, rfl⟩))))
      simp only [hcomb, if_false, Bool.false_eq_true]
  have hsingleBody : ∀ (s : LexerState) (rest : List Char),
      (∀ (d : Char) (tok : Token) (tl : List Char), rest = d :: tl →
        (c, d, tok) ∉ operatorPairs) → s.is_comment = false →
      body s c rest
        = .ok ({ indentBlock { s with stroke_not_empty := true } with
                  tokens := (indentBlock { s with stroke_not_empty := true }).tokens ++
                    [Token.Char c] },
               rest) := by
    intro s rest hno hcom
    rw [body_content s c _ hcom ⟨h5, h6, h3, h7⟩, hsingle _ rest hno]
  refine ⟨?_, ?_, ?_⟩
  · intro d tok rest hmem
    have hcomb : detail.CheckSpecialCharCombination c d = true := by
      rw [CheckSpecialCharCombination_iff]
      rcases (mem_operatorPairs_iff c d tok).mp hmem with
        ⟨h1, h2, _⟩ | ⟨h1, h2, _⟩ | ⟨h1, h2, _⟩ | ⟨h1, h2, _⟩
      · exact Or.inl ⟨h1, h2⟩
      · exact Or.inr (Or.inl ⟨h1, h2⟩)
      · exact Or.inr (Or.inr (Or.inl ⟨h1, h2⟩))
      · exact Or.inr (Or.inr (Or.inr ⟨h1, h2⟩))
    have htok : DefineToken (("".push c).push d) = tok := by
      rcases (mem_operatorPairs_iff c d tok).mp hmem with
        ⟨rfl, rfl, rfl⟩ | ⟨rfl, rfl, rfl⟩ | ⟨rfl, rfl, rfl⟩ | ⟨rfl, rfl, rfl⟩ <;> decide
    have hnl : tok ≠ Token.Newline := by
      rcases (mem_operatorPairs_iff c d tok).mp hmem with
        ⟨_, _, rfl⟩ | ⟨_, _, rfl⟩ | ⟨_, _, rfl⟩ | ⟨_, _, rfl⟩ <;> decide
    have hlex : ∀ (s : LexerState) (tl : List Char), lexeme s c (d :: tl)
        = .ok ({ s with tokens := s.tokens ++ [tok] }, tl) := by
      intro s tl
      rw [lexeme_special s c _ hsp]
      simp only [hcomb, if_true, htok]
    have hbody : ∀ (s : LexerState) (tl : List Char), s.is_comment = false →
        body s c (d :: tl)
          = .ok ({ indentBlock { s with stroke_not_empty := true } with
                    tokens := (indentBlock { s with stroke_not_empty := true }).tokens ++
                      [tok] },
                 tl) := by
      intro s tl hcom
      rw [body_content s c _ hcom ⟨h5, h6, h3, h7⟩, hlex]
    refine ⟨hlex st rest, hbody st rest, ?_, ?_⟩
    · intro input n hpass hcom
      exact SplitStream_through_pass input n st _ c _ rest hpass (hbody st rest hcom)
    · exact SplitStream_single_lexeme c [d] tok (hbody initialState [] rfl) hnl
  · intro rest hno
    refine ⟨hsingle st rest hno, hsingleBody st rest hno, ?_⟩
    intro input n hpass hcom
    exact SplitStream_through_pass input n st _ c _ rest hpass (hsingleBody st rest hno hcom)
  · exact SplitStream_single_lexeme c [] _
      (hsingleBody initialState [] (fun d tok tl h => by cases h) rfl) (by simp)

/-- An instance of C36: the input `<=` is lexed to `LessOrEq`, `Newline` and `Eof`; the
input `<` to `Char <`, `Newline` and `Eof`; the whole line `a<=b<c!` gives the tokens
in turn. -/
theorem C36_special_character_witness :
    SplitStream ['<', '='] = .ok [Token.LessOrEq, Token.Newline, Token.Eof] ∧
    SplitStream ['<'] = .ok [Token.Char '<', Token.Newline, Token.Eof] ∧
    lexeme initialState '<' ['b']
      = .ok ({ initialState with tokens := initialState.tokens ++ [Token.Char '<'] }, ['b']) ∧
    SplitStream "a<=b<c!".toList
      = .ok [Token.Id "a", Token.LessOrEq, Token.Id "b", Token.Char '<', Token.Id "c",
          Token.Char '!', Token.Newline, Token.Eof] :=
  ⟨((C36_special_character '<' initialState (by decide)).1 '=' Token.LessOrEq []
      (by decide)).2.2.2,
    (C36_special_character '<' initialState (by decide)).2.2,
    ((C36_special_character '<' initialState (by decide)).2.1 ['b'] (by
      intro d tok tl h
      cases h
      simp [operatorPairs])).1,
    by decide⟩

end parse
